import Mathlib

/-!
# defDataFile: the `DataFile` tree, its text encoder and its text decoder

A shallow embedding of `src/DataFile.hpp`.

* `std::string` is a list of characters (`Str`), `std::vector` is a `List`,
  `size_t` is `Nat` (vectors are taken to be unbounded).
* `std::unordered_map<std::string, size_t>` is an association list that is only
  ever looked up by key and extended by a key that is absent.
* A C++ reference to a node inside the tree that is being decoded is the path
  (list of child positions) leading from the root to that node.
* Undefined behaviour of the C++ (indexing a vector out of range, `back()` of an
  empty vector, `top()`/`pop()` of an empty stack) is the result `none`.
-/

/-- A `std::string`: the sequence of its characters. -/
abbrev Str := List Char

/-- The class `DataFile` (lines 44-82): the three private members. -/
structure DataFile where
  m_vValues : List Str
  m_vObjects : List (Str × DataFile)
  m_mapObjects : List (Str × Nat)

namespace DataFile

/-- The default-constructed node `DataFile()`: all three containers empty. -/
def empty : DataFile := ⟨[], [], []⟩

instance : Inhabited DataFile := ⟨empty⟩

/-! ## The name index (`std::unordered_map`) -/

/-- The call `m.count(k)` of an `unordered_map`: 1 when the key is present, else 0. -/
def mapCount (m : List (Str × Nat)) (k : Str) : Nat :=
  if (m.lookup k).isSome then 1 else 0

/-- The assignment `m[k] = v` of an `unordered_map`: overwrite the entry of a key
that is present, add an entry for a key that is absent. -/
def mapAssign (m : List (Str × Nat)) (k : Str) (v : Nat) : List (Str × Nat) :=
  if (m.lookup k).isSome then m.map (fun e => if e.1 = k then (k, v) else e)
  else m ++ [(k, v)]

/-! ## Scalar slots (lines 87-128) -/

/-- The two statements of `SetString` (lines 89-92) with the sum `nIndex + 1`
taken in the natural numbers: `resize(nIndex + 1)` when the index is past the end
(new slots are empty strings), then assign the slot. It is what `SetString` does
for every index below the largest `size_t`. -/
def storeValue (df : DataFile) (sValue : Str) (nIndex : Nat := 0) : DataFile :=
  let vals :=
    if nIndex ≥ df.m_vValues.length then
      df.m_vValues ++ List.replicate (nIndex + 1 - df.m_vValues.length) []
    else df.m_vValues
  { df with m_vValues := vals.set nIndex sValue }

/-- The call `v.resize(n)` of a `std::vector<std::string>`: keep the first `n`
elements and fill up with empty strings to `n` elements. The allocation is taken
to succeed. -/
def resize (v : List Str) (n : Nat) : List Str :=
  v.take n ++ List.replicate (n - v.length) []

/-- The method `SetString` (lines 87-93). `nIndex` is a `size_t`, so the sum
`nIndex + 1` is taken modulo `2 ^ 64`: for the largest `size_t` it is 0,
`resize(0)` empties the vector, and the assignment `m_vValues[nIndex] = sValue`
is then out of range, which is undefined (`none`). -/
def SetString (df : DataFile) (sValue : Str) (nIndex : Nat := 0) : Option DataFile :=
  let vals :=
    if nIndex ≥ df.m_vValues.length then resize df.m_vValues ((nIndex + 1) % 2 ^ 64)
    else df.m_vValues
  if nIndex < vals.length then some { df with m_vValues := vals.set nIndex sValue }
  else none

/-- The method `GetString` (lines 95-98): `m_vValues[nIndex]`, undefined when the
index is out of range. -/
def GetString (df : DataFile) (nIndex : Nat := 0) : Option Str :=
  df.m_vValues[nIndex]?

/-- The method `CountValues` (lines 303-306). -/
def CountValues (df : DataFile) : Nat := df.m_vValues.length

/-- The method `CountObjects` (lines 308-311). -/
def CountObjects (df : DataFile) : Nat := df.m_vObjects.length

/-- The method `HasProperty` (lines 130-133). -/
def HasProperty (df : DataFile) (sName : Str) : Bool :=
  decide (mapCount df.m_mapObjects sName > 0)

/-- The method `operator[]` (lines 135-144). The result is the node after the
call together with the position in `m_vObjects` of the child the returned
reference designates; `none` when `m_vObjects[m_mapObjects[sKey]]` is out of
range. -/
def operatorSubscript (df : DataFile) (sKey : Str) : Option (DataFile × Nat) :=
  let df1 : DataFile :=
    if mapCount df.m_mapObjects sKey = 0 then
      { df with
        m_mapObjects := mapAssign df.m_mapObjects sKey df.m_vObjects.length
        m_vObjects := df.m_vObjects ++ [(sKey, empty)] }
    else df
  match df1.m_mapObjects.lookup sKey with
  | none => none
  | some i => if i < df1.m_vObjects.length then some (df1, i) else none

/-! ## Typed views of a scalar slot (lines 100-128) -/

/-- The library function `std::to_string` on a `long long` or an `int`: the
decimal digits, after a `'-'` for a negative number. -/
def to_string (n : Int) : Str :=
  if n < 0 then '-' :: Nat.toDigits 10 n.natAbs else Nat.toDigits 10 n.natAbs

/-- The library function `std::isspace` in the "C" locale: space, `\t`, `\n`,
`\v`, `\f`, `\r`. -/
def isspace (c : Char) : Bool :=
  c = ' ' || c = '\t' || c = '\n' || c = '\x0b' || c = '\x0c' || c = '\r'

/-- The digits `std::stoll` consumes, most significant first, up to the first
character that is not a digit; `acc` is the value read so far. -/
def stollDigits : Str → Nat → Nat
  | [], acc => acc
  | c :: cs, acc =>
    if c.isDigit then stollDigits cs (acc * 10 + (c.toNat - '0'.toNat)) else acc

/-- The library function `std::stoll` (base 10): skip leading white space, read
an optional sign and the digits. `none` when it throws: `std::invalid_argument`
without a digit, `std::out_of_range` outside of `long long`. -/
def stoll (s : Str) : Option Int :=
  match s.dropWhile isspace with
  | [] => none
  | c :: r =>
    let neg := decide (c = '-')
    let digits := if c = '-' ∨ c = '+' then r else c :: r
    match digits with
    | [] => none
    | d :: _ =>
      if d.isDigit then
        let v : Int := if neg then -(stollDigits digits 0 : Int) else (stollDigits digits 0 : Int)
        if -2 ^ 63 ≤ v ∧ v < 2 ^ 63 then some v else none
      else none

/-- The method `SetInt` (lines 100-103). -/
def SetInt (df : DataFile) (nValue : Int) (nIndex : Nat := 0) : Option DataFile :=
  df.SetString (to_string nValue) nIndex

/-- The method `GetInt` (lines 105-108). -/
def GetInt (df : DataFile) (nIndex : Nat := 0) : Option Int :=
  match df.GetString nIndex with
  | none => none
  | some s => stoll s

/-- The method `SetBool` (lines 120-123): the text of `(int)bValue`. -/
def SetBool (df : DataFile) (bValue : Bool) (nIndex : Nat := 0) : Option DataFile :=
  df.SetString (to_string (if bValue then 1 else 0)) nIndex

/-- The method `GetBool` (lines 125-128): slot 0 read as a number, cast to `bool`. -/
def GetBool (df : DataFile) : Option Bool :=
  match df.GetString with
  | none => none
  | some s =>
    match stoll s with
    | none => none
    | some v => some (decide (v ≠ 0))

/-! ## Nodes designated by references into a tree -/

/-- The node a reference designates: follow the child positions from the root. -/
def nodeAt (df : DataFile) : List Nat → Option DataFile
  | [] => some df
  | i :: p =>
    match df.m_vObjects[i]? with
    | none => none
    | some obj => obj.2.nodeAt p

/-- Run an operation on the node a reference designates, giving the tree after
the operation and the operation's result. -/
def updateAt {α : Type} (df : DataFile) :
    List Nat → (DataFile → Option (DataFile × α)) → Option (DataFile × α)
  | [], f => f df
  | i :: p, f =>
    match df.m_vObjects[i]? with
    | none => none
    | some obj =>
      match updateAt obj.2 p f with
      | none => none
      | some (child, a) =>
        some ({ df with m_vObjects := df.m_vObjects.set i (obj.1, child) }, a)

/-! ## The encoder (lines 146-199) -/

/-- The lambda `AddTabs` (lines 150-154). -/
def AddTabs (tabs : Nat) : Str := List.replicate tabs '\t'

/-- The loop over `values` (lines 165-173): each value is followed by `";\n"`
when it is the last one and by `", "` otherwise. -/
def WriteValues : List Str → Str
  | [] => []
  | [v] => v ++ ";\n".toList
  | v :: vs => v ++ ", ".toList ++ WriteValues vs

mutual
/-- The recursive lambda `Write` (lines 148-188) applied to a node. -/
def WriteNode (tabs : Nat) : DataFile → Str
  | ⟨_, objs, _⟩ => WriteObjects tabs objs
/-- The loop `for (auto& obj : df.m_vObjects)` (lines 156-187). -/
def WriteObjects (tabs : Nat) : List (Str × DataFile) → Str
  | [] => []
  | (name, child) :: rest =>
    AddTabs tabs ++
    (if child.m_vObjects.isEmpty then
      name ++ " = ".toList ++ WriteValues child.m_vValues
    else
      name ++ "\n".toList ++ AddTabs tabs ++ "\x7b\n".toList ++
        WriteNode (tabs + 1) child ++ AddTabs tabs ++ "\x7d\n".toList) ++
    WriteObjects tabs rest
end

/-- The static method `Write` (lines 146-199). `isOpen` tells whether the file
could be opened; the result is the returned flag and the text written to the
file, if any. -/
def Write (dataFile : DataFile) (isOpen : Bool) : Bool × Option Str :=
  if !isOpen then (false, none)
  else (true, some (WriteNode 0 dataFile))

/-! ## The decoder (lines 201-301) -/

/-- The characters of `" \t\n\r\f\v"`. -/
def isTrimChar (c : Char) : Bool :=
  c = ' ' || c = '\t' || c = '\n' || c = '\r' || c = '\x0c' || c = '\x0b'

/-- The lambda `Trim` (lines 203-207): erase up to the first character that is
not in `" \t\n\r\f\v"`, then erase after the last such character. On a string
of such characters only, `find_first_not_of` gives `npos` and the first `erase`
empties the string; `find_last_not_of` then gives `npos`, `npos + 1` is 0, and
the second `erase` leaves the string empty. -/
def Trim (s : Str) : Str :=
  (s.dropWhile isTrimChar).rdropWhile isTrimChar

/-- The strings that the calls of `std::getline` in the loop
`while (!file.eof())` store in `sLine`: the pieces between the newlines, the last
one included. A call that finds a newline does not set `eof`, so after a final
newline one more call runs and gives the empty string. -/
def getlines : Str → List Str
  | [] => [[]]
  | c :: cs =>
    if c = '\n' then [] :: getlines cs
    else
      match getlines cs with
      | [] => [[c]]
      | l :: ls => (c :: l) :: ls

/-- The local variables of `Read` that live across lines: the tree being filled,
the stack of references (top first), `sFieldName` and `sFieldValue`. -/
structure ReadState where
  dataFile : DataFile
  stack : List (List Nat)
  sFieldName : Str
  sFieldValue : Str

/-- The expression `stack.top().get()[sFieldName]` (lines 236, 271, 289): the tree
after the call and the reference it returns. -/
def topSubscript (root : DataFile) (stack : List (List Nat)) (sFieldName : Str) :
    Option (DataFile × List Nat) :=
  match stack.head? with
  | none => none
  | some top =>
    match root.updateAt top (fun d => d.operatorSubscript sFieldName) with
    | none => none
    | some (root1, i) => some (root1, top ++ [i])

/-- The commit loops (lines 268-272 and 286-290): trim each token and store it in
slot `idx` of `stack.top().get()[sFieldName]`. The index `idx` counts elements of
the vector `vecTokens`, so it is below the largest `size_t` and the call of
`SetString` is `storeValue`. -/
def commitTokens (stack : List (List Nat)) (sFieldName : Str) :
    List Str → Nat → DataFile → Option DataFile
  | [], _, root => some root
  | tok :: rest, idx, root =>
    match topSubscript root stack sFieldName with
    | none => none
    | some (root1, ref) =>
      match root1.updateAt ref (fun d => some (d.storeValue (Trim tok) idx, ())) with
      | none => none
      | some (root2, _) => commitTokens stack sFieldName rest (idx + 1) root2

/-- The statement `vecTokens.back() += c`, undefined on an empty vector. -/
def backAppend (vecTokens : List Str) (c : Char) : Option (List Str) :=
  match vecTokens.getLast? with
  | none => none
  | some t => some (vecTokens.dropLast ++ [t ++ [c]])

/-- The loop `for (const auto& c : sFieldValue)` (lines 256-282) over the state
`(bQuotes, vecTokens, tree)`. -/
def tokenize (stack : List (List Nat)) (sFieldName : Str) :
    Str → Bool → List Str → DataFile → Option (List Str × DataFile)
  | [], _, vecTokens, root => some (vecTokens, root)
  | c :: cs, bQuotes, vecTokens, root =>
    if c = '"' then tokenize stack sFieldName cs (!bQuotes) vecTokens root
    else if bQuotes then
      match backAppend vecTokens c with
      | none => none
      | some toks => tokenize stack sFieldName cs bQuotes toks root
    else if c = ';' then
      match commitTokens stack sFieldName vecTokens 0 root with
      | none => none
      | some root1 => tokenize stack sFieldName cs bQuotes [] root1
    else if c = ',' then tokenize stack sFieldName cs bQuotes (vecTokens ++ [[]]) root
    else
      match backAppend vecTokens c with
      | none => none
      | some toks => tokenize stack sFieldName cs bQuotes toks root

/-- The block guarded by `if (!sLine.empty())` (lines 229-295), `sLine` being the
trimmed and truncated line. `indexOf` gives the length of the line when there is
no `'='`, which stands for `npos`. -/
def ProcessLine (st : ReadState) (sLine : Str) : Option ReadState :=
  if sLine.isEmpty then some st
  else
    let i := sLine.indexOf '='
    if i = sLine.length then
      if sLine.head? = some '{' then
        match topSubscript st.dataFile st.stack st.sFieldName with
        | none => none
        | some (root1, ref) => some { st with dataFile := root1, stack := ref :: st.stack }
      else if sLine.getLast? = some '}' then
        match st.stack with
        | [] => none
        | _ :: below => some { st with stack := below }
      else some { st with sFieldName := sLine }
    else
      let sFieldName := Trim (sLine.take i)
      let sFieldValue := Trim (sLine.drop (i + 1))
      match tokenize st.stack sFieldName sFieldValue false [[]] st.dataFile with
      | none => none
      | some (vecTokens, root1) =>
        match commitTokens st.stack sFieldName vecTokens 0 root1 with
        | none => none
        | some root2 =>
          some { dataFile := root2, stack := st.stack,
                 sFieldName := sFieldName, sFieldValue := sFieldValue }

/-- The body of the loop `while (!file.eof())` (lines 221-295) after
`std::getline` has stored the line in `sLine`: trim a non-empty line, cut it at
the first `'#'` (`find_first_of` gives `npos` when there is none, and `substr`
then keeps everything), and process what is left. -/
def ReadLine (st : ReadState) (sLine : Str) : Option ReadState :=
  let sLine1 := if !sLine.isEmpty then Trim sLine else sLine
  ProcessLine st (sLine1.takeWhile (fun c => c != '#'))

/-- The loop `while (!file.eof())` over the lines of the file. -/
def ReadLines : ReadState → List Str → Option ReadState
  | st, [] => some st
  | st, l :: ls =>
    match ReadLine st l with
    | none => none
    | some st1 => ReadLines st1 ls

/-- The static method `Read` (lines 201-301) on a file that cannot be opened
(`none`) or that opens and is read to its end without a read error, `file` being
its content; the result is the returned flag and the tree after the call, `none`
when the behaviour is undefined. The method on any stream is `ReadStream`. -/
def Read (dataFile : DataFile) (file : Option Str) : Option (Bool × DataFile) :=
  match file with
  | none => some (false, dataFile)
  | some text =>
    match ReadLines ⟨dataFile, [[]], [], []⟩ (getlines text) with
    | none => none
    | some st => some (true, st.dataFile)

/-! ## The decoder on a stream whose reads can fail -/

/-- The `std::ifstream` of `Read` (line 209) once it is open, as the loop sees it.
`good unread readError`: no state bit is set, the reads deliver the characters
`unread`, and the read after the last of them meets the end of the file
(`readError = false`) or fails (`readError = true`; a directory, for one, opens
and cannot be read). `atEof`: `eofbit` is set. `failed`: `badbit` or `failbit` is
set and `eofbit` is not. -/
inductive Ifstream where
  | good (unread : Str) (readError : Bool) : Ifstream
  | atEof : Ifstream
  | failed : Ifstream

/-- The method `eof()`: whether `eofbit` is set. -/
def Ifstream.eof : Ifstream → Bool
  | .atEof => true
  | _ => false

/-- The call `std::getline(file, sLine)` on the empty `sLine` of an iteration
(lines 222-223): the string left in `sLine` and the stream after the call. On a
stream in good state the characters up to the first newline are extracted and the
newline is dropped; when there is no newline all characters are extracted and the
read that follows sets `eofbit` at the end of the file or `badbit` when it fails.
On a stream that is not in good state nothing is extracted and `sLine` stays
empty. -/
def getline : Ifstream → Str × Ifstream
  | .good unread readError =>
    if '\n' ∈ unread then
      (unread.takeWhile (fun c => c != '\n'),
        .good ((unread.dropWhile (fun c => c != '\n')).drop 1) readError)
    else (unread, if readError then .failed else .atEof)
  | .atEof => ([], .atEof)
  | .failed => ([], .failed)

/-- What a call has come to after a bounded number of steps: undefined behaviour,
still running, or returned with a result. -/
inductive Outcome (α : Type) where
  | undefined : Outcome α
  | running : Outcome α
  | returned (a : α) : Outcome α

/-- The loop `while (!file.eof())` (lines 221-295), followed for at most `n`
evaluations of its condition. -/
def ReadLoop : Nat → ReadState → Ifstream → Outcome ReadState
  | 0, _, _ => .running
  | n + 1, st, file =>
    if file.eof then .returned st
    else
      match ReadLine st (getline file).1 with
      | none => .undefined
      | some st1 => ReadLoop n st1 (getline file).2

/-- The static method `Read` (lines 201-301) on any stream, followed for at most
`n` evaluations of the loop condition. `file` is `none` when `is_open()` is false,
and the stream after opening otherwise. -/
def ReadStream (n : Nat) (dataFile : DataFile) (file : Option Ifstream) :
    Outcome (Bool × DataFile) :=
  match file with
  | none => .returned (false, dataFile)
  | some f =>
    match ReadLoop n ⟨dataFile, [[]], [], []⟩ f with
    | .undefined => .undefined
    | .running => .running
    | .returned st => .returned (true, st.dataFile)

/-! ## Definitions used to state the properties -/

/-- The tree in which the node a reference designates is replaced by `new`. -/
def replaceAt (df : DataFile) : List Nat → DataFile → DataFile
  | [], new => new
  | i :: p, new =>
    match df.m_vObjects[i]? with
    | none => df
    | some obj => { df with m_vObjects := df.m_vObjects.set i (obj.1, replaceAt obj.2 p new) }

/-- No leading and no trailing character of `" \t\n\r\f\v"`. -/
def noEdgeSpace (s : Str) : Bool :=
  (match s.head? with
   | some c => !isTrimChar c
   | none => true) &&
  (match s.getLast? with
   | some c => !isTrimChar c
   | none => true)

/-- A name the text format can carry: non-empty, no leading or trailing
whitespace, none of `'='`, `'#'`, newline. -/
def goodName (s : Str) : Prop :=
  s ≠ [] ∧ noEdgeSpace s = true ∧ '=' ∉ s ∧ '#' ∉ s ∧ '\n' ∉ s

instance (s : Str) : Decidable (goodName s) := by
  unfold goodName; infer_instance

/-- A section name: it neither starts with `'{'` nor ends with `'}'`. -/
def goodSectionName (s : Str) : Prop :=
  s.head? ≠ some '{' ∧ s.getLast? ≠ some '}'

instance (s : Str) : Decidable (goodSectionName s) := by
  unfold goodSectionName; infer_instance

/-- A value the text format can carry: no leading or trailing whitespace, none
of `'"'`, `','`, `';'`, `'#'`, newline. -/
def goodValue (v : Str) : Prop :=
  noEdgeSpace v = true ∧ '"' ∉ v ∧ ',' ∉ v ∧ ';' ∉ v ∧ '#' ∉ v ∧ '\n' ∉ v

instance (v : Str) : Decidable (goodValue v) := by
  unfold goodValue; infer_instance

mutual
/-- A node other than the root that the text format can carry: a leaf has at
least one value and all its values are good, a section has encodable children. -/
def encodableNode : DataFile → Bool
  | ⟨vals, objs, _⟩ =>
    if objs.isEmpty then !vals.isEmpty && vals.all (fun v => decide (goodValue v))
    else encodableObjects objs
/-- Children the text format can carry: good names, distinct among siblings,
sections named by section names, every child encodable. -/
def encodableObjects : List (Str × DataFile) → Bool
  | [] => true
  | (name, child) :: rest =>
    decide (goodName name) &&
    (child.m_vObjects.isEmpty || decide (goodSectionName name)) &&
    decide (name ∉ rest.map Prod.fst) &&
    encodableNode child && encodableObjects rest
end

/-- The name index of children that were inserted one after the other, the first
one at position `k`. -/
def nameIndexFrom (k : Nat) : List (Str × DataFile) → List (Str × Nat)
  | [] => []
  | (name, _) :: rest => (name, k) :: nameIndexFrom (k + 1) rest

mutual
/-- What decoding the encoding of a node builds: the values of a leaf, no values
for a section, the decoded children, and the name index of their insertion. -/
def decodedNode : DataFile → DataFile
  | ⟨vals, objs, _⟩ =>
    ⟨if objs.isEmpty then vals else [], decodedObjects objs, nameIndexFrom 0 objs⟩
/-- The children that decoding the encoding of `objs` builds. -/
def decodedObjects : List (Str × DataFile) → List (Str × DataFile)
  | [] => []
  | (name, child) :: rest => (name, decodedNode child) :: decodedObjects rest
end

mutual
/-- Sections hold no values and every name index lists the children in order:
the trees that `operator[]` and `SetString` build when values are only given to
nodes without children. -/
def inSyncNode : DataFile → Bool
  | ⟨vals, objs, map⟩ =>
    (objs.isEmpty || vals.isEmpty) && decide (map = nameIndexFrom 0 objs) && inSyncObjects objs
/-- Every child is `inSyncNode`. -/
def inSyncObjects : List (Str × DataFile) → Bool
  | [] => true
  | (_, child) :: rest => inSyncNode child && inSyncObjects rest
end

mutual
/-- Same child names in the same order and, for every leaf of the first tree,
the same value list in the second tree. -/
def sameContent : DataFile → DataFile → Bool
  | ⟨vals, objs, _⟩, t =>
    (!objs.isEmpty || decide (t.m_vValues = vals)) && sameChildren objs t.m_vObjects
/-- Two child lists of equal length with equal names and pairwise `sameContent`. -/
def sameChildren : List (Str × DataFile) → List (Str × DataFile) → Bool
  | [], l => l.isEmpty
  | (name, child) :: rest, l =>
    match l with
    | [] => false
    | (name2, child2) :: rest2 =>
      decide (name2 = name) && sameContent child child2 && sameChildren rest rest2
end

/-! ## Definitions used to state the properties of the decoder -/

/-- The line as the decoder sees it (lines 224-227): trimmed when it is not
empty, then cut at the first `'#'`. -/
def lineCore (sLine : Str) : Str :=
  (if !sLine.isEmpty then Trim sLine else sLine).takeWhile (fun c => c != '#')

/-- The name an assignment line assigns to (lines 247-248): the trimmed text
before the first `'='`. -/
def fieldNameOf (sLine : Str) : Str :=
  Trim ((lineCore sLine).take ((lineCore sLine).indexOf '='))

/-- The value expression of an assignment line (lines 250-251): the trimmed text
after the first `'='`. -/
def valueExprOf (sLine : Str) : Str :=
  Trim ((lineCore sLine).drop ((lineCore sLine).indexOf '=' + 1))

/-- The token list with `c` appended to its last token; an empty list is left as
it is. -/
def pushChar (vecTokens : List Str) (c : Char) : List Str :=
  match backAppend vecTokens c with
  | none => vecTokens
  | some toks => toks

/-- The token list the tokenizer holds when it reaches the first `';'` outside
quotes, or the end of the expression when there is none; `bQuotes` and
`vecTokens` are the state it starts in. -/
def scanTokens : Str → Bool → List Str → List Str
  | [], _, vecTokens => vecTokens
  | c :: cs, bQuotes, vecTokens =>
    if c = '"' then scanTokens cs (!bQuotes) vecTokens
    else if bQuotes then scanTokens cs bQuotes (pushChar vecTokens c)
    else if c = ';' then vecTokens
    else if c = ',' then scanTokens cs bQuotes (vecTokens ++ [[]])
    else scanTokens cs bQuotes (pushChar vecTokens c)

/-- The expression has a `';'` outside quotes. -/
def hasSemi : Str → Bool → Bool
  | [], _ => false
  | c :: cs, bQuotes =>
    if c = '"' then hasSemi cs (!bQuotes)
    else if bQuotes then hasSemi cs bQuotes
    else if c = ';' then true
    else hasSemi cs bQuotes

/-- The expression has no character after its first `';'` outside quotes. -/
def safeExpr : Str → Bool → Bool
  | [], _ => true
  | c :: cs, bQuotes =>
    if c = '"' then safeExpr cs (!bQuotes)
    else if bQuotes then safeExpr cs bQuotes
    else if c = ';' then cs.isEmpty
    else safeExpr cs bQuotes

/-- The expression has no `';'` outside quotes and every quote is closed at its
end. -/
def plainExpr : Str → Bool → Bool
  | [], bQuotes => !bQuotes
  | c :: cs, bQuotes =>
    if c = '"' then plainExpr cs (!bQuotes)
    else if bQuotes then plainExpr cs bQuotes
    else if c = ';' then false
    else plainExpr cs bQuotes

/-- What a node holds by itself: its values, the names of its children, and its
name index. -/
def shallow (d : DataFile) : List Str × List Str × List (Str × Nat) :=
  (d.m_vValues, d.m_vObjects.map Prod.fst, d.m_mapObjects)

/-- Every node of the tree (the root and every node reached through children)
satisfies `P`. -/
def AllNodes (P : DataFile → Prop) (t : DataFile) : Prop :=
  ∀ (q : List Nat) (n : DataFile), t.nodeAt q = some n → P n

/-- The name index and the children of a node are in sync: the index maps `k`
to `i` if and only if the child at position `i` is named `k`. -/
def SyncLocal (d : DataFile) : Prop :=
  ∀ (k : Str) (i : Nat),
    d.m_mapObjects.lookup k = some i ↔ (d.m_vObjects[i]?).map Prod.fst = some k

/-- No value and no child name of the node contains `'#'`. -/
def NoHashLocal (d : DataFile) : Prop :=
  (∀ v ∈ d.m_vValues, '#' ∉ v) ∧ (∀ e ∈ d.m_vObjects, '#' ∉ e.1)

/-- A property of single nodes that the operations on a node maintain when the
keys and values they are given consist of characters satisfying `ok`: it depends
only on what the node holds by itself, the default-constructed node has it,
`SetString` keeps it, and so does `operator[]` when it adds a child. Every
character other than `'#'` satisfies `ok`. -/
structure NodeInv (P : DataFile → Prop) (ok : Char → Prop) : Prop where
  congr : ∀ a b : DataFile, shallow a = shallow b → P a → P b
  atEmpty : P empty
  set : ∀ (d : DataFile) (v : Str) (i : Nat), (∀ c ∈ v, ok c) → P d → P (d.storeValue v i)
  add : ∀ (d : DataFile) (k : Str), (∀ c ∈ k, ok c) → P d →
    d.m_mapObjects.lookup k = none →
    P { d with
        m_mapObjects := d.m_mapObjects ++ [(k, d.m_vObjects.length)]
        m_vObjects := d.m_vObjects ++ [(k, empty)] }
  text : ∀ c : Char, c ≠ '#' → ok c

/-- The trees a program can build: the default-constructed node, and what
`operator[]`, `SetString` (which the setters `SetInt`, `SetDecimal` and `SetBool`
call with the text of their argument) and `Read` make of a tree that can be built
when they are called on one of its nodes. A call of `SetString` that is defined
gives `storeValue`, which is taken here for every index. -/
inductive Built : DataFile → Prop
  | default : Built empty
  | subscript (t t1 : DataFile) (p : List Nat) (sKey : Str) (i : Nat) :
      Built t → t.updateAt p (fun d => d.operatorSubscript sKey) = some (t1, i) → Built t1
  | setString (t t1 : DataFile) (p : List Nat) (sValue : Str) (nIndex : Nat) :
      Built t → t.updateAt p (fun d => some (d.storeValue sValue nIndex, ())) = some (t1, ()) →
      Built t1
  | read (t t1 : DataFile) (p : List Nat) (file : Option Str) (b : Bool) :
      Built t →
      t.updateAt p (fun d =>
        match Read d file with
        | none => none
        | some r => some (r.2, r.1)) = some (t1, b) →
      Built t1

/-- An opening line: after trimming and cutting at `'#'` it is not empty, has no
`'='` and starts with `'{'`. -/
def isOpenLine (sLine : Str) : Bool :=
  !(lineCore sLine).isEmpty &&
  decide ((lineCore sLine).indexOf '=' = (lineCore sLine).length) &&
  decide ((lineCore sLine).head? = some '{')

/-- A closing line: after trimming and cutting at `'#'` it is not empty, has no
`'='`, does not start with `'{'` and ends with `'}'`. -/
def isCloseLine (sLine : Str) : Bool :=
  !(lineCore sLine).isEmpty &&
  decide ((lineCore sLine).indexOf '=' = (lineCore sLine).length) &&
  decide ((lineCore sLine).head? ≠ some '{') &&
  decide ((lineCore sLine).getLast? = some '}')

/-- A line that is not an assignment line, or an assignment line whose value
expression has no character after its first `';'` outside quotes. -/
def tokenSafeLine (sLine : Str) : Bool :=
  decide ('=' ∉ lineCore sLine) || safeExpr (valueExprOf sLine) false

/-- Every reference of the stack designates a node of the tree. -/
def ValidStack (root : DataFile) (stack : List (List Nat)) : Prop :=
  ∀ p ∈ stack, (root.nodeAt p).isSome = true

/-- Every reference that designates a node of the first tree designates a node
of the second tree. -/
def Grows (root root1 : DataFile) : Prop :=
  ∀ q : List Nat, (root.nodeAt q).isSome = true → (root1.nodeAt q).isSome = true

/-- A bare-name line: after trimming and cutting at `'#'` it is not empty, has no
`'='`, does not start with `'{'` and does not end with `'}'`. -/
def isBareNameLine (sLine : Str) : Bool :=
  !(lineCore sLine).isEmpty &&
  decide ((lineCore sLine).indexOf '=' = (lineCore sLine).length) &&
  decide ((lineCore sLine).head? ≠ some '{') &&
  decide ((lineCore sLine).getLast? ≠ some '}')

/-- The name given by the most recently seen bare-name line among `lines`, the
empty name when there is none. -/
def lastBareName (lines : List Str) : Str :=
  lines.foldl (fun fn l => if isBareNameLine l then lineCore l else fn) []

/-- The value of `sFieldName` after a line, `fn` being its value before: a
bare-name line stores the whole line (line 242), an assignment line stores the
trimmed text before the first `'='` (lines 247-248), any other line leaves it. -/
def nameAfterLine (fn : Str) (sLine : Str) : Str :=
  if isBareNameLine sLine then lineCore sLine
  else if '=' ∈ lineCore sLine then fieldNameOf sLine
  else fn

/-- The value of `sFieldName` after `lines`, starting from the empty name. -/
def pendingName (lines : List Str) : Str :=
  lines.foldl nameAfterLine []


/-- The node `z` is a later state of the node `a`: it has at least as many value
slots and children, and its name index starts with the name index of `a`. -/
def ExtLocal (a z : DataFile) : Prop :=
  a.m_vValues.length ≤ z.m_vValues.length ∧ a.m_vObjects.length ≤ z.m_vObjects.length ∧
  a.m_mapObjects <+: z.m_mapObjects

/-- The tree `Z` is a later state of the tree `A`: every node of `A` is at the same
place in `Z`, in a later state. -/
def Ext (A Z : DataFile) : Prop :=
  ∀ (q : List Nat) (a : DataFile), A.nodeAt q = some a →
    ∃ z, Z.nodeAt q = some z ∧ ExtLocal a z

/-- The node `b` has the children names, the name index and the number of value
slots of `z`, and each of its value slots holds what the slot holds in `z` or what
it holds in `a`, when `a` is there and has the slot. -/
def MixLocal (b z : DataFile) (a : Option DataFile) : Prop :=
  b.m_vObjects.map Prod.fst = z.m_vObjects.map Prod.fst ∧
  b.m_mapObjects = z.m_mapObjects ∧
  b.m_vValues.length = z.m_vValues.length ∧
  ∀ j : Nat, b.m_vValues[j]? = z.m_vValues[j]? ∨
    ∃ a0, a = some a0 ∧ j < a0.m_vValues.length ∧ b.m_vValues[j]? = a0.m_vValues[j]?

/-- The tree `B` has the nodes of `Z`, each with the names, name index and number
of value slots it has in `Z`, and every value slot of `B` holds what it holds in
`Z` or what it holds in `A`. -/
def Mix (B Z A : DataFile) : Prop :=
  ∀ (q : List Nat) (z : DataFile), Z.nodeAt q = some z →
    ∃ b, B.nodeAt q = some b ∧ MixLocal b z (A.nodeAt q)
/-! # Theorems -/

/-! ## Encoder lemmas -/

theorem WriteObjects_append (tabs : Nat) (xs ys : List (Str × DataFile)) :
    WriteObjects tabs (xs ++ ys) = WriteObjects tabs xs ++ WriteObjects tabs ys := by
  induction xs with
  | nil => simp [WriteObjects]
  | cons x xs ih =>
    obtain ⟨name, child⟩ := x
    show WriteObjects tabs ((name, child) :: (xs ++ ys)) = _
    simp only [WriteObjects, ih, List.append_assoc]

theorem WriteNode_eq (tabs : Nat) (df : DataFile) :
    WriteNode tabs df = WriteObjects tabs df.m_vObjects := by
  cases df; simp [WriteNode]

theorem WriteValues_cons (v : Str) (vs : List Str) :
    WriteValues (v :: vs) = List.intercalate ", ".toList (v :: vs) ++ ";\n".toList := by
  induction vs generalizing v with
  | nil => simp [WriteValues, List.intercalate]
  | cons w ws ih =>
    rw [WriteValues, ih]
    · simp [List.intercalate, List.intersperse]
    · simp

/-- Claim C2 (leaf encoding). In the loop of the encoder running with `tabs = d`
(the call for the children at nesting depth `d`), a child without children
named `name` whose values are `v :: vs` contributes exactly `d` tab characters,
the name, `" = "`, the values joined by `", "`, and `";\n"`: the output is the
output for the children before it, then this text, then the output for the
children after it. -/
theorem leaf_encoding (tabs : Nat) (before after : List (Str × DataFile))
    (name : Str) (child : DataFile) (v : Str) (vs : List Str)
    (hleaf : child.m_vObjects = []) (hvals : child.m_vValues = v :: vs) :
    WriteObjects tabs (before ++ (name, child) :: after) =
      WriteObjects tabs before ++
        (List.replicate tabs '\t' ++ name ++ " = ".toList ++
          List.intercalate ", ".toList (v :: vs) ++ ";\n".toList) ++
        WriteObjects tabs after := by
  rw [WriteObjects_append, WriteObjects, hleaf, hvals, WriteValues_cons]
  simp [AddTabs]

/-- Claim C2 at the leaf `a` with values `1`, `2`, at depth 1. -/
theorem leaf_encoding_witness :
    WriteObjects 1 ([] ++ ("a".toList, ⟨["1".toList, "2".toList], [], []⟩) :: []) =
      WriteObjects 1 [] ++
        (List.replicate 1 '\t' ++ "a".toList ++ " = ".toList ++
          List.intercalate ", ".toList ("1".toList :: ["2".toList]) ++ ";\n".toList) ++
        WriteObjects 1 [] :=
  leaf_encoding 1 [] [] "a".toList ⟨["1".toList, "2".toList], [], []⟩ "1".toList ["2".toList] rfl rfl

/-- Claim C3 (zero-value leaf), evaluated on the tree built by `df["a"]` and
`df["b"].SetString("1")`: for the child `a`, which has no children and no values,
the encoder writes `a = ` without `";\n"` (the loop over the values, which writes
the terminator after the last value, does not run), so the text of `b` follows on
the same line, and decoding that text gives a single child `a` with the value
`b = 1`. -/
theorem zero_value_leaf_unterminated :
    Write ⟨[], [("a".toList, empty), ("b".toList, ⟨["1".toList], [], []⟩)],
              [("a".toList, 0), ("b".toList, 1)]⟩ true
      = (true, some "a = b = 1;\n".toList) ∧
    WriteObjects 0 [("a".toList, empty)] = "a = ".toList ∧
    Read empty (some "a = b = 1;\n".toList) =
      some (true, ⟨[], [("a".toList, ⟨["b = 1".toList], [], []⟩)], [("a".toList, 0)]⟩) :=
  ⟨rfl, rfl, rfl⟩

/-- Claim C4 (section encoding). In the loop of the encoder running with
`tabs = d`, a child named `name` that has at least one child contributes exactly:
`d` tabs, the name, newline; `d` tabs, `{`, newline; the encoding of its children
with `tabs = d + 1`; `d` tabs, `}`, newline. The tree with root children
`server{host=["localhost"], port=["8080"]}` and `debug=["1"]` is written as
`"server\n{\n\thost = localhost;\n\tport = 8080;\n}\ndebug = 1;\n"`. -/
theorem section_encoding (tabs : Nat) (before after : List (Str × DataFile))
    (name : Str) (child : DataFile) (hsec : child.m_vObjects ≠ []) :
    WriteObjects tabs (before ++ (name, child) :: after) =
      WriteObjects tabs before ++
        (List.replicate tabs '\t' ++ name ++ "\n".toList ++
         List.replicate tabs '\t' ++ "\x7b\n".toList ++
         WriteObjects (tabs + 1) child.m_vObjects ++
         List.replicate tabs '\t' ++ "\x7d\n".toList) ++
        WriteObjects tabs after ∧
    Write ⟨[], [("server".toList,
                  ⟨[], [("host".toList, ⟨["localhost".toList], [], []⟩),
                        ("port".toList, ⟨["8080".toList], [], []⟩)],
                   [("host".toList, 0), ("port".toList, 1)]⟩),
                ("debug".toList, ⟨["1".toList], [], []⟩)],
           [("server".toList, 0), ("debug".toList, 1)]⟩ true =
      (true, some "server\n\x7b\n\thost = localhost;\n\tport = 8080;\n\x7d\ndebug = 1;\n".toList) := by
  refine ⟨?_, rfl⟩
  rw [WriteObjects_append, WriteObjects, WriteNode_eq]
  have : child.m_vObjects.isEmpty = false := by
    cases h : child.m_vObjects with
    | nil => exact absurd h hsec
    | cons _ _ => rfl
  simp [this, AddTabs]

/-- Claim C4 at the section `s` with the single child `k = v`, at depth 0. -/
theorem section_encoding_witness :
    WriteObjects 0 ([] ++ ("s".toList, ⟨[], [("k".toList, ⟨["v".toList], [], []⟩)],
        [("k".toList, 0)]⟩) :: []) = "s\n\x7b\n\tk = v;\n\x7d\n".toList :=
  (section_encoding 0 [] [] "s".toList
    ⟨[], [("k".toList, ⟨["v".toList], [], []⟩)], [("k".toList, 0)]⟩ (by simp)).1

theorem lookup_append_absent (m : List (Str × Nat)) (k : Str) (v : Nat)
    (h : m.lookup k = none) : (m ++ [(k, v)]).lookup k = some v := by
  induction m with
  | nil => simp [List.lookup]
  | cons e m ih =>
    obtain ⟨a, b⟩ := e
    simp only [List.cons_append, List.lookup] at h ⊢
    cases hk : (k == a) with
    | true => simp [hk] at h
    | false => simp only [hk] at h ⊢; exact ih h

theorem operatorSubscript_absent (df : DataFile) (sKey : Str)
    (h : df.m_mapObjects.lookup sKey = none) :
    df.operatorSubscript sKey =
      some ({ df with
              m_mapObjects := df.m_mapObjects ++ [(sKey, df.m_vObjects.length)]
              m_vObjects := df.m_vObjects ++ [(sKey, empty)] }, df.m_vObjects.length) := by
  simp [operatorSubscript, mapCount, mapAssign, h, lookup_append_absent]

theorem operatorSubscript_present (df : DataFile) (sKey : Str) (i : Nat)
    (h : df.m_mapObjects.lookup sKey = some i) (hi : i < df.m_vObjects.length) :
    df.operatorSubscript sKey = some (df, i) := by
  simp [operatorSubscript, mapCount, h, hi]

/-- Claim C6 (auto-vivification idempotence). On a node whose name index holds
only positions of existing children, `operator[]` called twice with the same key
returns a reference to the same child both times (the same position `i` in the
same node `df1`), and the second call leaves the node as the first call left it.
When the key was absent the first call adds exactly one child, appended last, with
the key as its name and an empty node; when it was present the node is unchanged.
The children that existed before keep their position and content, and the values
are untouched. -/
theorem operatorSubscript_twice (df : DataFile) (sKey : Str)
    (hrange : ∀ i, df.m_mapObjects.lookup sKey = some i → i < df.m_vObjects.length) :
    ∃ df1 i,
      df.operatorSubscript sKey = some (df1, i) ∧
      df1.operatorSubscript sKey = some (df1, i) ∧
      (mapCount df.m_mapObjects sKey = 0 →
        df1.CountObjects = df.CountObjects + 1 ∧
        df1.m_vObjects = df.m_vObjects ++ [(sKey, empty)] ∧
        i = df.m_vObjects.length) ∧
      (mapCount df.m_mapObjects sKey ≠ 0 → df1 = df) ∧
      (∀ j, j < df.CountObjects → df1.m_vObjects[j]? = df.m_vObjects[j]?) ∧
      df1.m_vValues = df.m_vValues := by
  cases h : df.m_mapObjects.lookup sKey with
  | none =>
    refine ⟨_, _, operatorSubscript_absent df sKey h, ?_, ?_, ?_, ?_, rfl⟩
    · apply operatorSubscript_present
      · exact lookup_append_absent _ _ _ h
      · simp
    · intro _
      simp [CountObjects]
    · intro hc
      simp [mapCount, h] at hc
    · intro j hj
      simp only [CountObjects] at hj
      simp [List.getElem?_append_left hj]
  | some i =>
    have hi := hrange i h
    refine ⟨df, i, operatorSubscript_present df sKey i h hi, operatorSubscript_present df sKey i h hi,
      ?_, fun _ => rfl, fun _ _ => rfl, rfl⟩
    intro hc
    simp [mapCount, h] at hc

/-- Claim C6 at the empty node and the key `a`. -/
theorem operatorSubscript_twice_witness :
    ∃ df1 i,
      empty.operatorSubscript "a".toList = some (df1, i) ∧
      df1.operatorSubscript "a".toList = some (df1, i) ∧
      (mapCount empty.m_mapObjects "a".toList = 0 →
        df1.CountObjects = empty.CountObjects + 1 ∧
        df1.m_vObjects = empty.m_vObjects ++ [("a".toList, empty)] ∧
        i = empty.m_vObjects.length) ∧
      (mapCount empty.m_mapObjects "a".toList ≠ 0 → df1 = empty) ∧
      (∀ j, j < empty.CountObjects → df1.m_vObjects[j]? = empty.m_vObjects[j]?) ∧
      df1.m_vValues = empty.m_vValues :=
  operatorSubscript_twice empty "a".toList (by intro i h; simp [empty] at h)

theorem GetString_storeValue (df : DataFile) (v : Str) (i : Nat) :
    (df.storeValue v i).GetString i = some v := by
  simp only [storeValue, GetString]
  split
  · simp [List.getElem?_set]
    omega
  · next h =>
    simp [List.getElem?_set]
    omega

theorem storeValue_slots (df : DataFile) (v : Str) (i : Nat) :
    (df.storeValue v i).CountValues = max df.CountValues (i + 1) ∧
    (df.storeValue v i).GetString i = some v ∧
    (∀ j, j < df.CountValues → j ≠ i → (df.storeValue v i).GetString j = df.GetString j) ∧
    (∀ j, df.CountValues ≤ j → j < i → (df.storeValue v i).GetString j = some []) ∧
    (df.storeValue v i).m_vObjects = df.m_vObjects ∧
    (df.storeValue v i).m_mapObjects = df.m_mapObjects := by
  refine ⟨?_, GetString_storeValue df v i, ?_, ?_, rfl, rfl⟩
  · simp only [storeValue, CountValues]
    split <;> simp <;> omega
  · intro j hj hji
    simp only [CountValues] at hj
    simp only [storeValue, GetString]
    split
    · rw [List.getElem?_set_ne (Ne.symm hji), List.getElem?_append_left hj]
    · rw [List.getElem?_set_ne (Ne.symm hji)]
  · intro j hj hji
    simp only [CountValues] at hj
    simp only [storeValue, GetString]
    have : i ≥ df.m_vValues.length := by omega
    rw [if_pos this, List.getElem?_set_ne (by omega), List.getElem?_append_right hj]
    rw [List.getElem?_replicate]
    simp
    omega

theorem resize_length (v : List Str) (n : Nat) : (resize v n).length = n := by
  simp only [resize, List.length_append, List.length_take, List.length_replicate]
  omega

theorem SetString_of_lt (df : DataFile) (v : Str) (i : Nat) (hi : i + 1 < 2 ^ 64) :
    df.SetString v i = some (df.storeValue v i) := by
  unfold SetString storeValue
  simp only [Nat.mod_eq_of_lt hi]
  by_cases h : i ≥ df.m_vValues.length
  · simp only [h, if_true]
    rw [if_pos (by rw [resize_length]; omega)]
    simp only [resize]
    rw [List.take_of_length_le (by omega)]
  · simp only [h, if_false]
    rw [if_pos (by omega)]

theorem SetString_some (df : DataFile) (v : Str) (i : Nat) (df1 : DataFile)
    (h : df.SetString v i = some df1) : df1 = df.storeValue v i := by
  by_cases hi : i + 1 < 2 ^ 64
  · rw [SetString_of_lt df v i hi] at h
    exact (Option.some.inj h).symm
  · unfold SetString at h
    by_cases hlen : i ≥ df.m_vValues.length
    · simp only [hlen, if_true, resize_length] at h
      have : (i + 1) % 2 ^ 64 < 2 ^ 64 := Nat.mod_lt _ (by norm_num)
      rw [if_neg (by omega)] at h
      cases h
    · simp only [hlen, if_false] at h
      rw [if_pos (by omega)] at h
      simp only [storeValue, hlen, if_false]
      exact (Option.some.inj h).symm

/-- Claim C7 fails at the largest index. `nIndex` is a `size_t`; for
`nIndex = 2 ^ 64 - 1` the sum `nIndex + 1` is 0, so on a node holding the value
`a` the call `SetString("v", nIndex)` runs `resize(0)`, which drops the value, and
then assigns `m_vValues[nIndex]` out of range: the call has no defined result,
whereas the claim gives it `2 ^ 64` values with slot 0 kept. -/
theorem SetString_largest_index :
    (2 ^ 64 - 1 + 1) % 2 ^ 64 = 0 ∧
    resize ["a".toList] ((2 ^ 64 - 1 + 1) % 2 ^ 64) = [] ∧
    (⟨["a".toList], [], []⟩ : DataFile).SetString "v".toList (2 ^ 64 - 1) = none :=
  ⟨by norm_num, by norm_num [resize], by
    unfold SetString
    norm_num [resize]⟩

/-- Claim C7 as amended (index auto-extension). For every index `i` below the
largest `size_t` (so that `i + 1` does not wrap), `SetString(v, i)` on a node with
`n` values is defined, and after it the value count is `max n (i + 1)`, slot `i`
holds `v`, every slot `j < n` other than `i` holds what it held, every slot `j`
with `n ≤ j < i` holds the empty string, and the children and the name index are
unchanged; on an empty node `SetString(v, 5)` gives six values, the first five
empty. -/
theorem SetString_spec (df : DataFile) (v : Str) (i : Nat) (hi : i + 1 < 2 ^ 64) :
    ∃ df1, df.SetString v i = some df1 ∧
      df1.CountValues = max df.CountValues (i + 1) ∧
      df1.GetString i = some v ∧
      (∀ j, j < df.CountValues → j ≠ i → df1.GetString j = df.GetString j) ∧
      (∀ j, df.CountValues ≤ j → j < i → df1.GetString j = some []) ∧
      df1.m_vObjects = df.m_vObjects ∧
      df1.m_mapObjects = df.m_mapObjects ∧
      empty.SetString v 5 = some ⟨[[], [], [], [], [], v], [], []⟩ := by
  obtain ⟨h1, h2, h3, h4, h5, h6⟩ := storeValue_slots df v i
  exact ⟨df.storeValue v i, SetString_of_lt df v i hi, h1, h2, h3, h4, h5, h6,
    SetString_of_lt empty v 5 (by norm_num)⟩

/-- Claim C7 as amended, at a node with the value `a`, the value `v` and the
index 3: the result has the values `a`, two empty strings, and `v`. -/
theorem SetString_spec_witness :
    (∃ df1, (⟨["a".toList], [], []⟩ : DataFile).SetString "v".toList 3 = some df1 ∧
      df1.CountValues = max (⟨["a".toList], [], []⟩ : DataFile).CountValues (3 + 1) ∧
      df1.GetString 3 = some "v".toList ∧
      (∀ j, j < (⟨["a".toList], [], []⟩ : DataFile).CountValues → j ≠ 3 →
        df1.GetString j = (⟨["a".toList], [], []⟩ : DataFile).GetString j) ∧
      (∀ j, (⟨["a".toList], [], []⟩ : DataFile).CountValues ≤ j → j < 3 →
        df1.GetString j = some []) ∧
      df1.m_vObjects = [] ∧
      df1.m_mapObjects = [] ∧
      empty.SetString "v".toList 5 = some ⟨[[], [], [], [], [], "v".toList], [], []⟩) ∧
    (⟨["a".toList], [], []⟩ : DataFile).SetString "v".toList 3 =
      some ⟨["a".toList, [], [], "v".toList], [], []⟩ :=
  ⟨SetString_spec ⟨["a".toList], [], []⟩ "v".toList 3 (by norm_num),
    SetString_of_lt _ _ 3 (by norm_num)⟩

/-! ## Typed views -/

theorem digitChar_isDigit (k : Nat) (hk : k < 10) :
    (Nat.digitChar k).isDigit = true ∧ (Nat.digitChar k).toNat - '0'.toNat = k := by
  interval_cases k <;> exact ⟨rfl, rfl⟩

theorem stollDigits_toDigitsCore (fuel : Nat) :
    ∀ (m : Nat) (ds : Str), m < fuel →
      stollDigits (Nat.toDigitsCore 10 fuel m ds) 0 = stollDigits ds m := by
  induction fuel with
  | zero => intro m ds h; omega
  | succ fuel ih =>
    intro m ds h
    have hd := digitChar_isDigit (m % 10) (Nat.mod_lt _ (by decide))
    rw [Nat.toDigitsCore]
    by_cases h0 : m / 10 = 0
    · simp only [h0, if_true]
      rw [stollDigits, if_pos hd.1, hd.2]
      have : m % 10 = m := Nat.mod_eq_of_lt (by omega)
      simp [this]
    · simp only [h0, if_false]
      rw [ih (m / 10) _ (by omega), stollDigits, if_pos hd.1, hd.2]
      congr 1
      omega

theorem toDigitsCore_head (fuel : Nat) :
    ∀ (m : Nat) (ds : Str), (∃ c r, ds = c :: r ∧ c.isDigit = true) →
      ∃ c r, Nat.toDigitsCore 10 fuel m ds = c :: r ∧ c.isDigit = true := by
  induction fuel with
  | zero => intro m ds h; simpa [Nat.toDigitsCore] using h
  | succ fuel ih =>
    intro m ds _
    have hd := digitChar_isDigit (m % 10) (Nat.mod_lt _ (by decide))
    rw [Nat.toDigitsCore]
    by_cases h0 : m / 10 = 0
    · simp only [h0, if_true]
      exact ⟨_, _, rfl, hd.1⟩
    · simp only [h0, if_false]
      exact ih _ _ ⟨_, _, rfl, hd.1⟩

theorem toDigits_head (m : Nat) :
    ∃ c r, Nat.toDigits 10 m = c :: r ∧ c.isDigit = true := by
  have hd := digitChar_isDigit (m % 10) (Nat.mod_lt _ (by decide))
  rw [Nat.toDigits, Nat.toDigitsCore]
  by_cases h0 : m / 10 = 0
  · simp only [h0, if_true]
    exact ⟨_, _, rfl, hd.1⟩
  · simp only [h0, if_false]
    exact toDigitsCore_head _ _ _ ⟨_, _, rfl, hd.1⟩

theorem stollDigits_toDigits (m : Nat) : stollDigits (Nat.toDigits 10 m) 0 = m := by
  rw [Nat.toDigits, stollDigits_toDigitsCore _ _ _ (Nat.lt_succ_self m)]
  rfl

theorem isDigit_not_special (c : Char) (h : c.isDigit = true) :
    isspace c = false ∧ c ≠ '-' ∧ c ≠ '+' := by
  refine ⟨?_, ?_, ?_⟩
  · cases hc : isspace c with
    | false => rfl
    | true =>
      simp only [isspace, Bool.or_eq_true, decide_eq_true_eq] at hc
      rcases hc with ((((h1 | h1) | h1) | h1) | h1) | h1 <;> subst h1 <;> simp [Char.isDigit] at h
  · rintro rfl; simp [Char.isDigit] at h
  · rintro rfl; simp [Char.isDigit] at h

theorem stoll_to_string (n : Int) (hlo : -2 ^ 63 ≤ n) (hhi : n < 2 ^ 63) :
    stoll (to_string n) = some n := by
  obtain ⟨c, r, hcr, hc⟩ := toDigits_head n.natAbs
  obtain ⟨hsp, hminus, hplus⟩ := isDigit_not_special c hc
  have hval := stollDigits_toDigits n.natAbs
  unfold to_string
  by_cases hneg : n < 0
  · have hn : -(n.natAbs : Int) = n := by omega
    simp only [hneg, if_true, stoll]
    rw [List.dropWhile_cons_of_neg (by simp [isspace])]
    simp only [true_or, if_true, decide_True]
    rw [hcr] at hval ⊢
    simp only [hc, if_true, hval, hn]
    rw [if_pos ⟨hlo, hhi⟩]
  · have hn : (n.natAbs : Int) = n := by omega
    simp only [hneg, if_false, stoll]
    rw [hcr] at hval ⊢
    rw [List.dropWhile_cons_of_neg (by simp [hsp])]
    simp only [hminus, hplus, or_self, if_false, decide_False, hc, if_true, hval,
      Bool.false_eq_true, hn]
    rw [if_pos ⟨hlo, hhi⟩]

/-- Claim C8 fails at the largest index: for `nIndex = 2 ^ 64 - 1` the call
`SetInt(42, nIndex)` runs `SetString`, whose `resize(nIndex + 1)` is `resize(0)`
and whose assignment is out of range, so there is no node on which `GetInt`
could return 42. -/
theorem SetInt_largest_index :
    empty.SetInt 42 (2 ^ 64 - 1) = none ∧
    (⟨["7".toList], [], []⟩ : DataFile).SetInt 42 (2 ^ 64 - 1) = none :=
  ⟨by unfold SetInt SetString; norm_num [resize, empty],
    by unfold SetInt SetString; norm_num [resize]⟩

/-- Claim C8 as amended (scalar view consistency). For every signed 64-bit integer
`n` and every index `i` below the largest `size_t`, `SetInt(n, i)` is defined,
and after it the slot `i` holds the decimal text of `n` (its `toString`) and
`GetInt(i)` returns `n`; for every boolean `b`, `SetBool(b)` is defined, and after
it slot 0 holds `"1"` when `b` is true and `"0"` otherwise, and `GetBool()`
returns `b`. -/
theorem scalar_views (df : DataFile) (n : Int) (i : Nat) (b : Bool)
    (hlo : -2 ^ 63 ≤ n) (hhi : n < 2 ^ 63) (hi : i + 1 < 2 ^ 64) :
    (∃ df1, df.SetInt n i = some df1 ∧
      df1.GetString i = some (to_string n) ∧
      df1.GetInt i = some n) ∧
    to_string n = (toString n).toList ∧
    (∃ df2, df.SetBool b = some df2 ∧
      df2.GetString = some (if b then "1".toList else "0".toList) ∧
      df2.GetBool = some b) := by
  have hget : ∀ (v : Str) (j : Nat), (df.storeValue v j).GetString j = some v :=
    fun v j => GetString_storeValue df v j
  refine ⟨⟨_, SetString_of_lt df _ i hi, hget _ _, ?_⟩, ?_,
    ⟨_, SetString_of_lt df _ 0 (by norm_num), ?_, ?_⟩⟩
  · simp only [GetInt, hget]
    exact stoll_to_string n hlo hhi
  · unfold to_string
    cases n with
    | ofNat m =>
      rw [if_neg (by simp)]
      show _ = (Int.repr (Int.ofNat m)).toList
      simp only [Int.repr, Nat.repr, String.toList, List.asString]
      rfl
    | negSucc m =>
      rw [if_pos (Int.negSucc_lt_zero m)]
      show _ = (Int.repr (Int.negSucc m)).toList
      simp only [Int.repr, Nat.repr, String.toList, List.asString, String.data_append]
      rfl
  · simp only [hget]
    cases b <;> rfl
  · simp only [GetBool, hget]
    cases b
    · rw [show (if false = true then (1 : Int) else 0) = 0 from rfl,
        stoll_to_string 0 (by norm_num) (by norm_num)]
      rfl
    · rw [show (if true = true then (1 : Int) else 0) = 1 from rfl,
        stoll_to_string 1 (by norm_num) (by norm_num)]
      rfl

/-- Claim C8 as amended, at `n = 42`, index 0 and `b = true`: the text is `"42"`. -/
theorem scalar_views_witness :
    ((∃ df1, empty.SetInt 42 0 = some df1 ∧
      df1.GetString 0 = some (to_string 42) ∧
      df1.GetInt 0 = some 42) ∧
    to_string 42 = (toString (42 : Int)).toList ∧
    (∃ df2, empty.SetBool true = some df2 ∧
      df2.GetString = some (if true then "1".toList else "0".toList) ∧
      df2.GetBool = some true)) ∧
    to_string 42 = "42".toList ∧
    empty.SetInt 42 0 = some ⟨["42".toList], [], []⟩ :=
  ⟨scalar_views empty 42 0 true (by norm_num) (by norm_num) (by norm_num), by decide, rfl⟩

/-! ## Trim -/

theorem rdropWhile_append_of_pos (p : Char → Bool) (s w : Str) (hw : ∀ c ∈ w, p c = true) :
    (s ++ w).rdropWhile p = s.rdropWhile p := by
  unfold List.rdropWhile
  rw [List.reverse_append, List.dropWhile_append_of_pos]
  intro a ha
  exact hw a (List.mem_reverse.mp ha)

theorem rdropWhile_append_cons_neg (p : Char → Bool) (s t : Str) (c : Char) (hc : p c = false) :
    (s ++ c :: t).rdropWhile p = s ++ c :: t.rdropWhile p := by
  induction t using List.reverseRecOn with
  | nil =>
    rw [show s ++ [c] = s ++ [c] from rfl, List.rdropWhile_concat_neg _ _ _ (by simp [hc])]
    simp
  | append_singleton t x ih =>
    by_cases hx : p x = true
    · rw [show s ++ c :: (t ++ [x]) = (s ++ c :: t) ++ [x] by simp,
        List.rdropWhile_concat_pos _ _ _ hx, List.rdropWhile_concat_pos _ _ _ hx, ih]
    · rw [show s ++ c :: (t ++ [x]) = (s ++ c :: t) ++ [x] by simp,
        List.rdropWhile_concat_neg _ _ _ hx, List.rdropWhile_concat_neg _ _ _ hx]
      simp

theorem Trim_ws_append (w s : Str) (hw : ∀ c ∈ w, isTrimChar c = true) :
    Trim (w ++ s) = Trim s := by
  unfold Trim
  rw [List.dropWhile_append_of_pos hw]

theorem Trim_append_ws (s w : Str) (hw : ∀ c ∈ w, isTrimChar c = true) :
    Trim (s ++ w) = Trim s := by
  unfold Trim
  rw [List.dropWhile_append]
  split
  · next h =>
    have h1 : List.dropWhile isTrimChar s = [] := by simpa using h
    have h2 : List.dropWhile isTrimChar w = [] := List.dropWhile_eq_nil_iff.mpr hw
    rw [h1, h2]
  · rw [rdropWhile_append_of_pos _ _ _ hw]

theorem Trim_eq_self (s : Str) (h : noEdgeSpace s = true) : Trim s = s := by
  unfold noEdgeSpace at h
  unfold Trim
  have h1 : List.dropWhile isTrimChar s = s := by
    cases s with
    | nil => rfl
    | cons c cs =>
      simp at h
      simp [List.dropWhile, h.1]
  rw [h1, List.rdropWhile_eq_self_iff]
  intro hl
  rw [List.getLast?_eq_getLast _ hl] at h
  simp at h
  simp [h.2]

theorem trim_guard (s : Str) : (if !s.isEmpty then Trim s else s) = Trim s := by
  cases s with
  | nil => rfl
  | cons c cs => rfl

theorem takeWhile_append_cons_stop (p : Char → Bool) (a b : Str) (c : Char)
    (ha : ∀ x ∈ a, p x = true) (hc : p c = false) : (a ++ c :: b).takeWhile p = a := by
  induction a with
  | nil => simp [List.takeWhile, hc]
  | cons x a ih =>
    have hx : p x = true := ha x (by simp)
    rw [List.cons_append, List.takeWhile_cons, hx, ih (fun y hy => ha y (by simp [hy]))]
    rfl

theorem rdropWhile_append_rtakeWhile (p : Char → Bool) (l : Str) :
    l.rdropWhile p ++ l.rtakeWhile p = l := by
  unfold List.rdropWhile List.rtakeWhile
  rw [← List.reverse_append, List.takeWhile_append_dropWhile, List.reverse_reverse]

theorem takeWhile_all (p : Char → Bool) (a : Str) (ha : ∀ x ∈ a, p x = true) :
    a.takeWhile p = a := List.takeWhile_eq_self_iff.mpr ha

theorem ProcessLine_append_ws (st : ReadState) (s w : Str) (hs : '=' ∈ s)
    (hw : ∀ c ∈ w, isTrimChar c = true) :
    ProcessLine st (s ++ w) = ProcessLine st s := by
  have hi : List.indexOf '=' s < s.length := List.indexOf_lt_length.mpr hs
  have hne : s ≠ [] := List.ne_nil_of_mem hs
  have e1 : List.indexOf '=' (s ++ w) = List.indexOf '=' s := List.indexOf_append_of_mem hs
  have e2 : (s ++ w).isEmpty = false := by cases s <;> simp_all
  have e3 : s.isEmpty = false := by cases s <;> simp_all
  have e4 : (s ++ w).take (List.indexOf '=' s) = s.take (List.indexOf '=' s) :=
    List.take_append_of_le_length (Nat.le_of_lt hi)
  have e5 : (s ++ w).drop (List.indexOf '=' s + 1) = s.drop (List.indexOf '=' s + 1) ++ w :=
    List.drop_append_of_le_length hi
  have n1 : List.indexOf '=' s ≠ (s ++ w).length := by simp; omega
  have n2 : List.indexOf '=' s ≠ s.length := by omega
  unfold ProcessLine
  simp only [e1, e2, e3, e4, e5, n1, n2, if_false, Bool.false_eq_true, Trim_append_ws _ _ hw]

/-- Claim C9 (comment stripping on assignment lines). For every decoder state,
every line `L` that contains `'='` and no `'#'`, every run `ws` of whitespace and
every comment text `c`, the loop body run on `L ++ ws ++ "#" ++ c` gives exactly
the result (tree, stack, `sFieldName`, `sFieldValue`) it gives on `L`. The file
`x = 1, 2; # note` and the file `x = 1, 2;` both decode to the child `x` with the
values `1` and `2`. -/
theorem comment_stripping (st : ReadState) (L ws c : Str)
    (hassign : '=' ∈ L) (hnohash : '#' ∉ L) (hws : ∀ x ∈ ws, isTrimChar x = true) :
    ReadLine st (L ++ ws ++ '#' :: c) = ReadLine st L ∧
    Read empty (some "x = 1, 2; # note".toList) =
      some (true, ⟨[], [("x".toList, ⟨["1".toList, "2".toList], [], []⟩)], [("x".toList, 0)]⟩) ∧
    Read empty (some "x = 1, 2;".toList) =
      some (true, ⟨[], [("x".toList, ⟨["1".toList, "2".toList], [], []⟩)], [("x".toList, 0)]⟩) := by
  refine ⟨?_, rfl, rfl⟩
  unfold ReadLine
  rw [trim_guard, trim_guard]
  -- split `L` into leading whitespace, trimmed core and trailing whitespace
  have hM : L.dropWhile isTrimChar ≠ [] := by
    intro h
    have := List.dropWhile_eq_nil_iff.mp h '=' hassign
    simp [isTrimChar] at this
  have hLM : L.takeWhile isTrimChar ++ L.dropWhile isTrimChar = L :=
    List.takeWhile_append_dropWhile _ _
  have hMsplit : (L.dropWhile isTrimChar).rdropWhile isTrimChar ++
      (L.dropWhile isTrimChar).rtakeWhile isTrimChar = L.dropWhile isTrimChar :=
    rdropWhile_append_rtakeWhile _ _
  have hw1 : ∀ x ∈ (L.dropWhile isTrimChar).rtakeWhile isTrimChar, isTrimChar x = true := by
    intro x hx
    exact List.mem_rtakeWhile_imp hx
  have hmemM : ∀ x, x ∈ L.dropWhile isTrimChar → x ∈ L := fun x hx =>
    (List.dropWhile_sublist _).subset hx
  have hmemM0 : ∀ x, x ∈ Trim L → x ∈ L := fun x hx =>
    hmemM x ((List.rdropWhile_prefix _ _).subset hx)
  have heqM0 : '=' ∈ Trim L := by
    have h1 : '=' ∈ L.takeWhile isTrimChar ++ L.dropWhile isTrimChar := by rw [hLM]; exact hassign
    rcases List.mem_append.mp h1 with h | h
    · have := List.mem_takeWhile_imp h
      simp [isTrimChar] at this
    · rw [← hMsplit] at h
      rcases List.mem_append.mp h with h | h
      · exact h
      · have := hw1 _ h
        simp [isTrimChar] at this
  -- the line with the comment
  have hA : (Trim (L ++ ws ++ '#' :: c)).takeWhile (fun c => c != '#') =
      Trim L ++ ((L.dropWhile isTrimChar).rtakeWhile isTrimChar ++ ws) := by
    unfold Trim
    rw [List.append_assoc, List.dropWhile_append]
    have : (List.dropWhile isTrimChar L).isEmpty = false := by
      cases h : List.dropWhile isTrimChar L with
      | nil => exact absurd h hM
      | cons _ _ => rfl
    simp only [this, Bool.false_eq_true, if_false]
    rw [← List.append_assoc, rdropWhile_append_cons_neg _ _ _ _ (by simp [isTrimChar])]
    rw [takeWhile_append_cons_stop _ _ _ _ _ (by simp)]
    · conv_lhs => rw [← hMsplit]
      simp
    · intro x hx
      rcases List.mem_append.mp hx with h | h
      · have := hmemM x h
        simp
        intro hh
        exact hnohash (hh ▸ this)
      · have := hws x h
        simp
        intro hh
        rw [hh] at this
        simp [isTrimChar] at this
  have hB : (Trim L).takeWhile (fun c => c != '#') = Trim L := by
    apply takeWhile_all
    intro x hx
    have := hmemM0 x hx
    simp
    intro hh
    exact hnohash (hh ▸ this)
  show ProcessLine st _ = ProcessLine st _
  rw [hA, hB]
  apply ProcessLine_append_ws _ _ _ heqM0
  intro x hx
  rcases List.mem_append.mp hx with h | h
  · exact hw1 x h
  · exact hws x h

/-- Claim C9 at the line `x = 1, 2;` followed by a blank and the comment
`# note`, decoded into the section `s` of a tree that already holds it. -/
theorem comment_stripping_witness :
    ReadLine ⟨⟨[], [("s".toList, empty)], [("s".toList, 0)]⟩, [[0], []], "s".toList, []⟩
        ("x = 1, 2;".toList ++ " ".toList ++ '#' :: " note".toList) =
      ReadLine ⟨⟨[], [("s".toList, empty)], [("s".toList, 0)]⟩, [[0], []], "s".toList, []⟩
        "x = 1, 2;".toList :=
  (comment_stripping ⟨⟨[], [("s".toList, empty)], [("s".toList, 0)]⟩, [[0], []], "s".toList, []⟩
    "x = 1, 2;".toList " ".toList " note".toList (by decide) (by decide) (by decide)).1

/-! ## References into the tree -/

theorem updateAt_eq {α : Type} (root : DataFile) (p : List Nat)
    (f : DataFile → Option (DataFile × α)) (cur cur1 : DataFile) (a : α)
    (h : root.nodeAt p = some cur) (hf : f cur = some (cur1, a)) :
    root.updateAt p f = some (root.replaceAt p cur1, a) := by
  induction p generalizing root with
  | nil =>
    simp only [nodeAt, Option.some.injEq] at h
    subst h
    simpa [updateAt, replaceAt] using hf
  | cons i p ih =>
    simp only [nodeAt] at h
    cases hobj : root.m_vObjects[i]? with
    | none => simp [hobj] at h
    | some obj =>
      simp only [hobj] at h
      simp only [updateAt, replaceAt, hobj, ih obj.2 h]

theorem nodeAt_replaceAt (root : DataFile) (p : List Nat) (cur new : DataFile)
    (h : root.nodeAt p = some cur) : (root.replaceAt p new).nodeAt p = some new := by
  induction p generalizing root with
  | nil => simp [nodeAt, replaceAt]
  | cons i p ih =>
    simp only [nodeAt] at h
    cases hobj : root.m_vObjects[i]? with
    | none => simp [hobj] at h
    | some obj =>
      simp only [hobj] at h
      have hi : i < root.m_vObjects.length := (List.getElem?_eq_some_iff.mp hobj).1
      simp only [nodeAt, replaceAt, hobj, List.getElem?_set_self hi]
      exact ih obj.2 h

theorem replaceAt_replaceAt (root : DataFile) (p : List Nat) (cur a b : DataFile)
    (h : root.nodeAt p = some cur) :
    (root.replaceAt p a).replaceAt p b = root.replaceAt p b := by
  induction p generalizing root with
  | nil => simp [replaceAt]
  | cons i p ih =>
    simp only [nodeAt] at h
    cases hobj : root.m_vObjects[i]? with
    | none => simp [hobj] at h
    | some obj =>
      simp only [hobj] at h
      have hi : i < root.m_vObjects.length := (List.getElem?_eq_some_iff.mp hobj).1
      simp only [replaceAt, hobj, List.getElem?_set_self hi,
        List.set_set, ih obj.2 h]

theorem nodeAt_snoc (root : DataFile) (p : List Nat) (i : Nat) (cur : DataFile)
    (name : Str) (child : DataFile)
    (h : root.nodeAt p = some cur) (hi : cur.m_vObjects[i]? = some (name, child)) :
    root.nodeAt (p ++ [i]) = some child := by
  induction p generalizing root with
  | nil =>
    simp only [nodeAt, Option.some.injEq] at h
    subst h
    simp [nodeAt, hi]
  | cons j p ih =>
    simp only [nodeAt] at h
    cases hobj : root.m_vObjects[j]? with
    | none => simp [hobj] at h
    | some obj =>
      simp only [hobj] at h
      rw [List.cons_append]
      simp only [nodeAt, hobj]
      exact ih obj.2 h

theorem replaceAt_snoc (root : DataFile) (p : List Nat) (i : Nat) (cur : DataFile)
    (name : Str) (child new : DataFile)
    (h : root.nodeAt p = some cur) (hi : cur.m_vObjects[i]? = some (name, child)) :
    root.replaceAt (p ++ [i]) new =
      root.replaceAt p { cur with m_vObjects := cur.m_vObjects.set i (name, new) } := by
  induction p generalizing root with
  | nil =>
    simp only [nodeAt, Option.some.injEq] at h
    subst h
    simp [replaceAt, hi]
  | cons j p ih =>
    simp only [nodeAt] at h
    cases hobj : root.m_vObjects[j]? with
    | none => simp [hobj] at h
    | some obj =>
      simp only [hobj] at h
      rw [List.cons_append]
      simp only [replaceAt, hobj, ih obj.2 h]

theorem set_length_append {α : Type} (l : List α) (a b : α) :
    (l ++ [a]).set l.length b = l ++ [b] := by
  induction l with
  | nil => rfl
  | cons x l ih => simp [List.set, ih]

theorem set_of_getElem? {α : Type} (l : List α) (i : Nat) (a : α) (h : l[i]? = some a) :
    l.set i a = l := by
  induction l generalizing i with
  | nil => rfl
  | cons x l ih =>
    cases i with
    | zero => simp at h; simp [h]
    | succ i => simp at h; simp [ih i h]

theorem replaceAt_self (root : DataFile) (p : List Nat) (cur : DataFile)
    (h : root.nodeAt p = some cur) : root.replaceAt p cur = root := by
  induction p generalizing root with
  | nil =>
    simp only [nodeAt, Option.some.injEq] at h
    simp [replaceAt, h]
  | cons i p ih =>
    simp only [nodeAt] at h
    cases hobj : root.m_vObjects[i]? with
    | none => simp [hobj] at h
    | some obj =>
      simp only [hobj] at h
      simp only [replaceAt, hobj, ih obj.2 h]
      rw [set_of_getElem? root.m_vObjects i (obj.1, obj.2) hobj]
      cases root
      rfl

/-! ## `operator[]` through the top of the stack -/

theorem topSubscript_absent (root : DataFile) (p : List Nat) (stk : List (List Nat))
    (sKey : Str) (cur : DataFile) (h : root.nodeAt p = some cur)
    (hk : cur.m_mapObjects.lookup sKey = none) :
    topSubscript root (p :: stk) sKey =
      some (root.replaceAt p
              { cur with
                m_mapObjects := cur.m_mapObjects ++ [(sKey, cur.m_vObjects.length)]
                m_vObjects := cur.m_vObjects ++ [(sKey, empty)] },
            p ++ [cur.m_vObjects.length]) := by
  simp only [topSubscript, List.head?_cons]
  rw [updateAt_eq root p _ cur _ _ h (operatorSubscript_absent cur sKey hk)]

theorem topSubscript_present (root : DataFile) (p : List Nat) (stk : List (List Nat))
    (sKey : Str) (cur : DataFile) (i : Nat) (h : root.nodeAt p = some cur)
    (hk : cur.m_mapObjects.lookup sKey = some i) (hi : i < cur.m_vObjects.length) :
    topSubscript root (p :: stk) sKey = some (root, p ++ [i]) := by
  simp only [topSubscript, List.head?_cons]
  rw [updateAt_eq root p _ cur _ _ h (operatorSubscript_present cur sKey i hk hi),
    replaceAt_self root p cur h]

/-! ## The commit loop -/

theorem storeValue_at_end (ch : DataFile) (v : Str) (idx : Nat) (h : idx = ch.m_vValues.length) :
    ch.storeValue v idx = { ch with m_vValues := ch.m_vValues ++ [v] } := by
  subst h
  simp only [storeValue, ge_iff_le, le_refl, if_true]
  congr 1
  have : ch.m_vValues.length + 1 - ch.m_vValues.length = 1 := by omega
  rw [this]
  exact set_length_append ch.m_vValues [] v

theorem commitTokens_existing (p : List Nat) (stk : List (List Nat)) (sKey : Str)
    (toks : List Str) :
    ∀ (root cur : DataFile) (i idx : Nat) (n : Str) (ch : DataFile),
      root.nodeAt p = some cur → cur.m_mapObjects.lookup sKey = some i →
      cur.m_vObjects[i]? = some (n, ch) → idx = ch.m_vValues.length →
      commitTokens (p :: stk) sKey toks idx root =
        some (root.replaceAt p
          { cur with m_vObjects :=
              (cur.m_vObjects.set i (n, { ch with m_vValues := ch.m_vValues ++ toks.map Trim })) }) := by
  induction toks with
  | nil =>
    intro root cur i idx n ch h hk hi _
    have hlt : i < cur.m_vObjects.length := (List.getElem?_eq_some_iff.mp hi).1
    have e : ({ cur with m_vObjects :=
        (cur.m_vObjects.set i (n, { ch with m_vValues := ch.m_vValues ++ [].map Trim })) }
          : DataFile) = cur := by
      have : cur.m_vObjects.set i (n, ch) = cur.m_vObjects := set_of_getElem? _ _ _ hi
      cases cur; cases ch
      simp only [List.map_nil, List.append_nil] at this ⊢
      rw [this]
    rw [e, replaceAt_self root p cur h]
    rfl
  | cons tok toks ih =>
    intro root cur i idx n ch h hk hi hidx
    have hlt : i < cur.m_vObjects.length := (List.getElem?_eq_some_iff.mp hi).1
    simp only [commitTokens]
    rw [topSubscript_present root p stk sKey cur i h hk hlt]
    simp only []
    rw [updateAt_eq root (p ++ [i]) _ ch (ch.storeValue (Trim tok) idx) ()
      (nodeAt_snoc root p i cur n ch h hi) rfl]
    simp only []
    rw [replaceAt_snoc root p i cur n ch _ h hi, storeValue_at_end ch _ idx hidx]
    rw [ih _ { cur with m_vObjects :=
                (cur.m_vObjects.set i (n, { ch with m_vValues := ch.m_vValues ++ [Trim tok] })) }
      i (idx + 1) n { ch with m_vValues := ch.m_vValues ++ [Trim tok] }
      (nodeAt_replaceAt root p cur _ h) hk
      (by simp [List.getElem?_set_self hlt]) (by simp [hidx])]
    rw [replaceAt_replaceAt root p cur _ _ h]
    simp [List.set_set]

theorem commitTokens_new (p : List Nat) (stk : List (List Nat)) (sKey : Str)
    (tok : Str) (toks : List Str) (root cur : DataFile)
    (h : root.nodeAt p = some cur) (hk : cur.m_mapObjects.lookup sKey = none) :
    commitTokens (p :: stk) sKey (tok :: toks) 0 root =
      some (root.replaceAt p
        { cur with
          m_mapObjects := cur.m_mapObjects ++ [(sKey, cur.m_vObjects.length)]
          m_vObjects := cur.m_vObjects ++ [(sKey, ⟨(tok :: toks).map Trim, [], []⟩)] }) := by
  simp only [commitTokens]
  rw [topSubscript_absent root p stk sKey cur h hk]
  simp only []
  have hcur1 := nodeAt_replaceAt root p cur
    { cur with
      m_mapObjects := cur.m_mapObjects ++ [(sKey, cur.m_vObjects.length)]
      m_vObjects := cur.m_vObjects ++ [(sKey, empty)] } h
  have hget : (cur.m_vObjects ++ [(sKey, empty)])[cur.m_vObjects.length]? = some (sKey, empty) := by
    simp
  rw [updateAt_eq _ (p ++ [cur.m_vObjects.length]) _ empty (empty.storeValue (Trim tok) 0) ()
    (nodeAt_snoc _ p _ _ sKey empty hcur1 hget) rfl]
  simp only []
  rw [replaceAt_snoc _ p _ _ sKey empty _ hcur1 hget, replaceAt_replaceAt root p cur _ _ h]
  rw [show empty.storeValue (Trim tok) 0 = ⟨[Trim tok], [], []⟩ from rfl]
  rw [commitTokens_existing p stk sKey toks _ _ cur.m_vObjects.length 1 sKey
    ⟨[Trim tok], [], []⟩ (nodeAt_replaceAt root p cur _ h)
    (lookup_append_absent _ _ _ hk) (by simp [set_length_append]) rfl]
  rw [replaceAt_replaceAt root p cur _ _ h]
  simp [set_length_append, List.set_set]

/-! ## The tokenizer -/

theorem backAppend_snoc (pre : List Str) (t : Str) (c : Char) :
    backAppend (pre ++ [t]) c = some (pre ++ [t ++ [c]]) := by
  simp [backAppend]

theorem tokenize_quoted (stk : List (List Nat)) (nm : Str) (s rest : Str)
    (hs : '"' ∉ s) (pre : List Str) (t : Str) (root : DataFile) :
    tokenize stk nm (s ++ rest) true (pre ++ [t]) root =
      tokenize stk nm rest true (pre ++ [t ++ s]) root := by
  induction s generalizing t with
  | nil => simp
  | cons c s ih =>
    have hc : c ≠ '"' := fun h => hs (by simp [h])
    have hs' : '"' ∉ s := fun h => hs (by simp [h])
    rw [List.cons_append, tokenize]
    simp only [hc, if_false, if_true, backAppend_snoc]
    rw [ih hs']
    simp

theorem tokenize_plain (stk : List (List Nat)) (nm : Str) (s rest : Str)
    (hq : '"' ∉ s) (hc : ',' ∉ s) (hsc : ';' ∉ s) (pre : List Str) (t : Str)
    (root : DataFile) :
    tokenize stk nm (s ++ rest) false (pre ++ [t]) root =
      tokenize stk nm rest false (pre ++ [t ++ s]) root := by
  induction s generalizing t with
  | nil => simp
  | cons c s ih =>
    have h1 : c ≠ '"' := fun h => hq (by simp [h])
    have h2 : c ≠ ',' := fun h => hc (by simp [h])
    have h3 : c ≠ ';' := fun h => hsc (by simp [h])
    rw [List.cons_append, tokenize]
    simp only [h1, h2, h3, if_false, Bool.false_eq_true, backAppend_snoc]
    rw [ih (fun h => hq (by simp [h])) (fun h => hc (by simp [h])) (fun h => hsc (by simp [h]))]
    simp

/-! ## Lines -/

theorem getlines_line (l rest : Str) (hl : '\n' ∉ l) :
    getlines (l ++ '\n' :: rest) = l :: getlines rest := by
  induction l with
  | nil => simp [getlines]
  | cons c l ih =>
    have hc : c ≠ '\n' := fun h => hl (by simp [h])
    rw [List.cons_append, getlines, if_neg hc, ih (fun h => hl (by simp [h]))]

theorem getlines_last (l : Str) (hl : '\n' ∉ l) : getlines l = [l] := by
  induction l with
  | nil => simp [getlines]
  | cons c l ih =>
    have hc : c ≠ '\n' := fun h => hl (by simp [h])
    rw [getlines, if_neg hc, ih (fun h => hl (by simp [h]))]

theorem ReadLine_assign (st : ReadState) (w nm rhs : Str)
    (hw : ∀ c ∈ w, isTrimChar c = true)
    (hne : nm ≠ []) (hedge : noEdgeSpace nm = true) (heq : '=' ∉ nm) (hh : '#' ∉ nm)
    (hrh : '#' ∉ rhs) (hlast : ∃ c, rhs.getLast? = some c ∧ isTrimChar c = false) :
    ReadLine st (w ++ nm ++ ' ' :: '=' :: ' ' :: rhs) =
      match tokenize st.stack nm (Trim rhs) false [[]] st.dataFile with
      | none => none
      | some (vecTokens, root1) =>
        match commitTokens st.stack nm vecTokens 0 root1 with
        | none => none
        | some root2 =>
          some { dataFile := root2, stack := st.stack, sFieldName := nm,
                 sFieldValue := Trim rhs } := by
  obtain ⟨cl, hcl, hclt⟩ := hlast
  have hrne : rhs ≠ [] := by intro h; simp [h] at hcl
  unfold ReadLine
  rw [trim_guard, List.append_assoc, Trim_ws_append _ _ hw]
  have hX : Trim (nm ++ ' ' :: '=' :: ' ' :: rhs) = nm ++ ' ' :: '=' :: ' ' :: rhs := by
    apply Trim_eq_self
    unfold noEdgeSpace at hedge ⊢
    cases nm with
    | nil => exact absurd rfl hne
    | cons a nm =>
      simp only [List.cons_append, List.head?_cons, Bool.and_eq_true] at hedge ⊢
      refine ⟨hedge.1, ?_⟩
      rw [show a :: (nm ++ ' ' :: '=' :: ' ' :: rhs) = (a :: nm ++ [' ', '=', ' ']) ++ rhs by simp,
        List.getLast?_append, hcl]
      simp [hclt]
  have hT : (nm ++ ' ' :: '=' :: ' ' :: rhs).takeWhile (fun c => c != '#') =
      nm ++ ' ' :: '=' :: ' ' :: rhs := by
    apply takeWhile_all
    intro x hx
    simp only [List.mem_append, List.mem_cons] at hx
    simp only [bne_iff_ne, ne_eq]
    rintro rfl
    rcases hx with h | h | h | h | h
    · exact hh h
    · simp at h
    · simp at h
    · simp at h
    · exact hrh h
  show ProcessLine st _ = _
  rw [hX, hT]
  have hidx : List.indexOf '=' (nm ++ ' ' :: '=' :: ' ' :: rhs) = nm.length + 1 := by
    rw [List.indexOf_append_of_not_mem heq]
    simp [List.indexOf_cons]
  have htake : (nm ++ ' ' :: '=' :: ' ' :: rhs).take (nm.length + 1) = nm ++ [' '] := by
    rw [show nm ++ ' ' :: '=' :: ' ' :: rhs = (nm ++ [' ']) ++ ('=' :: ' ' :: rhs) by simp]
    exact List.take_left' (by simp)
  have hdrop : (nm ++ ' ' :: '=' :: ' ' :: rhs).drop (nm.length + 1 + 1) = ' ' :: rhs := by
    rw [show nm ++ ' ' :: '=' :: ' ' :: rhs = (nm ++ [' ', '=']) ++ (' ' :: rhs) by simp]
    exact List.drop_left' (by simp)
  have hnm : Trim (nm ++ [' ']) = nm := by
    rw [Trim_append_ws _ _ (by simp [isTrimChar]), Trim_eq_self _ hedge]
  have hrhs : Trim (' ' :: rhs) = Trim rhs :=
    Trim_ws_append [' '] rhs (by simp [isTrimChar])
  unfold ProcessLine
  have hemp : (nm ++ ' ' :: '=' :: ' ' :: rhs).isEmpty = false := by
    cases nm <;> simp
  have hlen : nm.length + 1 ≠ (nm ++ ' ' :: '=' :: ' ' :: rhs).length := by
    simp
  simp only [hemp, hidx, hlen, htake, hdrop, hnm, hrhs, if_false, Bool.false_eq_true]

/-- Claim C10 (quoted token literal). For every name that is non-empty, has no
leading or trailing whitespace and contains none of `'='`, `'#'`, newline, and
every string `s` without `'"'`, `'#'` and newline (commas and semicolons
allowed), decoding the one-line file `name = "s";` into an empty tree gives
exactly one child, named `name`, with exactly one value: `s` trimmed, without the
quotes. The file `name = "a,b"; ` gives the single value `a,b`. -/
theorem quoted_token_literal (name s : Str)
    (hne : name ≠ []) (hedge : noEdgeSpace name = true)
    (heq : '=' ∉ name) (hh : '#' ∉ name) (hnl : '\n' ∉ name)
    (hq : '"' ∉ s) (hs : '#' ∉ s) (hn : '\n' ∉ s) :
    Read empty (some (name ++ " = \"".toList ++ s ++ "\";".toList)) =
        some (true, ⟨[], [(name, ⟨[Trim s], [], []⟩)], [(name, 0)]⟩) ∧
    Read empty (some "name = \"a,b\"; ".toList) =
        some (true, ⟨[], [("name".toList, ⟨["a,b".toList], [], []⟩)], [("name".toList, 0)]⟩) := by
  refine ⟨?_, rfl⟩
  have hline : name ++ " = \"".toList ++ s ++ "\";".toList =
      [] ++ name ++ ' ' :: '=' :: ' ' :: ('"' :: (s ++ ['"', ';'])) := by simp
  have hnonl : '\n' ∉ name ++ " = \"".toList ++ s ++ "\";".toList := by
    simp [hnl, hn]
  have hrhs : Trim ('"' :: (s ++ ['"', ';'])) = '"' :: (s ++ ['"', ';']) := by
    apply Trim_eq_self
    unfold noEdgeSpace
    rw [show '"' :: (s ++ ['"', ';']) = ('"' :: s ++ ['"']) ++ [';'] by simp, List.getLast?_append]
    simp [isTrimChar]
  simp only [Read]
  rw [getlines_last _ hnonl]
  simp only [ReadLines]
  rw [hline, ReadLine_assign _ [] name _ (by simp) hne hedge heq hh (by simp [hs])
    ⟨';', by
      rw [show '"' :: (s ++ ['"', ';']) = ('"' :: s ++ ['"']) ++ [';'] by simp, List.getLast?_append]
      simp, by simp [isTrimChar]⟩]
  rw [hrhs]
  simp only [tokenize, if_true]
  have := tokenize_quoted [[]] name s ['"', ';'] hq [] [] empty
  simp only [List.nil_append] at this
  simp only [Bool.not_false, this]
  simp only [tokenize, if_true, Bool.not_true, Bool.false_eq_true, if_false,
    show (';' = '"') = False by simp]
  rw [commitTokens_new [] [] name s [] empty empty rfl rfl]
  simp [commitTokens, replaceAt, empty]

/-- Claim C10 at the name `k` and the quoted text ` a;b ,c`. -/
theorem quoted_token_literal_witness :
    Read empty (some ("k".toList ++ " = \"".toList ++ " a;b ,c".toList ++ "\";".toList)) =
        some (true, ⟨[], [("k".toList, ⟨[Trim " a;b ,c".toList], [], []⟩)], [("k".toList, 0)]⟩) ∧
    Read empty (some "name = \"a,b\"; ".toList) =
        some (true, ⟨[], [("name".toList, ⟨["a,b".toList], [], []⟩)], [("name".toList, 0)]⟩) :=
  quoted_token_literal "k".toList " a;b ,c".toList (by decide) (by decide) (by decide)
    (by decide) (by decide) (by decide) (by decide) (by decide)

/-! ## Structural lines -/

theorem ReadLine_empty (st : ReadState) : ReadLine st [] = some st := rfl

theorem ReadLine_name (st : ReadState) (w nm : Str) (hw : ∀ c ∈ w, isTrimChar c = true)
    (hn : goodName nm) (hs : goodSectionName nm) :
    ReadLine st (w ++ nm) = some { st with sFieldName := nm } := by
  obtain ⟨hne, hedge, heq, hh, _⟩ := hn
  obtain ⟨hopen, hclose⟩ := hs
  unfold ReadLine
  rw [trim_guard, Trim_ws_append _ _ hw, Trim_eq_self _ hedge]
  have hT : nm.takeWhile (fun c => c != '#') = nm := by
    apply takeWhile_all
    intro x hx
    simp only [bne_iff_ne, ne_eq]
    rintro rfl
    exact hh hx
  show ProcessLine st _ = _
  rw [hT]
  unfold ProcessLine
  have hemp : nm.isEmpty = false := by cases nm <;> simp_all
  have hidx : List.indexOf '=' nm = nm.length := List.indexOf_eq_length.mpr heq
  simp only [hemp, hidx, hopen, hclose, if_true, if_false, Bool.false_eq_true]

theorem ReadLine_open (st : ReadState) (w : Str) (hw : ∀ c ∈ w, isTrimChar c = true) :
    ReadLine st (w ++ ['{']) =
      match topSubscript st.dataFile st.stack st.sFieldName with
      | none => none
      | some (root1, ref) => some { st with dataFile := root1, stack := ref :: st.stack } := by
  unfold ReadLine
  rw [trim_guard, Trim_ws_append _ _ hw]
  rfl

theorem ReadLine_close (st : ReadState) (w : Str) (hw : ∀ c ∈ w, isTrimChar c = true) :
    ReadLine st (w ++ ['}']) =
      match st.stack with
      | [] => none
      | _ :: below => some { st with stack := below } := by
  unfold ReadLine
  rw [trim_guard, Trim_ws_append _ _ hw]
  rfl

theorem AddTabs_ws (tabs : Nat) : ∀ c ∈ AddTabs tabs, isTrimChar c = true := by
  intro c hc
  have := List.eq_of_mem_replicate hc
  subst this
  rfl

theorem AddTabs_no_newline (tabs : Nat) : '\n' ∉ AddTabs tabs := by
  intro hc
  have := List.eq_of_mem_replicate hc
  simp at this

/-! ## Value lists -/

theorem intercalate_cons_cons (sep a b : Str) (l : List Str) :
    List.intercalate sep (a :: b :: l) = a ++ sep ++ List.intercalate sep (b :: l) := by
  simp [List.intercalate, List.intersperse]

theorem mem_intercalate (sep : Str) (x : Char) (l : List Str)
    (h : x ∈ List.intercalate sep l) : x ∈ sep ∨ ∃ v ∈ l, x ∈ v := by
  induction l with
  | nil => simp [List.intercalate] at h
  | cons a l ih =>
    cases l with
    | nil =>
      right
      exact ⟨a, by simp, by simpa [List.intercalate] using h⟩
    | cons b l =>
      rw [intercalate_cons_cons] at h
      simp only [List.mem_append] at h
      rcases h with (h | h) | h
      · exact Or.inr ⟨a, by simp, h⟩
      · exact Or.inl h
      · rcases ih h with h' | ⟨v, hv, hx⟩
        · exact Or.inl h'
        · exact Or.inr ⟨v, by simp [hv], hx⟩

theorem tokenize_values (stk : List (List Nat)) (nm : Str) (vs : List Str) :
    ∀ (v : Str) (pre : List Str) (t : Str) (root : DataFile),
      goodValue v → (∀ x ∈ vs, goodValue x) →
      tokenize stk nm (List.intercalate ", ".toList (v :: vs) ++ [';']) false (pre ++ [t]) root =
        match commitTokens stk nm (pre ++ [t ++ v] ++ vs.map (fun x => ' ' :: x)) 0 root with
        | none => none
        | some root1 => some ([], root1) := by
  induction vs with
  | nil =>
    intro v pre t root hv _
    have : List.intercalate ", ".toList [v] = v := by simp [List.intercalate]
    rw [this, tokenize_plain stk nm v [';'] hv.2.1 hv.2.2.1 hv.2.2.2.1]
    simp only [tokenize, List.map_nil, List.append_nil, if_true, if_false, Bool.false_eq_true,
      show (';' = '"') = False by simp]
  | cons w ws ih =>
    intro v pre t root hv hvs
    rw [intercalate_cons_cons, List.append_assoc, List.append_assoc,
      tokenize_plain stk nm v _ hv.2.1 hv.2.2.1 hv.2.2.2.1]
    show tokenize stk nm (',' :: ' ' :: (List.intercalate ", ".toList (w :: ws) ++ [';'])) false
      (pre ++ [t ++ v]) root = _
    rw [tokenize]
    simp only [show (',' = '"') = False by simp, show (',' = ';') = False by simp, if_false,
      Bool.false_eq_true, if_true]
    rw [tokenize]
    simp only [show (' ' = '"') = False by simp, show (' ' = ';') = False by simp,
      show (' ' = ',') = False by simp, if_false, Bool.false_eq_true, backAppend_snoc]
    rw [List.nil_append,
      ih w (pre ++ [t ++ v]) [' '] root (hvs w (by simp)) (fun x hx => hvs x (by simp [hx]))]
    simp

theorem Trim_space_cons (v : Str) (hv : noEdgeSpace v = true) : Trim (' ' :: v) = v := by
  rw [show ' ' :: v = [' '] ++ v from rfl, Trim_ws_append _ _ (by simp [isTrimChar]),
    Trim_eq_self _ hv]

theorem valuesLine_props (v : Str) (vs : List Str) (hv : goodValue v)
    (hvs : ∀ x ∈ vs, goodValue x) :
    '#' ∉ List.intercalate ", ".toList (v :: vs) ++ [';'] ∧
    '\n' ∉ List.intercalate ", ".toList (v :: vs) ++ [';'] ∧
    Trim (List.intercalate ", ".toList (v :: vs) ++ [';']) =
      List.intercalate ", ".toList (v :: vs) ++ [';'] ∧
    (∃ c, (List.intercalate ", ".toList (v :: vs) ++ [';']).getLast? = some c ∧
      isTrimChar c = false) := by
  have hall : ∀ x ∈ v :: vs, goodValue x := by
    intro x hx
    rcases List.mem_cons.mp hx with h | h
    · exact h ▸ hv
    · exact hvs x h
  refine ⟨?_, ?_, ?_, ⟨';', by simp, rfl⟩⟩
  · intro h
    rcases List.mem_append.mp h with h | h
    · rcases mem_intercalate _ _ _ h with h | ⟨x, hx, hm⟩
      · simp at h
      · exact (hall x hx).2.2.2.2.1 hm
    · simp at h
  · intro h
    rcases List.mem_append.mp h with h | h
    · rcases mem_intercalate _ _ _ h with h | ⟨x, hx, hm⟩
      · simp at h
      · exact (hall x hx).2.2.2.2.2 hm
    · simp at h
  · apply Trim_eq_self
    unfold noEdgeSpace
    rw [List.getLast?_append]
    simp only [List.getLast?_singleton, Option.or_some, Bool.and_eq_true]
    refine ⟨?_, rfl⟩
    cases v with
    | nil =>
      cases vs with
      | nil => rfl
      | cons w ws => rw [intercalate_cons_cons]; rfl
    | cons a v =>
      have h1 := hv.1
      unfold noEdgeSpace at h1
      simp only [List.head?_cons, Bool.and_eq_true] at h1
      cases vs with
      | nil => simpa [List.intercalate] using h1.1
      | cons w ws => rw [intercalate_cons_cons]; simpa using h1.1

/-! ## Decoding the encoder's output -/

theorem objects_induction (Q : List (Str × DataFile) → Prop) (hnil : Q [])
    (hcons : ∀ n c rest, Q c.m_vObjects → Q rest → Q ((n, c) :: rest)) : ∀ l, Q l := by
  intro l
  exact DataFile.rec_1 (motive_1 := fun d => Q d.m_vObjects) (motive_2 := Q)
    (motive_3 := fun x => Q x.2.m_vObjects)
    (fun _ _ _ h => h) hnil
    (fun head tail h3 h2 => by
      obtain ⟨n, c⟩ := head
      exact hcons n c tail h3 h2)
    (fun _ _ h => h) l

theorem lookup_append_ne (m : List (Str × Nat)) (k n : Str) (i : Nat)
    (h : m.lookup k = none) (hne : k ≠ n) : (m ++ [(n, i)]).lookup k = none := by
  induction m with
  | nil =>
    have : (k == n) = false := by simpa using hne
    simp [List.lookup, this]
  | cons e m ih =>
    obtain ⟨a, b⟩ := e
    simp only [List.cons_append, List.lookup] at h ⊢
    cases hk : (k == a) with
    | true => simp [hk] at h
    | false => simp only [hk] at h ⊢; exact ih h

theorem WriteObjects_leaf (tabs : Nat) (n : Str) (c : DataFile) (v : Str) (vs : List Str)
    (rest : List (Str × DataFile)) (more : Str)
    (hleaf : c.m_vObjects = []) (hvals : c.m_vValues = v :: vs) :
    WriteObjects tabs ((n, c) :: rest) ++ more =
      (AddTabs tabs ++ n ++ ' ' :: '=' :: ' ' :: (List.intercalate ", ".toList (v :: vs) ++ [';']))
        ++ '\n' :: (WriteObjects tabs rest ++ more) := by
  rw [WriteObjects, hleaf, hvals, WriteValues_cons]
  simp

theorem WriteObjects_section (tabs : Nat) (n : Str) (c : DataFile)
    (rest : List (Str × DataFile)) (more : Str) (hsec : c.m_vObjects ≠ []) :
    WriteObjects tabs ((n, c) :: rest) ++ more =
      (AddTabs tabs ++ n) ++ '\n' :: ((AddTabs tabs ++ ['{']) ++ '\n' ::
        (WriteObjects (tabs + 1) c.m_vObjects ++
          ((AddTabs tabs ++ ['}']) ++ '\n' :: (WriteObjects tabs rest ++ more)))) := by
  have : c.m_vObjects.isEmpty = false := by
    cases h : c.m_vObjects with
    | nil => exact absurd h hsec
    | cons _ _ => rfl
  rw [WriteObjects, WriteNode_eq, this]
  simp

theorem tokenize_values_start (stk : List (List Nat)) (nm : Str) (v : Str) (vs : List Str)
    (root : DataFile) (hv : goodValue v) (hvs : ∀ x ∈ vs, goodValue x) :
    tokenize stk nm (List.intercalate ", ".toList (v :: vs) ++ [';']) false [[]] root =
      match commitTokens stk nm (v :: vs.map (fun x => ' ' :: x)) 0 root with
      | none => none
      | some root1 => some ([], root1) := by
  have := tokenize_values stk nm vs v [] [] root hv hvs
  simpa using this

theorem map_Trim_tokens (v : Str) (vs : List Str) (hv : goodValue v)
    (hvs : ∀ x ∈ vs, goodValue x) :
    (v :: vs.map (fun x => ' ' :: x)).map Trim = v :: vs := by
  rw [List.map_cons, Trim_eq_self v hv.1, List.map_map]
  congr 1
  conv_rhs => rw [← List.map_id vs]
  apply List.map_congr_left
  intro x hx
  exact Trim_space_cons x (hvs x hx).1

theorem ReadLines_cons (st : ReadState) (l : Str) (ls : List Str) :
    ReadLines st (l :: ls) =
      match ReadLine st l with
      | none => none
      | some st1 => ReadLines st1 ls := rfl

theorem decode_objects (objs : List (Str × DataFile)) :
    encodableObjects objs = true →
    ∀ (tabs : Nat) (root : DataFile) (p : List Nat) (stk : List (List Nat)) (fn fv : Str)
      (cur : DataFile) (more : Str),
      root.nodeAt p = some cur →
      (∀ n ∈ objs.map Prod.fst, cur.m_mapObjects.lookup n = none) →
      ∃ fn1 fv1,
        ReadLines ⟨root, p :: stk, fn, fv⟩ (getlines (WriteObjects tabs objs ++ more)) =
          ReadLines
            ⟨root.replaceAt p
                { cur with
                  m_vObjects := cur.m_vObjects ++ decodedObjects objs
                  m_mapObjects :=
                    cur.m_mapObjects ++ nameIndexFrom cur.m_vObjects.length objs },
              p :: stk, fn1, fv1⟩
            (getlines more) := by
  refine objects_induction
    (fun objs => encodableObjects objs = true →
      ∀ (tabs : Nat) (root : DataFile) (p : List Nat) (stk : List (List Nat)) (fn fv : Str)
        (cur : DataFile) (more : Str),
        root.nodeAt p = some cur →
        (∀ n ∈ objs.map Prod.fst, cur.m_mapObjects.lookup n = none) →
        ∃ fn1 fv1,
          ReadLines ⟨root, p :: stk, fn, fv⟩ (getlines (WriteObjects tabs objs ++ more)) =
            ReadLines
              ⟨root.replaceAt p
                  { cur with
                    m_vObjects := cur.m_vObjects ++ decodedObjects objs
                    m_mapObjects :=
                      cur.m_mapObjects ++ nameIndexFrom cur.m_vObjects.length objs },
                p :: stk, fn1, fv1⟩
              (getlines more)) ?_ ?_ objs
  · intro _ tabs root p stk fn fv cur more hnode _
    refine ⟨fn, fv, ?_⟩
    have e : ({ cur with
          m_vObjects := cur.m_vObjects ++ decodedObjects []
          m_mapObjects := cur.m_mapObjects ++ nameIndexFrom cur.m_vObjects.length [] }
        : DataFile) = cur := by
      cases cur
      simp only [decodedObjects, nameIndexFrom, List.append_nil]
    rw [e, replaceAt_self root p cur hnode]
    simp only [WriteObjects, List.nil_append]
  · intro n c rest ihc ihrest henc tabs root p stk fn fv cur more hnode habs
    rw [encodableObjects] at henc
    simp only [Bool.and_eq_true, Bool.or_eq_true, decide_eq_true_eq] at henc
    obtain ⟨⟨⟨⟨hname, hsec⟩, hnotin⟩, hchild⟩, hrest⟩ := henc
    have habs_n : cur.m_mapObjects.lookup n = none := habs n (by simp)
    have habs_rest : ∀ m ∈ rest.map Prod.fst,
        (cur.m_mapObjects ++ [(n, cur.m_vObjects.length)]).lookup m = none := by
      intro m hm
      apply lookup_append_ne _ _ _ _ (habs m (by simp only [List.map_cons, List.mem_cons]; exact Or.inr hm))
      rintro rfl
      exact hnotin hm
    by_cases hleaf : c.m_vObjects = []
    · -- a leaf: one assignment line
      obtain ⟨vals, cobjs, cmap⟩ := c
      simp only at hleaf
      subst hleaf
      simp only [encodableNode, List.isEmpty_nil, if_true, Bool.and_eq_true, Bool.not_eq_true',
        List.all_eq_true, decide_eq_true_eq] at hchild
      obtain ⟨hvne, hgood⟩ := hchild
      cases vals with
      | nil => simp at hvne
      | cons v vs =>
        have hv : goodValue v := hgood v (by simp)
        have hvs : ∀ x ∈ vs, goodValue x := fun x hx => hgood x (by simp [hx])
        obtain ⟨hnohash, hnonl, htrim, hlast⟩ := valuesLine_props v vs hv hvs
        have hline_nl : '\n' ∉ AddTabs tabs ++ n ++
            ' ' :: '=' :: ' ' :: (List.intercalate ", ".toList (v :: vs) ++ [';']) := by
          intro h
          simp only [List.mem_append, List.mem_cons] at h
          rcases h with (h | h) | h | h | h | h
          · exact AddTabs_no_newline tabs h
          · exact hname.2.2.2.2 h
          · simp at h
          · simp at h
          · simp at h
          · exact hnonl (by simpa using h)
        rw [WriteObjects_leaf tabs n _ v vs rest more rfl rfl, getlines_line _ _ hline_nl,
          ReadLines_cons,
          ReadLine_assign _ (AddTabs tabs) n _ (AddTabs_ws tabs) hname.1 hname.2.1 hname.2.2.1
            hname.2.2.2.1 hnohash hlast]
        simp only []
        rw [htrim, tokenize_values_start (p :: stk) n v vs root hv hvs,
          commitTokens_new p stk n v _ root cur hnode habs_n, map_Trim_tokens v vs hv hvs]
        simp only [commitTokens]
        obtain ⟨fn1, fv1, hrec⟩ := ihrest hrest tabs _ p stk n
          (List.intercalate ", ".toList (v :: vs) ++ [';'])
          { cur with
            m_mapObjects := cur.m_mapObjects ++ [(n, cur.m_vObjects.length)]
            m_vObjects := cur.m_vObjects ++ [(n, ⟨v :: vs, [], []⟩)] }
          more (nodeAt_replaceAt root p cur _ hnode) habs_rest
        refine ⟨fn1, fv1, ?_⟩
        rw [hrec, replaceAt_replaceAt root p cur _ _ hnode]
        simp [decodedObjects, decodedNode, nameIndexFrom]
    · -- a section: name, `{`, the children, `}`
      have hsecname : goodSectionName n := by
        rcases hsec with h | h
        · exact absurd (List.isEmpty_iff.mp h) hleaf
        · exact h
      have hcobjs : encodableObjects c.m_vObjects = true := by
        obtain ⟨vals, cobjs, cmap⟩ := c
        cases cobjs with
        | nil => exact absurd rfl hleaf
        | cons x xs => simpa [encodableNode] using hchild
      have h1 : '\n' ∉ AddTabs tabs ++ n := by
        intro h
        rcases List.mem_append.mp h with h | h
        · exact AddTabs_no_newline tabs h
        · exact hname.2.2.2.2 h
      have h2 : '\n' ∉ AddTabs tabs ++ ['{'] := by
        intro h
        rcases List.mem_append.mp h with h | h
        · exact AddTabs_no_newline tabs h
        · simp at h
      have h3 : '\n' ∉ AddTabs tabs ++ ['}'] := by
        intro h
        rcases List.mem_append.mp h with h | h
        · exact AddTabs_no_newline tabs h
        · simp at h
      have hnode1 := nodeAt_replaceAt root p cur
        { cur with
          m_mapObjects := cur.m_mapObjects ++ [(n, cur.m_vObjects.length)]
          m_vObjects := cur.m_vObjects ++ [(n, empty)] } hnode
      have hget : (cur.m_vObjects ++ [(n, empty)])[cur.m_vObjects.length]? = some (n, empty) := by
        simp
      rw [WriteObjects_section tabs n c rest more hleaf, getlines_line _ _ h1, ReadLines_cons,
        ReadLine_name _ (AddTabs tabs) n (AddTabs_ws tabs) hname hsecname]
      simp only []
      rw [getlines_line _ _ h2, ReadLines_cons, ReadLine_open _ _ (AddTabs_ws tabs)]
      simp only []
      rw [topSubscript_absent root p stk n cur hnode habs_n]
      simp only []
      obtain ⟨fn1, fv1, hrec1⟩ := ihc hcobjs (tabs + 1) _ (p ++ [cur.m_vObjects.length])
        (p :: stk) n fv empty
        ((AddTabs tabs ++ ['}']) ++ '\n' :: (WriteObjects tabs rest ++ more))
        (nodeAt_snoc _ p _ _ n empty hnode1 hget) (fun _ _ => rfl)
      rw [hrec1, getlines_line _ _ h3, ReadLines_cons, ReadLine_close _ _ (AddTabs_ws tabs)]
      simp only []
      rw [replaceAt_snoc _ p _ _ n empty _ hnode1 hget, replaceAt_replaceAt root p cur _ _ hnode]
      obtain ⟨fn2, fv2, hrec2⟩ := ihrest hrest tabs _ p stk fn1 fv1
        { cur with
          m_mapObjects := cur.m_mapObjects ++ [(n, cur.m_vObjects.length)]
          m_vObjects := cur.m_vObjects ++ [(n, decodedNode c)] }
        more (nodeAt_replaceAt root p cur _ hnode) habs_rest
      refine ⟨fn2, fv2, ?_⟩
      have hdec : decodedNode c = ⟨[], decodedObjects c.m_vObjects, nameIndexFrom 0 c.m_vObjects⟩ := by
        obtain ⟨vals, cobjs, cmap⟩ := c
        cases cobjs with
        | nil => exact absurd rfl hleaf
        | cons x xs => simp [decodedNode]
      simp only [hdec] at hrec2
      simp only [empty, List.nil_append, List.length_nil, set_length_append]
      simp only [List.length_append, List.length_singleton] at hrec2
      rw [hrec2, replaceAt_replaceAt root p cur _ _ hnode]
      simp [decodedObjects, hdec, nameIndexFrom]

/-! ## Round trip -/

theorem Read_Write (t : DataFile) (henc : encodableObjects t.m_vObjects = true) :
    Read empty (Write t true).2 =
      some (true, ⟨[], decodedObjects t.m_vObjects, nameIndexFrom 0 t.m_vObjects⟩) := by
  obtain ⟨fn1, fv1, h⟩ := decode_objects t.m_vObjects henc 0 empty [] [] [] [] empty []
    rfl (fun _ _ => rfl)
  simp only [Write, Bool.not_true, Bool.false_eq_true, if_false, Read, WriteNode_eq]
  rw [List.append_nil] at h
  rw [h]
  rfl

theorem decodedObjects_of_inSync (objs : List (Str × DataFile)) :
    inSyncObjects objs = true → decodedObjects objs = objs := by
  refine objects_induction (fun objs => inSyncObjects objs = true → decodedObjects objs = objs)
    ?_ ?_ objs
  · intro _; rfl
  · intro n c rest ihc ihrest h
    obtain ⟨vals, cobjs, cmap⟩ := c
    simp only [inSyncObjects, inSyncNode, Bool.and_eq_true, Bool.or_eq_true,
      decide_eq_true_eq] at h
    obtain ⟨⟨⟨hvals, hmap⟩, hsub⟩, hrest⟩ := h
    simp only [decodedObjects, decodedNode, ihrest hrest, ihc hsub, ← hmap]
    congr 3
    rcases hvals with h | h
    · simp [h]
    · rw [List.isEmpty_iff.mp h]; simp

theorem sameChildren_decoded (objs : List (Str × DataFile)) :
    sameChildren objs (decodedObjects objs) = true := by
  refine objects_induction (fun objs => sameChildren objs (decodedObjects objs) = true)
    ?_ ?_ objs
  · rfl
  · intro n c rest ihc ihrest
    obtain ⟨vals, cobjs, cmap⟩ := c
    simp only [decodedObjects, sameChildren, decodedNode, sameContent, Bool.and_eq_true,
      Bool.or_eq_true, decide_eq_true_eq, Bool.not_eq_true']
    refine ⟨⟨trivial, ?_, ihc⟩, ihrest⟩
    cases cobjs with
    | nil => right; rfl
    | cons x xs => left; rfl

/-- Claim C5 (round trip on well-formed trees). For every tree whose root has no
values, whose children are `encodableObjects` (at every level: sibling names
distinct; names non-empty, without leading or trailing whitespace, without `'='`,
`'#'`, newline; section names not starting with `'{'` nor ending with `'}'`;
leaves with at least one value; values without leading or trailing whitespace and
without `'"'`, `','`, `';'`, `'#'`, newline) and which is `inSyncNode` (sections
hold no values and every name index lists the children in the order of their
insertion, as `operator[]` builds it), writing succeeds and decoding the written
text into an empty tree reports success and yields the original tree: same
children, same order, same value lists, same name index. -/
theorem roundtrip_wellformed (t : DataFile)
    (hroot : t.m_vValues = [])
    (henc : encodableObjects t.m_vObjects = true)
    (hsync : inSyncNode t = true) :
    (Write t true).1 = true ∧ Read empty (Write t true).2 = some (true, t) := by
  refine ⟨rfl, ?_⟩
  rw [Read_Write t henc]
  obtain ⟨vals, objs, map⟩ := t
  simp only at hroot
  subst hroot
  simp only [inSyncNode, Bool.and_eq_true, decide_eq_true_eq] at hsync
  obtain ⟨⟨_, hmap⟩, hsub⟩ := hsync
  rw [decodedObjects_of_inSync objs hsub, ← hmap]

/-- Claim C1 as amended (round trip of names and leaf values). For every tree
whose root has no values and whose children are `encodableObjects` (at every
level: sibling names distinct; names non-empty, without leading or trailing
whitespace, without `'='`, `'#'`, newline; section names not starting with `'{'`
nor ending with `'}'`; every leaf with at least one value; values without leading
or trailing whitespace and without `'"'`, `','`, `';'`, `'#'`, newline), decoding
the text the encoder writes into an empty tree succeeds and gives a tree with the
same child names in the same order and, for every leaf, the same value list. -/
theorem roundtrip_content (t : DataFile)
    (hroot : t.m_vValues = [])
    (henc : encodableObjects t.m_vObjects = true) :
    ∃ t1, Read empty (Write t true).2 = some (true, t1) ∧ sameContent t t1 = true := by
  refine ⟨_, Read_Write t henc, ?_⟩
  obtain ⟨vals, objs, map⟩ := t
  simp only at hroot
  subst hroot
  simp only [sameContent, Bool.and_eq_true, Bool.or_eq_true, decide_eq_true_eq]
  exact ⟨Or.inr trivial, sameChildren_decoded objs⟩

/-- Claim C1 fails as stated. The tree whose root has no values and the single
leaf `a` with the one value `x,y` is written as `a = x,y;` and decoding that text
gives the leaf `a` with the two values `x` and `y`: the value list of the leaf is
not reproduced. -/
theorem roundtrip_splits_comma_value :
    (⟨[], [("a".toList, ⟨["x,y".toList], [], []⟩)], [("a".toList, 0)]⟩ : DataFile).m_vValues = [] ∧
    Write ⟨[], [("a".toList, ⟨["x,y".toList], [], []⟩)], [("a".toList, 0)]⟩ true =
      (true, some "a = x,y;\n".toList) ∧
    Read empty (Write ⟨[], [("a".toList, ⟨["x,y".toList], [], []⟩)], [("a".toList, 0)]⟩ true).2 =
      some (true, ⟨[], [("a".toList, ⟨["x".toList, "y".toList], [], []⟩)], [("a".toList, 0)]⟩) ∧
    sameContent ⟨[], [("a".toList, ⟨["x,y".toList], [], []⟩)], [("a".toList, 0)]⟩
        ⟨[], [("a".toList, ⟨["x".toList, "y".toList], [], []⟩)], [("a".toList, 0)]⟩ = false :=
  ⟨rfl, rfl, rfl, by decide⟩

/-- Claim C5 at the tree `server{host = localhost; port = 8080}`, `debug = 1`. -/
theorem roundtrip_wellformed_witness :
    (Write ⟨[], [("server".toList,
                  ⟨[], [("host".toList, ⟨["localhost".toList], [], []⟩),
                        ("port".toList, ⟨["8080".toList], [], []⟩)],
                   [("host".toList, 0), ("port".toList, 1)]⟩),
                 ("debug".toList, ⟨["1".toList], [], []⟩)],
            [("server".toList, 0), ("debug".toList, 1)]⟩ true).1 = true ∧
    Read empty (Write ⟨[], [("server".toList,
                  ⟨[], [("host".toList, ⟨["localhost".toList], [], []⟩),
                        ("port".toList, ⟨["8080".toList], [], []⟩)],
                   [("host".toList, 0), ("port".toList, 1)]⟩),
                 ("debug".toList, ⟨["1".toList], [], []⟩)],
            [("server".toList, 0), ("debug".toList, 1)]⟩ true).2 =
      some (true, ⟨[], [("server".toList,
                  ⟨[], [("host".toList, ⟨["localhost".toList], [], []⟩),
                        ("port".toList, ⟨["8080".toList], [], []⟩)],
                   [("host".toList, 0), ("port".toList, 1)]⟩),
                 ("debug".toList, ⟨["1".toList], [], []⟩)],
            [("server".toList, 0), ("debug".toList, 1)]⟩) :=
  roundtrip_wellformed _ rfl (by decide) (by decide)

/-- Claim C1 as amended, at the tree with the section `s` (which also holds a
value) and its leaf `k` with the values `v w` and the empty string. -/
theorem roundtrip_content_witness :
    ∃ t1, Read empty (Write ⟨[], [("s".toList, ⟨["dropped".toList],
              [("k".toList, ⟨["v w".toList, "".toList], [], []⟩)], []⟩)], []⟩ true).2 =
        some (true, t1) ∧
      sameContent ⟨[], [("s".toList, ⟨["dropped".toList],
        [("k".toList, ⟨["v w".toList, "".toList], [], []⟩)], []⟩)], []⟩ t1 = true :=
  roundtrip_content ⟨[], [("s".toList, ⟨["dropped".toList],
    [("k".toList, ⟨["v w".toList, "".toList], [], []⟩)], []⟩)], []⟩ rfl (by decide)


/-! ## The encoder reads only names, children and leaf values -/

theorem sameChildren_nil_right (l : List (Str × DataFile)) (h : sameChildren l [] = true) :
    l = [] := by
  cases l with
  | nil => rfl
  | cons x xs =>
    obtain ⟨n, c⟩ := x
    simp [sameChildren] at h

theorem WriteObjects_sameChildren (l1 : List (Str × DataFile)) :
    ∀ (l2 : List (Str × DataFile)) (tabs : Nat),
      sameChildren l1 l2 = true → WriteObjects tabs l1 = WriteObjects tabs l2 := by
  refine objects_induction
    (fun l1 => ∀ (l2 : List (Str × DataFile)) (tabs : Nat),
      sameChildren l1 l2 = true → WriteObjects tabs l1 = WriteObjects tabs l2) ?_ ?_ l1
  · intro l2 tabs h
    cases l2 with
    | nil => rfl
    | cons x xs => simp [sameChildren] at h
  · intro n c rest ihc ihrest l2 tabs h
    cases l2 with
    | nil => simp [sameChildren] at h
    | cons x xs =>
      obtain ⟨n2, c2⟩ := x
      obtain ⟨vals, objs, map⟩ := c
      obtain ⟨vals2, objs2, map2⟩ := c2
      simp only [sameChildren, sameContent, Bool.and_eq_true, Bool.or_eq_true,
        decide_eq_true_eq, Bool.not_eq_true'] at h
      obtain ⟨⟨hn, hv, hsub⟩, hrest⟩ := h
      subst hn
      rw [WriteObjects, WriteObjects, ihrest xs tabs hrest, WriteNode_eq, WriteNode_eq]
      simp only
      cases objs with
      | nil =>
        cases objs2 with
        | nil =>
          rcases hv with hv | hv
          · simp at hv
          · rw [hv]
        | cons y ys => simp [sameChildren] at hsub
      | cons y ys =>
        cases objs2 with
        | nil =>
          obtain ⟨yn, yc⟩ := y
          simp [sameChildren] at hsub
        | cons z zs =>
          rw [ihc (z :: zs) (tabs + 1) hsub]
          rfl

/-- Claim C17 (the encoder ignores the values of the root and of sections). Two
trees whose child lists have the same names in the same order, the same value
lists at the leaves and, recursively, the same children (whatever values the
roots and the nodes with children hold, and whatever their name indexes are) are
written as the same text; the text is the encoding of the children of the root at
depth 0, so the root contributes no line of its own and a root without children
is written as the empty text. -/
theorem encoder_ignores_section_values (t1 t2 : DataFile) (isOpen : Bool)
    (h : sameChildren t1.m_vObjects t2.m_vObjects = true) :
    Write t1 isOpen = Write t2 isOpen ∧
    (Write t1 true).2 = some (WriteObjects 0 t1.m_vObjects) ∧
    (∀ (vals : List Str) (map : List (Str × Nat)), Write ⟨vals, [], map⟩ true = (true, some [])) := by
  refine ⟨?_, ?_, fun _ _ => rfl⟩
  · simp only [Write, WriteNode_eq, WriteObjects_sameChildren _ _ 0 h]
  · simp only [Write, WriteNode_eq]
    rfl

/-- Claim C17 at two trees that differ in the values of the root and of the
section `s` (and in the name index of the root). -/
theorem encoder_ignores_section_values_witness :
    Write ⟨["r".toList], [("s".toList, ⟨["x".toList], [("k".toList, ⟨["v".toList], [], []⟩)],
        [("k".toList, 0)]⟩)], [("s".toList, 0)]⟩ true =
      Write ⟨[], [("s".toList, ⟨[], [("k".toList, ⟨["v".toList], [], []⟩)],
        [("k".toList, 0)]⟩)], []⟩ true :=
  (encoder_ignores_section_values
    ⟨["r".toList], [("s".toList, ⟨["x".toList], [("k".toList, ⟨["v".toList], [], []⟩)],
        [("k".toList, 0)]⟩)], [("s".toList, 0)]⟩
    ⟨[], [("s".toList, ⟨[], [("k".toList, ⟨["v".toList], [], []⟩)],
        [("k".toList, 0)]⟩)], []⟩ true (by decide)).1

/-! ## Files that cannot be opened, files that cannot be read -/

/-- The file with the two lines `}` and `}` opens, the first line pops the only
frame of the stack and the second line calls `pop()` on the empty stack, so the
call has no defined result. -/
theorem read_of_unbalanced_file_undefined :
    Read empty (some "\x7d\n\x7d".toList) = none ∧
    ReadLines ⟨empty, [[]], [], []⟩ ["\x7d".toList] = some ⟨empty, [], [], []⟩ ∧
    ReadLine ⟨empty, [], [], []⟩ "\x7d".toList = none :=
  ⟨rfl, rfl, rfl⟩

theorem getlines_eq (cs : Str) :
    getlines cs =
      if '\n' ∈ cs then
        cs.takeWhile (fun c => c != '\n') ::
          getlines ((cs.dropWhile (fun c => c != '\n')).drop 1)
      else [cs] := by
  induction cs with
  | nil => simp [getlines]
  | cons c cs ih =>
    by_cases hc : c = '\n'
    · subst hc
      simp [getlines]
    · have hne : (c != '\n') = true := by simpa using hc
      have hmem : ('\n' ∈ c :: cs) = ('\n' ∈ cs) := by
        simp [List.mem_cons, Ne.symm hc]
      simp only [getlines, hc, if_false, hmem]
      simp only [List.takeWhile_cons, List.dropWhile_cons, hne, if_true]
      rw [ih]
      by_cases hin : '\n' ∈ cs
      · simp only [hin, if_true]
      · simp only [hin, if_false]

theorem ReadLoop_atEof (n : Nat) (st : ReadState) :
    ReadLoop (n + 1) st .atEof = .returned st := rfl

theorem ReadLoop_failed (n : Nat) : ∀ st : ReadState, ReadLoop n st .failed = .running := by
  induction n with
  | zero => intro st; rfl
  | succ n ih =>
    intro st
    simp only [ReadLoop, Ifstream.eof, getline, ReadLine_empty, if_false, Bool.false_eq_true]
    exact ih st

theorem ReadLoop_good (n : Nat) :
    ∀ (cs : Str) (st : ReadState), (getlines cs).length < n →
      ReadLoop n st (.good cs false) =
        match ReadLines st (getlines cs) with
        | none => .undefined
        | some st1 => .returned st1 := by
  induction n with
  | zero => intro cs st h; omega
  | succ n ih =>
    intro cs st h
    rw [getlines_eq cs] at h ⊢
    simp only [ReadLoop, Ifstream.eof, getline, if_false, Bool.false_eq_true]
    by_cases hin : '\n' ∈ cs
    · simp only [hin, if_true, List.length_cons] at h ⊢
      rw [ReadLines_cons]
      cases ReadLine st (cs.takeWhile (fun c => c != '\n')) with
      | none => rfl
      | some st1 => exact ih _ st1 (by omega)
    · simp only [hin, if_false, List.length_singleton] at h ⊢
      rw [ReadLines_cons]
      cases ReadLine st cs with
      | none => rfl
      | some st1 =>
        obtain ⟨m, rfl⟩ : ∃ m, n = m + 1 := ⟨n - 1, by omega⟩
        rfl

theorem ReadLoop_readError (n : Nat) :
    ∀ (cs : Str) (st r : ReadState), ReadLoop n st (.good cs true) ≠ .returned r := by
  induction n with
  | zero => intro cs st r h; cases h
  | succ n ih =>
    intro cs st r
    simp only [ReadLoop, Ifstream.eof, getline, if_false, Bool.false_eq_true]
    by_cases hin : '\n' ∈ cs
    · simp only [hin, if_true]
      cases ReadLine st (cs.takeWhile (fun c => c != '\n')) with
      | none => intro h; cases h
      | some st1 => exact ih _ st1 r
    · simp only [hin, if_false, if_true]
      cases ReadLine st cs with
      | none => intro h; cases h
      | some st1 =>
        simp only []
        rw [ReadLoop_failed]
        intro h
        cases h

/-- Claim C11 fails as stated for `Read`. A file that opens and cannot be read,
such as a directory: `is_open()` is true, the first `std::getline` fails and sets
`badbit` without `eofbit`, every later call fails at once, `eof()` stays false and
`sLine` stays empty, so the loop `while (!file.eof())` runs on without changing
anything: after no number of iterations has `Read` returned. -/
theorem read_of_unreadable_file_never_returns :
    (Ifstream.good [] true).eof = false ∧
    getline (.good [] true) = ([], .failed) ∧
    Ifstream.failed.eof = false ∧
    getline .failed = ([], .failed) ∧
    ReadLine ⟨empty, [[]], [], []⟩ [] = some ⟨empty, [[]], [], []⟩ ∧
    (∀ n, ReadStream n empty (some (.good [] true)) = .running) := by
  refine ⟨rfl, rfl, rfl, rfl, rfl, fun n => ?_⟩
  cases n with
  | zero => rfl
  | succ n =>
    simp only [ReadStream, ReadLoop, Ifstream.eof, getline, ReadLine_empty, if_false,
      Bool.false_eq_true, List.not_mem_nil, if_true]
    rw [ReadLoop_failed]

/-- Claim C11 as amended (missing-file behaviour). When the file cannot be opened
`Read` returns false at once and leaves the supplied tree exactly as it was (an
empty tree keeps zero children and zero values), and `Write` returns false and
writes nothing (the encoder only reads the tree, it has no tree among its
results). When the file opens `Write` returns true. When the file opens, is read
to its end without a read error, and the decoding of its content is defined,
`Read` returns, and returns true, with the decoded tree, after one evaluation of
the loop condition per line and one more. When a read fails before the end of the
file, `Read` does not return. -/
theorem missing_file (t : DataFile) (text : Str) (st : ReadState) (n : Nat)
    (hdef : ReadLines ⟨t, [[]], [], []⟩ (getlines text) = some st)
    (hn : (getlines text).length < n) :
    (∀ m, ReadStream m t none = .returned (false, t)) ∧
    Read t none = some (false, t) ∧
    empty.CountObjects = 0 ∧ empty.CountValues = 0 ∧
    Write t false = (false, none) ∧
    (Write t true).1 = true ∧
    ReadStream n t (some (.good text false)) = .returned (true, st.dataFile) ∧
    Read t (some text) = some (true, st.dataFile) ∧
    (∀ (m : Nat) (content : Str) (r : Bool × DataFile),
      ReadStream m t (some (.good content true)) ≠ .returned r) := by
  refine ⟨fun _ => rfl, rfl, rfl, rfl, rfl, rfl, ?_, ?_, ?_⟩
  · simp only [ReadStream]
    rw [ReadLoop_good n text _ hn, hdef]
  · simp only [Read, hdef]
  · intro m content r
    simp only [ReadStream]
    cases hloop : ReadLoop m ⟨t, [[]], [], []⟩ (.good content true) with
    | undefined => intro h; cases h
    | running => intro h; cases h
    | returned st1 => exact absurd hloop (ReadLoop_readError m content _ st1)

/-- Claim C11 as amended, at the empty tree and the file `a = 1` followed by a
newline, which has two lines: `Read` returns true after three evaluations of the
loop condition, with the child `a` holding `1`. -/
theorem missing_file_witness :
    (∀ m, ReadStream m empty none = .returned (false, empty)) ∧
    Read empty none = some (false, empty) ∧
    empty.CountObjects = 0 ∧ empty.CountValues = 0 ∧
    Write empty false = (false, none) ∧
    (Write empty true).1 = true ∧
    ReadStream 3 empty (some (.good "a = 1\n".toList false)) =
      .returned (true,
        ⟨[], [("a".toList, ⟨["1".toList], [], []⟩)], [("a".toList, 0)]⟩) ∧
    Read empty (some "a = 1\n".toList) =
      some (true, ⟨[], [("a".toList, ⟨["1".toList], [], []⟩)], [("a".toList, 0)]⟩) ∧
    (∀ (m : Nat) (content : Str) (r : Bool × DataFile),
      ReadStream m empty (some (.good content true)) ≠ .returned r) :=
  missing_file empty "a = 1\n".toList
    ⟨⟨[], [("a".toList, ⟨["1".toList], [], []⟩)], [("a".toList, 0)]⟩, [[]],
      "a".toList, "1".toList⟩ 3 rfl (by decide)

/-! ## The tokenizer on expressions with at most a final `';'` -/

theorem backAppend_of_ne_nil (toks : List Str) (c : Char) (h : toks ≠ []) :
    backAppend toks c = some (pushChar toks c) ∧ pushChar toks c ≠ [] := by
  obtain ⟨pre, t, rfl⟩ : ∃ pre t, toks = pre ++ [t] :=
    ⟨toks.dropLast, toks.getLast h, (List.dropLast_append_getLast h).symm⟩
  simp [pushChar, backAppend_snoc]

theorem ReadLine_eq_ProcessLine (st : ReadState) (sLine : Str) :
    ReadLine st sLine = ProcessLine st (lineCore sLine) := rfl

theorem tokenize_safe (stk : List (List Nat)) (nm : Str) (v : Str) :
    ∀ (q : Bool) (toks : List Str) (root : DataFile), toks ≠ [] → safeExpr v q = true →
      tokenize stk nm v q toks root =
        (if hasSemi v q = true then
          match commitTokens stk nm (scanTokens v q toks) 0 root with
          | none => none
          | some r => some ([], r)
        else some (scanTokens v q toks, root)) ∧
      scanTokens v q toks ≠ [] := by
  induction v with
  | nil =>
    intro q toks root hne _
    simp [tokenize, hasSemi, scanTokens, hne]
  | cons c cs ih =>
    intro q toks root hne hsafe
    rw [tokenize, hasSemi, scanTokens]
    rw [safeExpr] at hsafe
    by_cases hq : c = '"'
    · simp only [hq, if_true] at hsafe ⊢
      exact ih (!q) toks root hne hsafe
    · simp only [hq, if_false] at hsafe ⊢
      cases q with
      | true =>
        simp only [if_true] at hsafe ⊢
        obtain ⟨hb, hne'⟩ := backAppend_of_ne_nil toks c hne
        rw [hb]
        exact ih true _ root hne' hsafe
      | false =>
        simp only [Bool.false_eq_true, if_false] at hsafe ⊢
        by_cases hs : c = ';'
        · simp only [hs, if_true] at hsafe ⊢
          have hcs : cs = [] := List.isEmpty_iff.mp hsafe
          subst hcs
          refine ⟨?_, hne⟩
          cases commitTokens stk nm toks 0 root with
          | none => rfl
          | some r => rfl
        · simp only [hs, if_false] at hsafe ⊢
          by_cases hc : c = ','
          · simp only [hc, if_true]
            exact ih false _ root (by simp) hsafe
          · simp only [hc, if_false]
            obtain ⟨hb, hne'⟩ := backAppend_of_ne_nil toks c hne
            rw [hb]
            exact ih false _ root hne' hsafe

theorem ProcessLine_assign_safe (st : ReadState) (s : Str) (hassign : '=' ∈ s)
    (hsafe : safeExpr (Trim (s.drop (s.indexOf '=' + 1))) false = true) :
    ProcessLine st s =
      match commitTokens st.stack (Trim (s.take (s.indexOf '=')))
          (scanTokens (Trim (s.drop (s.indexOf '=' + 1))) false [[]]) 0 st.dataFile with
      | none => none
      | some r =>
        some ⟨r, st.stack, Trim (s.take (s.indexOf '=')), Trim (s.drop (s.indexOf '=' + 1))⟩ := by
  have hi : List.indexOf '=' s < s.length := List.indexOf_lt_length.mpr hassign
  have hemp : s.isEmpty = false := by cases s <;> simp_all
  have hlen : List.indexOf '=' s ≠ s.length := by omega
  obtain ⟨htok, _⟩ := tokenize_safe st.stack (Trim (s.take (s.indexOf '=')))
    (Trim (s.drop (s.indexOf '=' + 1))) false [[]] st.dataFile (by simp) hsafe
  unfold ProcessLine
  simp only [hemp, hlen, if_false, Bool.false_eq_true, htok]
  by_cases hsemi : hasSemi (Trim (s.drop (s.indexOf '=' + 1))) false = true
  · rw [if_pos hsemi]
    cases commitTokens st.stack (Trim (s.take (s.indexOf '=')))
        (scanTokens (Trim (s.drop (s.indexOf '=' + 1))) false [[]]) 0 st.dataFile with
    | none => rfl
    | some r => rfl
  · rw [if_neg hsemi]

/-- Claim C19 (token-buffer safety). On an assignment line whose value expression
has no character after its first `';'` outside quotes, the tokenizer never
evaluates `vecTokens.back()` on an empty list: the token list it holds when it
reaches that `';'` (or the end of the expression) is not empty, its run is
undefined only when the commit itself is (a `top()` of an empty stack), and the
whole line amounts to committing those tokens. The commit on `';'` leaves the
list empty; from the empty list a `','` gives the list with one empty token,
and any character other than `'"'`, `';'` and `','` is appended to the last
element of the empty list, which is undefined. -/
theorem token_buffer_safe (st : ReadState) (sLine : Str)
    (hassign : '=' ∈ lineCore sLine)
    (hsafe : safeExpr (valueExprOf sLine) false = true) :
    scanTokens (valueExprOf sLine) false [[]] ≠ [] ∧
    tokenize st.stack (fieldNameOf sLine) (valueExprOf sLine) false [[]] st.dataFile =
      (if hasSemi (valueExprOf sLine) false = true then
        match commitTokens st.stack (fieldNameOf sLine)
            (scanTokens (valueExprOf sLine) false [[]]) 0 st.dataFile with
        | none => none
        | some r => some ([], r)
      else some (scanTokens (valueExprOf sLine) false [[]], st.dataFile)) ∧
    ReadLine st sLine =
      (match commitTokens st.stack (fieldNameOf sLine)
          (scanTokens (valueExprOf sLine) false [[]]) 0 st.dataFile with
      | none => none
      | some r => some ⟨r, st.stack, fieldNameOf sLine, valueExprOf sLine⟩) ∧
    (∀ (cs : Str) (root : DataFile),
      tokenize st.stack (fieldNameOf sLine) (',' :: cs) false [] root =
        tokenize st.stack (fieldNameOf sLine) cs false [[]] root) ∧
    (∀ (c : Char) (cs : Str) (q : Bool) (root : DataFile), c ≠ '"' → c ≠ ';' → c ≠ ',' →
      tokenize st.stack (fieldNameOf sLine) (c :: cs) q [] root = none) := by
  obtain ⟨htok, hne⟩ := tokenize_safe st.stack (fieldNameOf sLine) (valueExprOf sLine) false
    [[]] st.dataFile (by simp) hsafe
  refine ⟨hne, htok, ?_, ?_, ?_⟩
  · rw [ReadLine_eq_ProcessLine]
    exact ProcessLine_assign_safe st (lineCore sLine) hassign hsafe
  · intro cs root
    rw [tokenize]
    simp
  · intro c cs q root h1 h2 h3
    rw [tokenize]
    cases q <;> simp [h1, h2, h3, backAppend]

/-- Claim C19 at the line `x = 1, 2;` decoded into an empty tree. -/
theorem token_buffer_safe_witness :
    scanTokens (valueExprOf "x = 1, 2;".toList) false [[]] = ["1".toList, " 2".toList] ∧
    ReadLine ⟨empty, [[]], [], []⟩ "x = 1, 2;".toList =
      (match commitTokens [[]] (fieldNameOf "x = 1, 2;".toList)
          (scanTokens (valueExprOf "x = 1, 2;".toList) false [[]]) 0 empty with
      | none => none
      | some r => some ⟨r, [[]], fieldNameOf "x = 1, 2;".toList,
          valueExprOf "x = 1, 2;".toList⟩) :=
  ⟨by decide,
   (token_buffer_safe ⟨empty, [[]], [], []⟩ "x = 1, 2;".toList (by decide) (by decide)).2.2.1⟩

/-! ## The terminator is optional -/

theorem lineCore_of_no_hash (L : Str) (h : '#' ∉ L) : lineCore L = Trim L := by
  unfold lineCore
  rw [trim_guard]
  apply takeWhile_all
  intro x hx
  have hxL : x ∈ L :=
    (List.dropWhile_sublist _).subset (( List.rdropWhile_prefix _ _).subset hx)
  simp only [bne_iff_ne, ne_eq]
  rintro rfl
  exact h hxL

theorem dropWhile_snoc_neg (p : Char → Bool) (X : Str) (c : Char) (hc : p c = false) :
    (X ++ [c]).dropWhile p = X.dropWhile p ++ [c] := by
  induction X with
  | nil => simp [List.dropWhile, hc]
  | cons x X ih =>
    by_cases hx : p x = true
    · rw [List.cons_append, List.dropWhile_cons_of_pos hx, List.dropWhile_cons_of_pos hx, ih]
    · rw [List.cons_append, List.dropWhile_cons_of_neg hx, List.dropWhile_cons_of_neg hx]
      rfl

theorem Trim_snoc (X : Str) (c : Char) (hc : isTrimChar c = false) :
    Trim (X ++ [c]) = Trim X ++ (X.dropWhile isTrimChar).rtakeWhile isTrimChar ++ [c] := by
  unfold Trim
  rw [dropWhile_snoc_neg _ _ _ hc, List.rdropWhile_concat_neg _ _ _ (by simp [hc]),
    rdropWhile_append_rtakeWhile]

theorem mem_Trim (s : Str) (x : Char) (hx : x ∈ Trim s) : x ∈ s :=
  (List.dropWhile_sublist _).subset (( List.rdropWhile_prefix _ _).subset hx)

theorem mem_Trim_of_not_ws (s : Str) (x : Char) (hx : x ∈ s) (hw : isTrimChar x = false) :
    x ∈ Trim s := by
  have h1 : x ∈ s.takeWhile isTrimChar ++ s.dropWhile isTrimChar := by
    rw [List.takeWhile_append_dropWhile]; exact hx
  rcases List.mem_append.mp h1 with h | h
  · have := List.mem_takeWhile_imp h
    rw [hw] at this
    exact absurd this (by simp)
  · rw [← rdropWhile_append_rtakeWhile isTrimChar (s.dropWhile isTrimChar)] at h
    rcases List.mem_append.mp h with h | h
    · exact h
    · have := List.mem_rtakeWhile_imp h
      rw [hw] at this
      exact absurd this (by simp)

theorem commitTokens_congr (stk : List (List Nat)) (nm : Str) (toks : List Str) :
    ∀ (toks2 : List Str) (idx : Nat) (root : DataFile), toks.map Trim = toks2.map Trim →
      commitTokens stk nm toks idx root = commitTokens stk nm toks2 idx root := by
  induction toks with
  | nil =>
    intro toks2 idx root h
    cases toks2 with
    | nil => rfl
    | cons _ _ => simp at h
  | cons t ts ih =>
    intro toks2 idx root h
    cases toks2 with
    | nil => simp at h
    | cons t2 ts2 =>
      simp only [List.map_cons, List.cons.injEq] at h
      simp only [commitTokens, h.1]
      cases topSubscript root stk nm with
      | none => rfl
      | some r =>
        obtain ⟨root1, ref⟩ := r
        simp only
        cases root1.updateAt ref (fun d => some (d.storeValue (Trim t2) idx, ())) with
        | none => rfl
        | some r2 =>
          obtain ⟨root2, u⟩ := r2
          exact ih ts2 (idx + 1) root2 h.2

theorem plain_append (V : Str) :
    ∀ (q : Bool) (rest : Str) (toks : List Str), plainExpr V q = true →
      scanTokens (V ++ rest) q toks = scanTokens rest false (scanTokens V q toks) ∧
      safeExpr (V ++ rest) q = safeExpr rest false ∧
      hasSemi (V ++ rest) q = hasSemi rest false := by
  induction V with
  | nil =>
    intro q rest toks h
    cases q with
    | true => simp [plainExpr] at h
    | false => simp [scanTokens]
  | cons c cs ih =>
    intro q rest toks h
    rw [plainExpr] at h
    rw [List.cons_append, scanTokens, safeExpr, hasSemi, scanTokens]
    by_cases hq : c = '"'
    · simp only [hq, if_true] at h ⊢
      exact ih (!q) rest toks h
    · simp only [hq, if_false] at h ⊢
      cases q with
      | true =>
        simp only [if_true] at h ⊢
        exact ih true rest _ h
      | false =>
        simp only [Bool.false_eq_true, if_false] at h ⊢
        by_cases hs : c = ';'
        · simp [hs] at h
        · simp only [hs, if_false] at h ⊢
          by_cases hc : c = ','
          · simp only [hc, if_true]
            exact ih false rest _ h
          · simp only [hc, if_false]
            exact ih false rest _ h

theorem scan_ws_semi (w : Str) (hw : ∀ c ∈ w, isTrimChar c = true) :
    ∀ (pre : List Str) (t : Str),
      scanTokens (w ++ [';']) false (pre ++ [t]) = pre ++ [t ++ w] ∧
      safeExpr (w ++ [';']) false = true ∧ hasSemi (w ++ [';']) false = true := by
  induction w with
  | nil =>
    intro pre t
    simp [scanTokens, safeExpr, hasSemi]
  | cons c cs ih =>
    intro pre t
    have hc : isTrimChar c = true := hw c (by simp)
    have h1 : c ≠ '"' := by rintro rfl; simp [isTrimChar] at hc
    have h2 : c ≠ ';' := by rintro rfl; simp [isTrimChar] at hc
    have h3 : c ≠ ',' := by rintro rfl; simp [isTrimChar] at hc
    obtain ⟨e1, e2, e3⟩ := ih (fun x hx => hw x (by simp [hx])) pre (t ++ [c])
    rw [List.cons_append, scanTokens, safeExpr, hasSemi]
    simp only [h1, h2, h3, if_false, Bool.false_eq_true, pushChar, backAppend_snoc, e1, e2, e3]
    simp

theorem plain_alone (V : Str) (q : Bool) (h : plainExpr V q = true) :
    safeExpr V q = true ∧ hasSemi V q = false := by
  have := plain_append V q [] [] h
  simpa [safeExpr, hasSemi] using this.2

theorem take_drop_splice {α : Type} (l : List α) (x : α) (idx k : Nat)
    (h : idx ≤ l.length) (ys : List α) :
    (l.take idx ++ x :: l.drop (idx + 1)).take (idx + 1) ++
        (ys ++ (l.take idx ++ x :: l.drop (idx + 1)).drop (idx + 1 + k)) =
      l.take idx ++ (x :: ys ++ l.drop (idx + (k + 1))) := by
  have hA : (l.take idx).length = idx := by simp [h]
  have t1 : (l.take idx).take (idx + 1) = l.take idx := List.take_of_length_le (by omega)
  have t2 : (l.take idx).drop (idx + 1 + k) = [] := List.drop_of_length_le (by omega)
  rw [List.take_append_eq_append_take, List.drop_append_eq_append_drop, hA, t1, t2]
  have e1 : idx + 1 - idx = 1 := by omega
  have e2 : idx + 1 + k - idx = k + 1 := by omega
  rw [e1, e2]
  simp only [List.take_succ_cons, List.take_zero, List.drop_succ_cons, List.nil_append,
    List.drop_drop, List.append_assoc, List.cons_append, List.singleton_append]
  rw [show idx + 1 + k = idx + (k + 1) by omega]

theorem storeValue_le (ch : DataFile) (v : Str) (idx : Nat) (h : idx ≤ ch.m_vValues.length) :
    ch.storeValue v idx =
      { ch with m_vValues := ch.m_vValues.take idx ++ v :: ch.m_vValues.drop (idx + 1) } := by
  by_cases he : idx = ch.m_vValues.length
  · rw [storeValue_at_end ch v idx he]
    subst he
    simp
  · have hlt : idx < ch.m_vValues.length := by omega
    simp only [storeValue]
    rw [if_neg (by omega), List.set_eq_take_append_cons_drop, if_pos hlt]

theorem commitTokens_overwrite (p : List Nat) (stk : List (List Nat)) (sKey : Str)
    (toks : List Str) :
    ∀ (root cur : DataFile) (i idx : Nat) (n : Str) (ch : DataFile),
      root.nodeAt p = some cur → cur.m_mapObjects.lookup sKey = some i →
      cur.m_vObjects[i]? = some (n, ch) → idx ≤ ch.m_vValues.length →
      commitTokens (p :: stk) sKey toks idx root =
        some (root.replaceAt p
          { cur with m_vObjects :=
              (cur.m_vObjects.set i (n,
                { ch with m_vValues := ch.m_vValues.take idx ++
                                         (toks.map Trim ++
                                           ch.m_vValues.drop (idx + toks.length)) })) }) := by
  induction toks with
  | nil =>
    intro root cur i idx n ch h hk hi _
    have e : ({ cur with m_vObjects :=
        (cur.m_vObjects.set i (n,
          { ch with m_vValues := ch.m_vValues.take idx ++
                                   (([] : List Str).map Trim ++
                                     ch.m_vValues.drop (idx + ([] : List Str).length)) })) }
          : DataFile) = cur := by
      have : cur.m_vObjects.set i (n, ch) = cur.m_vObjects := set_of_getElem? _ _ _ hi
      cases cur; cases ch
      simp only [List.map_nil, List.nil_append, List.length_nil, Nat.add_zero,
        List.take_append_drop] at this ⊢
      rw [this]
    rw [e, replaceAt_self root p cur h]
    rfl
  | cons tok toks ih =>
    intro root cur i idx n ch h hk hi hidx
    have hlt : i < cur.m_vObjects.length := (List.getElem?_eq_some_iff.mp hi).1
    simp only [commitTokens]
    rw [topSubscript_present root p stk sKey cur i h hk hlt]
    simp only []
    rw [updateAt_eq root (p ++ [i]) _ ch (ch.storeValue (Trim tok) idx) ()
      (nodeAt_snoc root p i cur n ch h hi) rfl]
    simp only []
    rw [replaceAt_snoc root p i cur n ch _ h hi, storeValue_le ch _ idx hidx]
    rw [ih _ { cur with m_vObjects :=
                (cur.m_vObjects.set i (n,
                  { ch with m_vValues := ch.m_vValues.take idx ++
                                           Trim tok :: ch.m_vValues.drop (idx + 1) })) }
      i (idx + 1) n
      { ch with m_vValues := ch.m_vValues.take idx ++ Trim tok :: ch.m_vValues.drop (idx + 1) }
      (nodeAt_replaceAt root p cur _ h) hk
      (by simp [List.getElem?_set_self hlt]) (by simp; omega)]
    rw [replaceAt_replaceAt root p cur _ _ h]
    simp only [List.set_set, List.map_cons, List.length_cons]
    rw [take_drop_splice ch.m_vValues (Trim tok) idx toks.length hidx]

/-- Claim C14 (optional terminator). For every decoder state and every assignment
line `L` without `'#'` whose value expression has every quote closed and no `';'`
outside quotes, decoding `L` with a `';'` appended gives the same tree (and the
same stack and `sFieldName`) as decoding `L`: in both cases the tokens of the
value expression are committed, each trimmed, as the successive values of
`stack.top()[sFieldName]`. When the stack top designates a node whose name index
is in sync, the line is decoded, only that node changes, and in it the child named
by the line, at the position the name index gives, holds at slot `j` the trimmed
token `j`, for every token: a new child, appended last, holds exactly the trimmed
tokens, a child that was there keeps its children and its values from the number
of tokens on, and every other child is as before. The lines `x = 1, 2` and
`x = 1, 2;` both give the child `x` with the values `1` and `2`, and `x = a , b`
on a child `x` that holds `9`, `8`, `7` leaves `a`, `b`, `7`. -/
theorem optional_terminator (st : ReadState) (L : Str)
    (hassign : '=' ∈ L) (hnohash : '#' ∉ L)
    (hplain : plainExpr (valueExprOf L) false = true) :
    ((ReadLine st (L ++ [';'])).map (fun s => (s.dataFile, s.stack, s.sFieldName)) =
      (ReadLine st L).map (fun s => (s.dataFile, s.stack, s.sFieldName)) ∧
    ReadLine st L =
      match commitTokens st.stack (fieldNameOf L)
          (scanTokens (valueExprOf L) false [[]]) 0 st.dataFile with
      | none => none
      | some r => some ⟨r, st.stack, fieldNameOf L, valueExprOf L⟩) ∧
    (∀ (top : List Nat) (rest : List (List Nat)) (cur : DataFile),
      st.stack = top :: rest → st.dataFile.nodeAt top = some cur → SyncLocal cur →
      ∃ (st1 : ReadState) (cur1 : DataFile) (i : Nat) (ch1 : DataFile),
        ReadLine st L = some st1 ∧ st1.stack = st.stack ∧ st1.sFieldName = fieldNameOf L ∧
        st1.dataFile = st.dataFile.replaceAt top cur1 ∧
        st1.dataFile.nodeAt top = some cur1 ∧
        cur1.m_vValues = cur.m_vValues ∧
        cur1.m_mapObjects.lookup (fieldNameOf L) = some i ∧
        cur1.m_vObjects[i]? = some (fieldNameOf L, ch1) ∧
        (∀ j, j ≠ i → cur1.m_vObjects[j]? = cur.m_vObjects[j]?) ∧
        (∀ j, j < (scanTokens (valueExprOf L) false [[]]).length →
          ch1.m_vValues[j]? = ((scanTokens (valueExprOf L) false [[]])[j]?).map Trim) ∧
        (cur.m_mapObjects.lookup (fieldNameOf L) = none →
          i = cur.m_vObjects.length ∧
          ch1 = ⟨(scanTokens (valueExprOf L) false [[]]).map Trim, [], []⟩) ∧
        (∀ (i0 : Nat) (ch : DataFile), cur.m_mapObjects.lookup (fieldNameOf L) = some i0 →
          cur.m_vObjects[i0]? = some (fieldNameOf L, ch) →
          i = i0 ∧
          ch1 = { ch with m_vValues := (scanTokens (valueExprOf L) false [[]]).map Trim ++
                                         ch.m_vValues.drop
                                           (scanTokens (valueExprOf L) false [[]]).length })) ∧
    Read empty (some "x = 1, 2".toList) =
      some (true, ⟨[], [("x".toList, ⟨["1".toList, "2".toList], [], []⟩)], [("x".toList, 0)]⟩) ∧
    Read empty (some "x = 1, 2;".toList) =
      some (true, ⟨[], [("x".toList, ⟨["1".toList, "2".toList], [], []⟩)], [("x".toList, 0)]⟩) ∧
    Read ⟨[], [("x".toList, ⟨["9".toList, "8".toList, "7".toList], [], []⟩)], [("x".toList, 0)]⟩
        (some "x = a , b".toList) =
      some (true, ⟨[], [("x".toList, ⟨["a".toList, "b".toList, "7".toList], [], []⟩)],
        [("x".toList, 0)]⟩) := by
  have hfirst : (ReadLine st (L ++ [';'])).map (fun s => (s.dataFile, s.stack, s.sFieldName)) =
      (ReadLine st L).map (fun s => (s.dataFile, s.stack, s.sFieldName)) ∧
    ReadLine st L =
      match commitTokens st.stack (fieldNameOf L)
          (scanTokens (valueExprOf L) false [[]]) 0 st.dataFile with
      | none => none
      | some r => some ⟨r, st.stack, fieldNameOf L, valueExprOf L⟩ := by
    have hM : lineCore L = Trim L := lineCore_of_no_hash L hnohash
    have heqM : '=' ∈ Trim L := mem_Trim_of_not_ws L '=' hassign (by decide)
    have hi : List.indexOf '=' (Trim L) < (Trim L).length := List.indexOf_lt_length.mpr heqM
    obtain ⟨hsafeV, hsemiV⟩ := plain_alone _ false hplain
    -- the line without the terminator
    have hL : ReadLine st L =
        match commitTokens st.stack (fieldNameOf L)
            (scanTokens (valueExprOf L) false [[]]) 0 st.dataFile with
        | none => none
        | some r => some ⟨r, st.stack, fieldNameOf L, valueExprOf L⟩ := by
      rw [ReadLine_eq_ProcessLine]
      exact ProcessLine_assign_safe st (lineCore L) (hM ▸ heqM) hsafeV
    refine ⟨?_, hL⟩
    -- the line with the terminator
    have hnohash2 : '#' ∉ L ++ [';'] := by
      intro h
      rcases List.mem_append.mp h with h | h
      · exact hnohash h
      · simp at h
    have hM2 : lineCore (L ++ [';']) =
        Trim L ++ ((L.dropWhile isTrimChar).rtakeWhile isTrimChar ++ [';']) := by
      rw [lineCore_of_no_hash _ hnohash2, Trim_snoc L ';' (by decide), List.append_assoc]
    have hidx : List.indexOf '=' (lineCore (L ++ [';'])) = List.indexOf '=' (Trim L) := by
      rw [hM2]; exact List.indexOf_append_of_mem heqM
    have htake : (lineCore (L ++ [';'])).take (List.indexOf '=' (Trim L)) =
        (Trim L).take (List.indexOf '=' (Trim L)) := by
      rw [hM2]; exact List.take_append_of_le_length (Nat.le_of_lt hi)
    have hdrop : (lineCore (L ++ [';'])).drop (List.indexOf '=' (Trim L) + 1) =
        ((Trim L).drop (List.indexOf '=' (Trim L) + 1) ++
          (L.dropWhile isTrimChar).rtakeWhile isTrimChar) ++ [';'] := by
      rw [hM2, List.drop_append_of_le_length hi, List.append_assoc]
    have hw1 : ∀ x ∈ (L.dropWhile isTrimChar).rtakeWhile isTrimChar, isTrimChar x = true :=
      fun x hx => List.mem_rtakeWhile_imp hx
    have hV : valueExprOf L = Trim ((Trim L).drop (List.indexOf '=' (Trim L) + 1)) := by
      unfold valueExprOf; rw [hM]
    have hN : fieldNameOf L = Trim ((Trim L).take (List.indexOf '=' (Trim L))) := by
      unfold fieldNameOf; rw [hM]
    have hN2 : fieldNameOf (L ++ [';']) = fieldNameOf L := by
      rw [hN]; unfold fieldNameOf; rw [hidx, htake]
    have hV2 : ∃ w2, (∀ x ∈ w2, isTrimChar x = true) ∧
        valueExprOf (L ++ [';']) = valueExprOf L ++ (w2 ++ [';']) := by
      refine ⟨((((Trim L).drop (List.indexOf '=' (Trim L) + 1) ++
          (L.dropWhile isTrimChar).rtakeWhile isTrimChar)).dropWhile isTrimChar).rtakeWhile
            isTrimChar, fun x hx => List.mem_rtakeWhile_imp hx, ?_⟩
      rw [hV]
      unfold valueExprOf
      rw [hidx, hdrop, Trim_snoc _ ';' (by decide), Trim_append_ws _ _ hw1, List.append_assoc]
    obtain ⟨w2, hw2, hV2⟩ := hV2
    obtain ⟨hscan, hsafe2, hsemi2⟩ := plain_append (valueExprOf L) false (w2 ++ [';']) [[]] hplain
    have hne : scanTokens (valueExprOf L) false [[]] ≠ [] :=
      (tokenize_safe st.stack (fieldNameOf L) (valueExprOf L) false [[]] st.dataFile
        (by simp) hsafeV).2
    obtain ⟨pre, t, hpt⟩ : ∃ pre t, scanTokens (valueExprOf L) false [[]] = pre ++ [t] :=
      ⟨_, _, (List.dropLast_append_getLast hne).symm⟩
    obtain ⟨e1, e2, e3⟩ := scan_ws_semi w2 hw2 pre t
    have hassign2 : '=' ∈ lineCore (L ++ [';']) := by
      rw [hM2]; exact List.mem_append_left _ heqM
    have hsafeV2 : safeExpr (valueExprOf (L ++ [';'])) false = true := by
      rw [hV2, hsafe2, e2]
    have hL2 := ProcessLine_assign_safe st (lineCore (L ++ [';'])) hassign2 hsafeV2
    rw [← ReadLine_eq_ProcessLine] at hL2
    change ReadLine st (L ++ [';']) =
      match commitTokens st.stack (fieldNameOf (L ++ [';']))
          (scanTokens (valueExprOf (L ++ [';'])) false [[]]) 0 st.dataFile with
      | none => none
      | some r => some ⟨r, st.stack, fieldNameOf (L ++ [';']), valueExprOf (L ++ [';'])⟩ at hL2
    rw [hL2, hL, hN2]
    have hcommit : commitTokens st.stack (fieldNameOf L)
        (scanTokens (valueExprOf (L ++ [';'])) false [[]]) 0 st.dataFile =
        commitTokens st.stack (fieldNameOf L)
          (scanTokens (valueExprOf L) false [[]]) 0 st.dataFile := by
      apply commitTokens_congr
      rw [hV2, hscan, hpt, e1]
      simp [Trim_append_ws _ _ hw2]
    rw [hcommit]
    cases commitTokens st.stack (fieldNameOf L)
        (scanTokens (valueExprOf L) false [[]]) 0 st.dataFile with
    | none => rfl
    | some r => rfl

  refine ⟨hfirst, ?_, rfl, rfl, rfl⟩
  intro top rest cur hstk hcur hsync
  have hne : scanTokens (valueExprOf L) false [[]] ≠ [] :=
    (tokenize_safe st.stack (fieldNameOf L) (valueExprOf L) false [[]] st.dataFile
      (by simp) (plain_alone _ false hplain).1).2
  have hL := hfirst.2
  rw [hstk] at hL
  cases hk : cur.m_mapObjects.lookup (fieldNameOf L) with
  | none =>
    obtain ⟨tok, ts, hts⟩ : ∃ tok ts, scanTokens (valueExprOf L) false [[]] = tok :: ts := by
      cases hsc : scanTokens (valueExprOf L) false [[]] with
      | nil => exact absurd hsc hne
      | cons tok ts => exact ⟨tok, ts, rfl⟩
    rw [hts] at hL ⊢
    rw [commitTokens_new top rest (fieldNameOf L) tok ts st.dataFile cur hcur hk] at hL
    simp only [] at hL
    refine ⟨_, _, cur.m_vObjects.length, ⟨(tok :: ts).map Trim, [], []⟩, hL, hstk.symm, rfl,
      rfl, nodeAt_replaceAt st.dataFile top cur _ hcur, rfl,
      lookup_append_absent _ _ _ hk, by simp, ?_, ?_, fun _ => ⟨rfl, rfl⟩, ?_⟩
    · intro j hj
      by_cases hlt : j < cur.m_vObjects.length
      · exact List.getElem?_append_left hlt
      · simp only []
        rw [List.getElem?_eq_none (by simp; omega), List.getElem?_eq_none (by omega)]
    · intro j _
      simp only [List.getElem?_map]
    · intro i0 ch h0 _
      simp at h0
  | some i0 =>
    obtain ⟨e, he, hname⟩ : ∃ e, cur.m_vObjects[i0]? = some e ∧ e.1 = fieldNameOf L := by
      have := (hsync (fieldNameOf L) i0).mp hk
      cases hobj : cur.m_vObjects[i0]? with
      | none => simp [hobj] at this
      | some e => exact ⟨e, rfl, by simpa [hobj] using this⟩
    obtain ⟨n, ch⟩ := e
    simp only at hname
    subst hname
    have hlt : i0 < cur.m_vObjects.length := (List.getElem?_eq_some_iff.mp he).1
    rw [commitTokens_overwrite top rest _ _ st.dataFile cur i0 0 _ ch hcur hk he
      (Nat.zero_le _)] at hL
    simp only [List.take_zero, List.nil_append, Nat.zero_add] at hL
    refine ⟨_, _, i0, _, hL, hstk.symm, rfl, rfl,
      nodeAt_replaceAt st.dataFile top cur _ hcur, rfl, hk,
      List.getElem?_set_self hlt, ?_, ?_, ?_, ?_⟩
    · intro j hj
      exact List.getElem?_set_ne (Ne.symm hj)
    · intro j hj
      simp only []
      rw [List.getElem?_append_left (by simpa using hj), List.getElem?_map]
    · intro h0
      simp at h0
    · intro i1 ch1 h1 h2
      simp only [Option.some.injEq] at h1
      subst h1
      rw [he] at h2
      simp only [Option.some.injEq, Prod.mk.injEq, true_and] at h2
      subst h2
      exact ⟨rfl, rfl⟩

/-- Claim C14 at the line `x = 1, "a;b" ` decoded into an empty tree: with and
without a final `';'` the root gets the child `x` with the values `1` and `a;b`. -/
theorem optional_terminator_witness :
    ((ReadLine ⟨empty, [[]], [], []⟩ ("x = 1, \"a;b\" ".toList ++ [';'])).map
        (fun s => (s.dataFile, s.stack, s.sFieldName)) =
      (ReadLine ⟨empty, [[]], [], []⟩ "x = 1, \"a;b\" ".toList).map
        (fun s => (s.dataFile, s.stack, s.sFieldName)) ∧
    ReadLine ⟨empty, [[]], [], []⟩ "x = 1, \"a;b\" ".toList =
      match commitTokens [[]] (fieldNameOf "x = 1, \"a;b\" ".toList)
          (scanTokens (valueExprOf "x = 1, \"a;b\" ".toList) false [[]]) 0 empty with
      | none => none
      | some r => some ⟨r, [[]], fieldNameOf "x = 1, \"a;b\" ".toList,
          valueExprOf "x = 1, \"a;b\" ".toList⟩) ∧
    ReadLine ⟨empty, [[]], [], []⟩ "x = 1, \"a;b\" ".toList =
      some ⟨⟨[], [("x".toList, ⟨["1".toList, "a;b".toList], [], []⟩)], [("x".toList, 0)]⟩,
        [[]], "x".toList, "1, \"a;b\"".toList⟩ ∧
    ReadLine ⟨empty, [[]], [], []⟩ "x = 1, \"a;b\" ;".toList =
      some ⟨⟨[], [("x".toList, ⟨["1".toList, "a;b".toList], [], []⟩)], [("x".toList, 0)]⟩,
        [[]], "x".toList, "1, \"a;b\" ;".toList⟩ :=
  ⟨(optional_terminator ⟨empty, [[]], [], []⟩ "x = 1, \"a;b\" ".toList
    (by decide) (by decide) (by decide)).1, rfl, rfl⟩


/-! ## Comments after structural lines -/

/-- Claim C16 (comments and whitespace on structural lines), evaluated. The line
is trimmed before it is cut at `'#'`, so the whitespace in front of a comment
stays at the end of the line. The line `} # end` becomes `} `, which does not end
with `'}'`: it is stored as `sFieldName` and the stack is not popped, so in the
file `s`, `{`, `x = 1;`, `} # end`, `y = 2;` the child `y` ends up inside the
section `s`, whereas without the comment it is a child of the root. The line
`s # sec` becomes `s `, and the section is created under the name `s ` with the
trailing blank. -/
theorem comment_after_structural_line :
    ReadLine ⟨empty, [[0], []], [], []⟩ "\x7d # end".toList =
      some ⟨empty, [[0], []], "\x7d ".toList, []⟩ ∧
    ReadLine ⟨empty, [[0], []], [], []⟩ "\x7d".toList = some ⟨empty, [[]], [], []⟩ ∧
    Read empty (some "s\n\x7b\n\tx = 1;\n\x7d # end\ny = 2;\n".toList) =
      some (true, ⟨[], [("s".toList, ⟨[], [("x".toList, ⟨["1".toList], [], []⟩),
        ("y".toList, ⟨["2".toList], [], []⟩)], [("x".toList, 0), ("y".toList, 1)]⟩)],
        [("s".toList, 0)]⟩) ∧
    Read empty (some "s\n\x7b\n\tx = 1;\n\x7d\ny = 2;\n".toList) =
      some (true, ⟨[], [("s".toList, ⟨[], [("x".toList, ⟨["1".toList], [], []⟩)],
        [("x".toList, 0)]⟩), ("y".toList, ⟨["2".toList], [], []⟩)],
        [("s".toList, 0), ("y".toList, 1)]⟩) ∧
    Read empty (some "s # sec\n\x7b\n\tx = 1;\n\x7d\n".toList) =
      some (true, ⟨[], [("s ".toList, ⟨[], [("x".toList, ⟨["1".toList], [], []⟩)],
        [("x".toList, 0)]⟩)], [("s ".toList, 0)]⟩) ∧
    Read empty (some "s\n\x7b\n\tx = 1;\n\x7d\n".toList) =
      some (true, ⟨[], [("s".toList, ⟨[], [("x".toList, ⟨["1".toList], [], []⟩)],
        [("x".toList, 0)]⟩)], [("s".toList, 0)]⟩) :=
  ⟨rfl, rfl, rfl, rfl, rfl, rfl⟩

/-! ## Nodes of a tree after an update -/

theorem nodeAt_append (root : DataFile) (p r : List Nat) :
    root.nodeAt (p ++ r) = (root.nodeAt p).bind (fun d => d.nodeAt r) := by
  induction p generalizing root with
  | nil => simp [nodeAt]
  | cons i p ih =>
    rw [List.cons_append]
    simp only [nodeAt]
    cases root.m_vObjects[i]? with
    | none => rfl
    | some obj => exact ih obj.2

theorem nodeAt_replaceAt_append (root : DataFile) (p r : List Nat) (cur new : DataFile)
    (h : root.nodeAt p = some cur) :
    (root.replaceAt p new).nodeAt (p ++ r) = new.nodeAt r := by
  rw [nodeAt_append, nodeAt_replaceAt root p cur new h]
  rfl

theorem map_fst_set (objs : List (Str × DataFile)) (i : Nat) (n : Str) (c c1 : DataFile)
    (h : objs[i]? = some (n, c)) :
    (objs.set i (n, c1)).map Prod.fst = objs.map Prod.fst := by
  induction objs generalizing i with
  | nil => rfl
  | cons x xs ih =>
    cases i with
    | zero =>
      simp only [List.getElem?_cons_zero, Option.some.injEq] at h
      subst h
      rfl
    | succ i =>
      simp only [List.getElem?_cons_succ] at h
      simp [List.set, ih i h]

theorem shallow_replaceAt_of_not_prefix (root : DataFile) (p q : List Nat)
    (cur new : DataFile) (h : root.nodeAt p = some cur) (hnp : ¬ p <+: q) :
    ((root.replaceAt p new).nodeAt q).map shallow = (root.nodeAt q).map shallow := by
  induction p generalizing root q with
  | nil => exact absurd (List.nil_prefix) hnp
  | cons i p ih =>
    simp only [nodeAt] at h
    cases hobj : root.m_vObjects[i]? with
    | none => simp [hobj] at h
    | some obj =>
      simp only [hobj] at h
      have hi : i < root.m_vObjects.length := (List.getElem?_eq_some_iff.mp hobj).1
      simp only [replaceAt, hobj]
      cases q with
      | nil =>
        simp only [nodeAt, Option.map_some', shallow, Option.some.injEq, Prod.mk.injEq,
          true_and, and_true]
        exact map_fst_set _ _ _ obj.2 _ hobj
      | cons j q =>
        by_cases hij : j = i
        · subst hij
          have hpq : ¬ p <+: q := fun hh => hnp ((List.cons_prefix_cons).mpr ⟨rfl, hh⟩)
          simp only [nodeAt, List.getElem?_set_self hi, hobj]
          exact ih obj.2 q h hpq
        · simp only [nodeAt, List.getElem?_set_ne (Ne.symm hij)]

theorem updateAt_some {α : Type} (root : DataFile) (p : List Nat)
    (f : DataFile → Option (DataFile × α)) (root1 : DataFile) (a : α)
    (h : root.updateAt p f = some (root1, a)) :
    ∃ cur cur1, root.nodeAt p = some cur ∧ f cur = some (cur1, a) ∧
      root1 = root.replaceAt p cur1 := by
  induction p generalizing root root1 with
  | nil => exact ⟨root, root1, rfl, by simpa [updateAt] using h, rfl⟩
  | cons i p ih =>
    simp only [updateAt] at h
    cases hobj : root.m_vObjects[i]? with
    | none => simp [hobj] at h
    | some obj =>
      simp only [hobj] at h
      cases hrec : obj.2.updateAt p f with
      | none => simp [hrec] at h
      | some r =>
        obtain ⟨child, b⟩ := r
        simp only [hrec, Option.some.injEq, Prod.mk.injEq] at h
        obtain ⟨h1, h2⟩ := h
        subst h2
        obtain ⟨cur, cur1, hc, hf, he⟩ := ih obj.2 child hrec
        refine ⟨cur, cur1, ?_, hf, ?_⟩
        · simp only [nodeAt, hobj]; exact hc
        · rw [← h1, he]
          simp only [replaceAt, hobj]

theorem operatorSubscript_some (d : DataFile) (k : Str) (d1 : DataFile) (i : Nat)
    (h : d.operatorSubscript k = some (d1, i)) :
    (d.m_mapObjects.lookup k = none ∧ i = d.m_vObjects.length ∧
      d1 = { d with
             m_mapObjects := d.m_mapObjects ++ [(k, d.m_vObjects.length)]
             m_vObjects := d.m_vObjects ++ [(k, empty)] }) ∨
    (d.m_mapObjects.lookup k = some i ∧ i < d.m_vObjects.length ∧ d1 = d) := by
  cases hk : d.m_mapObjects.lookup k with
  | none =>
    rw [operatorSubscript_absent d k hk] at h
    simp only [Option.some.injEq, Prod.mk.injEq] at h
    exact Or.inl ⟨rfl, h.2.symm, h.1.symm⟩
  | some j =>
    by_cases hj : j < d.m_vObjects.length
    · rw [operatorSubscript_present d k j hk hj] at h
      simp only [Option.some.injEq, Prod.mk.injEq] at h
      exact Or.inr ⟨by rw [h.2], h.2 ▸ hj, h.1.symm⟩
    · simp [operatorSubscript, mapCount, hk, hj] at h

/-! ## Properties of all nodes that decoding maintains -/

theorem AllNodes_sub (P : DataFile → Prop) (root : DataFile) (p : List Nat) (cur : DataFile)
    (h : AllNodes P root) (hp : root.nodeAt p = some cur) : AllNodes P cur := by
  intro q n hq
  apply h (p ++ q) n
  rw [nodeAt_append, hp]
  exact hq

theorem AllNodes_replaceAt {P : DataFile → Prop} {ok : Char → Prop} (hinv : NodeInv P ok)
    (root : DataFile) (p : List Nat) (cur new : DataFile)
    (hp : root.nodeAt p = some cur) (h : AllNodes P root) (hnew : AllNodes P new) :
    AllNodes P (root.replaceAt p new) := by
  intro q n hq
  by_cases hpq : p <+: q
  · obtain ⟨r, rfl⟩ := hpq
    rw [nodeAt_replaceAt_append root p r cur new hp] at hq
    exact hnew r n hq
  · have hs := shallow_replaceAt_of_not_prefix root p q cur new hp hpq
    rw [hq] at hs
    cases hq0 : root.nodeAt q with
    | none => simp [hq0] at hs
    | some n0 =>
      simp only [hq0, Option.map_some', Option.some.injEq] at hs
      exact hinv.congr n0 n hs.symm (h q n0 hq0)

theorem nodeAt_empty_cons (j : Nat) (r : List Nat) : empty.nodeAt (j :: r) = none := rfl

theorem AllNodes_empty {P : DataFile → Prop} {ok : Char → Prop} (hinv : NodeInv P ok) :
    AllNodes P empty := by
  intro q n hq
  cases q with
  | nil =>
    simp only [nodeAt, Option.some.injEq] at hq
    exact hq ▸ hinv.atEmpty
  | cons j r => simp [nodeAt_empty_cons] at hq

theorem AllNodes_storeValue {P : DataFile → Prop} {ok : Char → Prop} (hinv : NodeInv P ok)
    (d : DataFile) (v : Str) (i : Nat) (hv : ∀ c ∈ v, ok c) (h : AllNodes P d) :
    AllNodes P (d.storeValue v i) := by
  intro q n hq
  cases q with
  | nil =>
    simp only [nodeAt, Option.some.injEq] at hq
    exact hq ▸ hinv.set d v i hv (h [] d rfl)
  | cons j r => exact h (j :: r) n hq

theorem AllNodes_add {P : DataFile → Prop} {ok : Char → Prop} (hinv : NodeInv P ok)
    (d : DataFile) (k : Str) (hk : ∀ c ∈ k, ok c) (h : AllNodes P d)
    (habs : d.m_mapObjects.lookup k = none) :
    AllNodes P { d with
                 m_mapObjects := d.m_mapObjects ++ [(k, d.m_vObjects.length)]
                 m_vObjects := d.m_vObjects ++ [(k, empty)] } := by
  intro q n hq
  cases q with
  | nil =>
    simp only [nodeAt, Option.some.injEq] at hq
    exact hq ▸ hinv.add d k hk (h [] d rfl) habs
  | cons j r =>
    simp only [nodeAt] at hq
    by_cases hj : j < d.m_vObjects.length
    · rw [List.getElem?_append_left hj] at hq
      exact h (j :: r) n (by simpa only [nodeAt] using hq)
    · by_cases hj2 : j = d.m_vObjects.length
      · subst hj2
        simp only [List.getElem?_append_right (Nat.le_refl _), Nat.sub_self,
          List.getElem?_cons_zero] at hq
        exact AllNodes_empty hinv r n hq
      · rw [List.getElem?_eq_none (by simp; omega)] at hq
        simp at hq

theorem AllNodes_operatorSubscript {P : DataFile → Prop} {ok : Char → Prop}
    (hinv : NodeInv P ok) (d : DataFile) (k : Str) (d1 : DataFile) (i : Nat)
    (hk : ∀ c ∈ k, ok c) (h : AllNodes P d) (hop : d.operatorSubscript k = some (d1, i)) :
    AllNodes P d1 := by
  rcases operatorSubscript_some d k d1 i hop with ⟨habs, _, rfl⟩ | ⟨_, _, rfl⟩
  · exact AllNodes_add hinv d k hk h habs
  · exact h

theorem AllNodes_updateAt {P : DataFile → Prop} {ok : Char → Prop} {α : Type}
    (hinv : NodeInv P ok) (root : DataFile) (p : List Nat)
    (f : DataFile → Option (DataFile × α)) (root1 : DataFile) (a : α)
    (h : AllNodes P root) (hup : root.updateAt p f = some (root1, a))
    (hf : ∀ d d1 b, AllNodes P d → f d = some (d1, b) → AllNodes P d1) :
    AllNodes P root1 := by
  obtain ⟨cur, cur1, hp, hfc, rfl⟩ := updateAt_some root p f root1 a hup
  exact AllNodes_replaceAt hinv root p cur cur1 hp h
    (hf cur cur1 a (AllNodes_sub P root p cur h hp) hfc)

theorem AllNodes_topSubscript {P : DataFile → Prop} {ok : Char → Prop}
    (hinv : NodeInv P ok) (root : DataFile) (stk : List (List Nat)) (k : Str)
    (root1 : DataFile) (ref : List Nat) (hk : ∀ c ∈ k, ok c) (h : AllNodes P root)
    (hop : topSubscript root stk k = some (root1, ref)) : AllNodes P root1 := by
  unfold topSubscript at hop
  cases hs : stk.head? with
  | none => simp [hs] at hop
  | some top =>
    simp only [hs] at hop
    cases hu : root.updateAt top (fun d => d.operatorSubscript k) with
    | none => simp [hu] at hop
    | some r =>
      obtain ⟨r1, i⟩ := r
      simp only [hu, Option.some.injEq, Prod.mk.injEq] at hop
      rw [← hop.1]
      exact AllNodes_updateAt hinv root top _ r1 i h hu
        (fun d d1 b hd hop => AllNodes_operatorSubscript hinv d k d1 b hk hd hop)

theorem ok_Trim {ok : Char → Prop} (s : Str) (h : ∀ c ∈ s, ok c) : ∀ c ∈ Trim s, ok c :=
  fun c hc => h c (mem_Trim s c hc)

theorem AllNodes_commitTokens {P : DataFile → Prop} {ok : Char → Prop}
    (hinv : NodeInv P ok) (stk : List (List Nat)) (k : Str) (hk : ∀ c ∈ k, ok c)
    (toks : List Str) :
    ∀ (idx : Nat) (root root1 : DataFile), (∀ t ∈ toks, ∀ c ∈ t, ok c) → AllNodes P root →
      commitTokens stk k toks idx root = some root1 → AllNodes P root1 := by
  induction toks with
  | nil =>
    intro idx root root1 _ h hc
    simp only [commitTokens, Option.some.injEq] at hc
    exact hc ▸ h
  | cons t ts ih =>
    intro idx root root1 htoks h hc
    simp only [commitTokens] at hc
    cases hs : topSubscript root stk k with
    | none => simp [hs] at hc
    | some r =>
      obtain ⟨r1, ref⟩ := r
      simp only [hs] at hc
      have h1 := AllNodes_topSubscript hinv root stk k r1 ref hk h hs
      cases hu : r1.updateAt ref (fun d => some (d.storeValue (Trim t) idx, ())) with
      | none => simp [hu] at hc
      | some r2 =>
        obtain ⟨r2, u⟩ := r2
        simp only [hu] at hc
        have h2 : AllNodes P r2 := AllNodes_updateAt hinv r1 ref _ r2 u h1 hu
          (fun d d1 b hd hfd => by
            simp only [Option.some.injEq, Prod.mk.injEq] at hfd
            rw [← hfd.1]
            exact AllNodes_storeValue hinv d _ idx
              (ok_Trim t (htoks t (by simp))) hd)
        exact ih (idx + 1) r2 root1 (fun t' ht' => htoks t' (by simp [ht'])) h2 hc

theorem ok_backAppend {ok : Char → Prop} (toks toks1 : List Str) (c : Char)
    (htoks : ∀ t ∈ toks, ∀ x ∈ t, ok x) (hc : ok c) (h : backAppend toks c = some toks1) :
    ∀ t ∈ toks1, ∀ x ∈ t, ok x := by
  unfold backAppend at h
  cases hl : toks.getLast? with
  | none => simp [hl] at h
  | some l =>
    simp only [hl, Option.some.injEq] at h
    subst h
    intro t ht x hx
    rcases List.mem_append.mp ht with ht | ht
    · exact htoks t (List.dropLast_subset _ ht) x hx
    · simp only [List.mem_singleton] at ht
      subst ht
      rcases List.mem_append.mp hx with hx | hx
      · exact htoks l (List.mem_of_getLast?_eq_some hl) x hx
      · simp only [List.mem_singleton] at hx
        exact hx ▸ hc

theorem AllNodes_tokenize {P : DataFile → Prop} {ok : Char → Prop}
    (hinv : NodeInv P ok) (stk : List (List Nat)) (k : Str) (hk : ∀ c ∈ k, ok c)
    (v : Str) :
    ∀ (q : Bool) (toks : List Str) (root : DataFile) (toks1 : List Str) (root1 : DataFile),
      (∀ c ∈ v, ok c) → (∀ t ∈ toks, ∀ c ∈ t, ok c) → AllNodes P root →
      tokenize stk k v q toks root = some (toks1, root1) →
      AllNodes P root1 ∧ ∀ t ∈ toks1, ∀ c ∈ t, ok c := by
  induction v with
  | nil =>
    intro q toks root toks1 root1 _ htoks h ht
    simp only [tokenize, Option.some.injEq, Prod.mk.injEq] at ht
    exact ⟨ht.2 ▸ h, ht.1 ▸ htoks⟩
  | cons c cs ih =>
    intro q toks root toks1 root1 hv htoks h ht
    have hc : ok c := hv c (by simp)
    have hcs : ∀ x ∈ cs, ok x := fun x hx => hv x (by simp [hx])
    rw [tokenize] at ht
    by_cases hq : c = '"'
    · simp only [hq, if_true] at ht
      exact ih _ toks root toks1 root1 hcs htoks h ht
    · simp only [hq, if_false] at ht
      by_cases hb : q = true
      · simp only [hb, if_true] at ht
        cases hba : backAppend toks c with
        | none => simp [hba] at ht
        | some toks2 =>
          simp only [hba] at ht
          exact ih _ toks2 root toks1 root1 hcs (ok_backAppend toks toks2 c htoks hc hba) h ht
      · simp only [hb, if_false] at ht
        by_cases hs : c = ';'
        · simp only [hs, if_true] at ht
          cases hcm : commitTokens stk k toks 0 root with
          | none => simp [hcm] at ht
          | some r =>
            simp only [hcm] at ht
            exact ih _ [] r toks1 root1 hcs (by simp)
              (AllNodes_commitTokens hinv stk k hk toks 0 root r htoks h hcm) ht
        · simp only [hs, if_false] at ht
          by_cases hcomma : c = ','
          · simp only [hcomma, if_true] at ht
            refine ih _ (toks ++ [[]]) root toks1 root1 hcs ?_ h ht
            intro t htt
            rcases List.mem_append.mp htt with htt | htt
            · exact htoks t htt
            · simp only [List.mem_singleton] at htt
              subst htt
              simp
          · simp only [hcomma, if_false] at ht
            cases hba : backAppend toks c with
            | none => simp [hba] at ht
            | some toks2 =>
              simp only [hba] at ht
              exact ih _ toks2 root toks1 root1 hcs (ok_backAppend toks toks2 c htoks hc hba) h ht

theorem mem_lineCore (sLine : Str) (c : Char) (h : c ∈ lineCore sLine) : c ≠ '#' := by
  unfold lineCore at h
  have := List.mem_takeWhile_imp h
  simpa using this

theorem inv_ProcessLine {P : DataFile → Prop} {ok : Char → Prop} (hinv : NodeInv P ok)
    (st st1 : ReadState) (s : Str) (hs : ∀ c ∈ s, ok c)
    (h : AllNodes P st.dataFile) (hfn : ∀ c ∈ st.sFieldName, ok c)
    (hp : ProcessLine st s = some st1) :
    AllNodes P st1.dataFile ∧ ∀ c ∈ st1.sFieldName, ok c := by
  unfold ProcessLine at hp
  by_cases he : s.isEmpty = true
  · simp only [he, if_true, Option.some.injEq] at hp
    exact hp ▸ ⟨h, hfn⟩
  · simp only [he, if_false, Bool.false_eq_true] at hp
    by_cases hi : List.indexOf '=' s = s.length
    · simp only [hi, if_true] at hp
      by_cases hopen : s.head? = some '{'
      · simp only [hopen, if_true] at hp
        cases hts : topSubscript st.dataFile st.stack st.sFieldName with
        | none => simp [hts] at hp
        | some r =>
          obtain ⟨r1, ref⟩ := r
          simp only [hts, Option.some.injEq] at hp
          subst hp
          exact ⟨AllNodes_topSubscript hinv _ _ _ r1 ref hfn h hts, hfn⟩
      · simp only [hopen, if_false] at hp
        by_cases hclose : s.getLast? = some '}'
        · simp only [hclose, if_true] at hp
          cases hstk : st.stack with
          | nil => simp [hstk] at hp
          | cons top below =>
            simp only [hstk, Option.some.injEq] at hp
            subst hp
            exact ⟨h, hfn⟩
        · simp only [hclose, if_false, Option.some.injEq] at hp
          subst hp
          exact ⟨h, hs⟩
    · simp only [hi, if_false] at hp
      have hname : ∀ c ∈ Trim (s.take (List.indexOf '=' s)), ok c :=
        ok_Trim _ (fun c hc => hs c (List.mem_of_mem_take hc))
      have hval : ∀ c ∈ Trim (s.drop (List.indexOf '=' s + 1)), ok c :=
        ok_Trim _ (fun c hc => hs c (List.mem_of_mem_drop hc))
      cases htk : tokenize st.stack (Trim (s.take (List.indexOf '=' s)))
          (Trim (s.drop (List.indexOf '=' s + 1))) false [[]] st.dataFile with
      | none => simp [htk] at hp
      | some r =>
        obtain ⟨toks1, r1⟩ := r
        simp only [htk] at hp
        obtain ⟨h1, htoks1⟩ := AllNodes_tokenize hinv st.stack _ hname _ false [[]]
          st.dataFile toks1 r1 hval (by simp) h htk
        cases hcm : commitTokens st.stack (Trim (s.take (List.indexOf '=' s))) toks1 0 r1 with
        | none => simp [hcm] at hp
        | some r2 =>
          simp only [hcm, Option.some.injEq] at hp
          subst hp
          exact ⟨AllNodes_commitTokens hinv st.stack _ hname toks1 0 r1 r2 htoks1 h1 hcm, hname⟩

theorem inv_ReadLine {P : DataFile → Prop} {ok : Char → Prop} (hinv : NodeInv P ok)
    (st st1 : ReadState) (sLine : Str)
    (h : AllNodes P st.dataFile) (hfn : ∀ c ∈ st.sFieldName, ok c)
    (hp : ReadLine st sLine = some st1) :
    AllNodes P st1.dataFile ∧ ∀ c ∈ st1.sFieldName, ok c :=
  inv_ProcessLine hinv st st1 (lineCore sLine)
    (fun c hc => hinv.text c (mem_lineCore sLine c hc)) h hfn hp

theorem ReadLines_cons_some (st st2 : ReadState) (l : Str) (ls : List Str)
    (h : ReadLines st (l :: ls) = some st2) :
    ∃ st1, ReadLine st l = some st1 ∧ ReadLines st1 ls = some st2 := by
  rw [ReadLines_cons] at h
  cases h1 : ReadLine st l with
  | none => simp [h1] at h
  | some st1 => exact ⟨st1, rfl, by simpa [h1] using h⟩

theorem inv_ReadLines {P : DataFile → Prop} {ok : Char → Prop} (hinv : NodeInv P ok)
    (lines : List Str) :
    ∀ (st st1 : ReadState), AllNodes P st.dataFile → (∀ c ∈ st.sFieldName, ok c) →
      ReadLines st lines = some st1 →
      AllNodes P st1.dataFile ∧ ∀ c ∈ st1.sFieldName, ok c := by
  induction lines with
  | nil =>
    intro st st1 h hfn hr
    simp only [ReadLines, Option.some.injEq] at hr
    exact hr ▸ ⟨h, hfn⟩
  | cons l ls ih =>
    intro st st1 h hfn hr
    obtain ⟨st0, h0, h1⟩ := ReadLines_cons_some st st1 l ls hr
    obtain ⟨ha, hb⟩ := inv_ReadLine hinv st st0 l h hfn h0
    exact ih st0 st1 ha hb h1

theorem inv_Read {P : DataFile → Prop} {ok : Char → Prop} (hinv : NodeInv P ok)
    (t t1 : DataFile) (file : Option Str) (b : Bool)
    (h : AllNodes P t) (hr : Read t file = some (b, t1)) : AllNodes P t1 := by
  cases file with
  | none =>
    simp only [Read, Option.some.injEq, Prod.mk.injEq] at hr
    exact hr.2 ▸ h
  | some text =>
    simp only [Read] at hr
    cases hl : ReadLines ⟨t, [[]], [], []⟩ (getlines text) with
    | none => simp [hl] at hr
    | some st =>
      simp only [hl, Option.some.injEq, Prod.mk.injEq] at hr
      rw [← hr.2]
      exact (inv_ReadLines hinv (getlines text) _ st h (by simp) hl).1

/-! ## The two properties: name index in sync, no `'#'` -/

theorem lookup_append_of_some (m e : List (Str × Nat)) (k : Str) (v : Nat)
    (h : m.lookup k = some v) : (m ++ e).lookup k = some v := by
  induction m with
  | nil => simp [List.lookup] at h
  | cons x m ih =>
    obtain ⟨a, b⟩ := x
    simp only [List.cons_append, List.lookup] at h ⊢
    cases hka : (k == a) with
    | true => simpa [hka] using h
    | false => simp only [hka] at h ⊢; exact ih h

theorem NodeInv_SyncLocal : NodeInv SyncLocal (fun _ => True) where
  congr := by
    intro a b hab ha k i
    simp only [shallow, Prod.mk.injEq] at hab
    have := ha k i
    rw [← List.getElem?_map, hab.2.1, hab.2.2] at this
    rw [← List.getElem?_map]
    exact this
  atEmpty := by
    intro k i
    simp [empty]
  set := by
    intro d v i _ h k j
    exact h k j
  add := by
    intro d k _ h habs k1 j
    simp only
    by_cases hk : k1 = k
    · subst hk
      rw [lookup_append_absent _ _ _ habs]
      constructor
      · intro hj
        simp only [Option.some.injEq] at hj
        subst hj
        simp
      · intro hj
        by_cases hlt : j < d.m_vObjects.length
        · rw [List.getElem?_append_left hlt] at hj
          have := (h k1 j).mpr hj
          rw [habs] at this
          simp at this
        · by_cases heq : j = d.m_vObjects.length
          · rw [heq]
          · rw [List.getElem?_eq_none (by simp; omega)] at hj
            simp at hj
    · have hl : (d.m_mapObjects ++ [(k, d.m_vObjects.length)]).lookup k1 =
          d.m_mapObjects.lookup k1 := by
        cases hk1 : d.m_mapObjects.lookup k1 with
        | none => exact lookup_append_ne _ _ _ _ hk1 hk
        | some v => exact lookup_append_of_some _ _ _ _ hk1
      rw [hl, h k1 j]
      by_cases hlt : j < d.m_vObjects.length
      · rw [List.getElem?_append_left hlt]
      · by_cases heq : j = d.m_vObjects.length
        · subst heq
          have hk' : ¬ k = k1 := fun hh => hk hh.symm
          simp [hk']
        · rw [List.getElem?_eq_none (by omega), List.getElem?_eq_none (by simp; omega)]
  text := fun _ _ => trivial

theorem NodeInv_NoHashLocal : NodeInv NoHashLocal (fun c => c ≠ '#') where
  congr := by
    intro a b hab ha
    simp only [shallow, Prod.mk.injEq] at hab
    refine ⟨fun v hv => ha.1 v (hab.1 ▸ hv), ?_⟩
    intro e he
    have hmem : e.1 ∈ b.m_vObjects.map Prod.fst := List.mem_map_of_mem _ he
    rw [← hab.2.1] at hmem
    obtain ⟨e0, he0, hfst⟩ := List.mem_map.mp hmem
    rw [← hfst]
    exact ha.2 e0 he0
  atEmpty := by
    refine ⟨?_, ?_⟩ <;> intro x hx <;> simp [empty] at hx
  set := by
    intro d v i hv h
    refine ⟨?_, h.2⟩
    intro x hx
    simp only [storeValue] at hx
    rcases List.mem_or_eq_of_mem_set hx with hx | hx
    · split at hx
      · rcases List.mem_append.mp hx with hx | hx
        · exact h.1 x hx
        · rw [List.eq_of_mem_replicate hx]
          simp
      · exact h.1 x hx
    · subst hx
      exact fun hh => hv '#' hh rfl
  add := by
    intro d k hk h _
    refine ⟨h.1, ?_⟩
    intro e he
    simp only at he
    rcases List.mem_append.mp he with he | he
    · exact h.2 e he
    · simp only [List.mem_singleton] at he
      subst he
      exact fun hh => hk '#' hh rfl
  text := fun _ h => h

theorem Built_sync (t : DataFile) (h : Built t) : AllNodes SyncLocal t := by
  induction h with
  | default => exact AllNodes_empty NodeInv_SyncLocal
  | subscript t t1 p sKey i _ hup ih =>
    exact AllNodes_updateAt NodeInv_SyncLocal t p _ t1 i ih hup
      (fun d d1 b hd hop =>
        AllNodes_operatorSubscript NodeInv_SyncLocal d sKey d1 b (fun _ _ => trivial) hd hop)
  | setString t t1 p v i _ hup ih =>
    exact AllNodes_updateAt NodeInv_SyncLocal t p _ t1 () ih hup
      (fun d d1 b hd hfd => by
        simp only [Option.some.injEq, Prod.mk.injEq] at hfd
        rw [← hfd.1]
        exact AllNodes_storeValue NodeInv_SyncLocal d v i (fun _ _ => trivial) hd)
  | read t t1 p file b _ hup ih =>
    exact AllNodes_updateAt NodeInv_SyncLocal t p _ t1 b ih hup
      (fun d d1 b1 hd hfd => by
        cases hr : Read d file with
        | none => simp [hr] at hfd
        | some r =>
          simp only [hr, Option.some.injEq, Prod.mk.injEq] at hfd
          exact inv_Read NodeInv_SyncLocal d d1 file r.1 hd (by rw [hr, ← hfd.1]))

theorem SyncLocal_facts (n : DataFile) (h : SyncLocal n) :
    (∀ (k : Str) (i : Nat), n.m_mapObjects.lookup k = some i → i < n.m_vObjects.length) ∧
    (n.m_vObjects.map Prod.fst).Nodup ∧
    (∀ name : Str, n.HasProperty name = true ↔ ∃ e ∈ n.m_vObjects, e.1 = name) := by
  refine ⟨?_, ?_, ?_⟩
  · intro k i hk
    have := (h k i).mp hk
    by_contra hlt
    rw [List.getElem?_eq_none (by omega)] at this
    simp at this
  · rw [List.nodup_iff_getElem?_ne_getElem?]
    intro i j hij hj heq
    rw [List.length_map] at hj
    have hjj : (n.m_vObjects.map Prod.fst)[j]? = some (n.m_vObjects[j]).1 := by
      rw [List.getElem?_map, List.getElem?_eq_getElem hj]; rfl
    have h1 := (h (n.m_vObjects[j]).1 j).mpr (by rw [← List.getElem?_map]; exact hjj)
    have h2 := (h (n.m_vObjects[j]).1 i).mpr (by rw [← List.getElem?_map, heq]; exact hjj)
    rw [h1] at h2
    simp only [Option.some.injEq] at h2
    omega
  · intro name
    simp only [HasProperty, mapCount, decide_eq_true_eq]
    constructor
    · intro hc
      cases hl : n.m_mapObjects.lookup name with
      | none => simp [hl] at hc
      | some i =>
        have := (h name i).mp hl
        cases he : n.m_vObjects[i]? with
        | none => simp [he] at this
        | some e =>
          simp only [he, Option.map_some', Option.some.injEq] at this
          exact ⟨e, List.getElem?_mem he, this⟩
    · rintro ⟨e, he, hname⟩
      obtain ⟨i, hi, hget⟩ := List.getElem_of_mem he
      have : n.m_mapObjects.lookup name = some i :=
        (h name i).mpr (by rw [List.getElem?_eq_getElem hi, hget]; simp [hname])
      simp [this]

/-- Claim C12 (name-index invariant). In every tree built from a
default-constructed node by calls of `operator[]`, of the scalar setters and of
`Read` on its nodes, every node has its name index and its children in sync: the
index maps `k` to `i` if and only if the child at position `i` is named `k`,
every position in the index is in range, and the names of the children are
pairwise distinct; consequently `HasProperty(name)` is true if and only if some
child has exactly that name. -/
theorem name_index_invariant (t : DataFile) (hbuilt : Built t) (q : List Nat)
    (n : DataFile) (hq : t.nodeAt q = some n) :
    (∀ (k : Str) (i : Nat),
      n.m_mapObjects.lookup k = some i ↔ (n.m_vObjects[i]?).map Prod.fst = some k) ∧
    (∀ (k : Str) (i : Nat), n.m_mapObjects.lookup k = some i → i < n.m_vObjects.length) ∧
    (n.m_vObjects.map Prod.fst).Nodup ∧
    (∀ name : Str, n.HasProperty name = true ↔ ∃ e ∈ n.m_vObjects, e.1 = name) :=
  ⟨Built_sync t hbuilt q n hq, SyncLocal_facts n (Built_sync t hbuilt q n hq)⟩

/-- Claim C12 at the tree built by `df["a"]["b"].SetString("1")` followed by
decoding the file `a`, `{`, `c = 2;`, `}` into it, at its node `a`. -/
theorem name_index_invariant_witness :
    (∀ (k : Str) (i : Nat),
      List.lookup k [("b".toList, 0), ("c".toList, 1)] = some i ↔
        (([("b".toList, (⟨["1".toList], [], []⟩ : DataFile)),
           ("c".toList, ⟨["2".toList], [], []⟩)])[i]?).map Prod.fst = some k) ∧
    (∀ name : Str,
      (⟨[], [("b".toList, ⟨["1".toList], [], []⟩), ("c".toList, ⟨["2".toList], [], []⟩)],
        [("b".toList, 0), ("c".toList, 1)]⟩ : DataFile).HasProperty name = true ↔
      ∃ e ∈ [("b".toList, (⟨["1".toList], [], []⟩ : DataFile)),
             ("c".toList, ⟨["2".toList], [], []⟩)], e.1 = name) := by
  have h := name_index_invariant
    ⟨[], [("a".toList, ⟨[], [("b".toList, ⟨["1".toList], [], []⟩),
      ("c".toList, ⟨["2".toList], [], []⟩)], [("b".toList, 0), ("c".toList, 1)]⟩)],
      [("a".toList, 0)]⟩
    (Built.read _ _ [] (some "a\n\x7b\nc = 2;\n\x7d".toList) true
      (Built.setString _ _ [0, 0] "1".toList 0
        (Built.subscript _ _ [0] "b".toList 0
          (Built.subscript empty _ [] "a".toList 0 Built.default rfl) rfl) rfl) rfl)
    [0] _ rfl
  exact ⟨h.1, h.2.2.2⟩

/-- Claim C15 (`'#'` is never data). For every text on which decoding into an
empty tree is defined, no child name and no stored value of any node of the
resulting tree contains `'#'`; the file `name = "a#b";` stores the value `a`. -/
theorem hash_never_data (text : Str) (b : Bool) (t : DataFile)
    (hread : Read empty (some text) = some (b, t))
    (q : List Nat) (n : DataFile) (hq : t.nodeAt q = some n) :
    (∀ v ∈ n.m_vValues, '#' ∉ v) ∧ (∀ e ∈ n.m_vObjects, '#' ∉ e.1) ∧
    Read empty (some "name = \"a#b\";".toList) =
      some (true, ⟨[], [("name".toList, ⟨["a".toList], [], []⟩)], [("name".toList, 0)]⟩) := by
  have h := inv_Read NodeInv_NoHashLocal empty t (some text) b
    (AllNodes_empty NodeInv_NoHashLocal) hread q n hq
  exact ⟨h.1, h.2, rfl⟩

/-- Claim C15 at the file `s # x`, `{`, `k = "a#b";` and the node `s ` of the
decoded tree. -/
theorem hash_never_data_witness :
    (∀ v ∈ (⟨[], [("k".toList, ⟨["a".toList], [], []⟩)], [("k".toList, 0)]⟩ :
      DataFile).m_vValues, '#' ∉ v) ∧
    (∀ e ∈ (⟨[], [("k".toList, ⟨["a".toList], [], []⟩)], [("k".toList, 0)]⟩ :
      DataFile).m_vObjects, '#' ∉ e.1) :=
  have h := hash_never_data "s # x\n\x7b\nk = \"a#b\";".toList true
    ⟨[], [("s ".toList, ⟨[], [("k".toList, ⟨["a".toList], [], []⟩)], [("k".toList, 0)]⟩)],
      [("s ".toList, 0)]⟩ rfl [0]
    ⟨[], [("k".toList, ⟨["a".toList], [], []⟩)], [("k".toList, 0)]⟩ rfl
  ⟨h.1, h.2.1⟩


/-! ## The depth of the stack -/

theorem stack_ProcessLine (st st1 : ReadState) (sLine : Str)
    (h : ReadLine st sLine = some st1) :
    st1.stack.length + (if isCloseLine sLine = true then 1 else 0) =
      st.stack.length + (if isOpenLine sLine = true then 1 else 0) := by
  rw [ReadLine_eq_ProcessLine] at h
  unfold ProcessLine at h
  unfold isCloseLine isOpenLine
  by_cases he : (lineCore sLine).isEmpty = true
  · simp only [he, if_true, Option.some.injEq] at h
    subst h
    simp [he]
  · simp only [he, if_false, Bool.false_eq_true] at h
    by_cases hi : List.indexOf '=' (lineCore sLine) = (lineCore sLine).length
    · simp only [hi, if_true] at h
      by_cases hopen : (lineCore sLine).head? = some '{'
      · simp only [hopen, if_true] at h
        cases hts : topSubscript st.dataFile st.stack st.sFieldName with
        | none => simp [hts] at h
        | some r =>
          obtain ⟨r1, ref⟩ := r
          simp only [hts, Option.some.injEq] at h
          subst h
          simp [he, hi, hopen]
      · simp only [hopen, if_false] at h
        by_cases hclose : (lineCore sLine).getLast? = some '}'
        · simp only [hclose, if_true] at h
          cases hstk : st.stack with
          | nil => simp [hstk] at h
          | cons top below =>
            simp only [hstk, Option.some.injEq] at h
            subst h
            simp [he, hi, hopen, hclose]
        · simp only [hclose, if_false, Option.some.injEq] at h
          subst h
          simp [he, hi, hopen, hclose]
    · simp only [hi, if_false] at h
      cases htk : tokenize st.stack (Trim ((lineCore sLine).take (List.indexOf '=' (lineCore sLine))))
          (Trim ((lineCore sLine).drop (List.indexOf '=' (lineCore sLine) + 1))) false [[]]
          st.dataFile with
      | none => simp [htk] at h
      | some r =>
        obtain ⟨toks1, r1⟩ := r
        simp only [htk] at h
        cases hcm : commitTokens st.stack
            (Trim ((lineCore sLine).take (List.indexOf '=' (lineCore sLine)))) toks1 0 r1 with
        | none => simp [hcm] at h
        | some r2 =>
          simp only [hcm, Option.some.injEq] at h
          subst h
          simp [he, hi]

theorem stack_ReadLines (lines : List Str) :
    ∀ (st st1 : ReadState), ReadLines st lines = some st1 →
      st1.stack.length + lines.countP isCloseLine =
        st.stack.length + lines.countP isOpenLine := by
  induction lines with
  | nil =>
    intro st st1 h
    simp only [ReadLines, Option.some.injEq] at h
    subst h
    simp
  | cons l ls ih =>
    intro st st1 h
    obtain ⟨st0, h0, h1⟩ := ReadLines_cons_some st st1 l ls h
    have e0 := stack_ProcessLine st st0 l h0
    have e1 := ih st0 st1 h1
    rw [List.countP_cons, List.countP_cons]
    omega

/-! ## When decoding is defined -/

theorem Grows_refl (root : DataFile) : Grows root root := fun _ h => h

theorem Grows_trans (a b c : DataFile) (h1 : Grows a b) (h2 : Grows b c) : Grows a c :=
  fun q h => h2 q (h1 q h)

theorem Grows_replaceAt (root : DataFile) (p : List Nat) (cur new : DataFile)
    (hp : root.nodeAt p = some cur) (hnew : Grows cur new) :
    Grows root (root.replaceAt p new) := by
  intro q hq
  by_cases hpq : p <+: q
  · obtain ⟨r, rfl⟩ := hpq
    rw [nodeAt_replaceAt_append root p r cur new hp]
    apply hnew r
    rw [nodeAt_append, hp] at hq
    exact hq
  · have hs := shallow_replaceAt_of_not_prefix root p q cur new hp hpq
    cases h1 : (root.replaceAt p new).nodeAt q with
    | none =>
      rw [h1] at hs
      cases h0 : root.nodeAt q with
      | none => simp [h0] at hq
      | some n0 => simp [h0] at hs
    | some n1 => rfl

theorem Grows_storeValue (d : DataFile) (v : Str) (i : Nat) : Grows d (d.storeValue v i) := by
  intro q hq
  cases q with
  | nil => rfl
  | cons j r => exact hq

theorem Grows_add (d : DataFile) (k : Str) (m : List (Str × Nat)) (c : DataFile) :
    Grows d { d with m_mapObjects := m, m_vObjects := d.m_vObjects ++ [(k, c)] } := by
  intro q hq
  cases q with
  | nil => rfl
  | cons j r =>
    simp only [nodeAt] at hq ⊢
    cases hj : d.m_vObjects[j]? with
    | none => simp [hj] at hq
    | some obj =>
      have hlt : j < d.m_vObjects.length := (List.getElem?_eq_some_iff.mp hj).1
      rw [List.getElem?_append_left hlt, hj]
      simpa [hj] using hq

theorem topSubscript_defined (root : DataFile) (top : List Nat) (rest : List (List Nat))
    (k : Str) (hsync : AllNodes SyncLocal root) (hvalid : ValidStack root (top :: rest)) :
    ∃ root1 i cur1, topSubscript root (top :: rest) k = some (root1, top ++ [i]) ∧
      Grows root root1 ∧ root1.nodeAt top = some cur1 ∧
      (cur1.m_vObjects[i]?).map Prod.fst = some k := by
  have htop := hvalid top (by simp)
  cases hcur : root.nodeAt top with
  | none => simp [hcur] at htop
  | some cur =>
    have hs : SyncLocal cur := hsync top cur hcur
    cases hk : cur.m_mapObjects.lookup k with
    | none =>
      refine ⟨_, _, _, topSubscript_absent root top rest k cur hcur hk,
        Grows_replaceAt root top cur _ hcur (Grows_add cur k _ empty),
        nodeAt_replaceAt root top cur _ hcur, ?_⟩
      simp
    | some i =>
      have hi : i < cur.m_vObjects.length := (SyncLocal_facts cur hs).1 k i hk
      exact ⟨root, i, cur, topSubscript_present root top rest k cur i hcur hk hi,
        Grows_refl root, hcur, (hs k i).mp hk⟩

theorem ValidStack_of_Grows (root root1 : DataFile) (stk : List (List Nat))
    (h : Grows root root1) (hv : ValidStack root stk) : ValidStack root1 stk :=
  fun p hp => h p (hv p hp)

theorem commitTokens_defined (top : List Nat) (rest : List (List Nat)) (k : Str)
    (toks : List Str) :
    ∀ (idx : Nat) (root : DataFile), AllNodes SyncLocal root →
      ValidStack root (top :: rest) →
      ∃ root1, commitTokens (top :: rest) k toks idx root = some root1 ∧ Grows root root1 := by
  induction toks with
  | nil =>
    intro idx root _ _
    exact ⟨root, rfl, Grows_refl root⟩
  | cons t ts ih =>
    intro idx root hsync hvalid
    obtain ⟨r1, i, cur1, hts, hg1, hcur1, hname⟩ :=
      topSubscript_defined root top rest k hsync hvalid
    have hsync1 := AllNodes_topSubscript NodeInv_SyncLocal root (top :: rest) k r1 _
      (fun _ _ => trivial) hsync hts
    cases hch : cur1.m_vObjects[i]? with
    | none => simp [hch] at hname
    | some obj =>
      have href : r1.nodeAt (top ++ [i]) = some obj.2 :=
        nodeAt_snoc r1 top i cur1 obj.1 obj.2 hcur1 hch
      have hup := updateAt_eq r1 (top ++ [i])
        (fun d => some (d.storeValue (Trim t) idx, ())) obj.2 _ () href rfl
      have hsync2 : AllNodes SyncLocal (r1.replaceAt (top ++ [i]) (obj.2.storeValue (Trim t) idx)) :=
        AllNodes_replaceAt NodeInv_SyncLocal r1 _ obj.2 _ href hsync1
          (AllNodes_storeValue NodeInv_SyncLocal obj.2 _ idx (fun _ _ => trivial)
            (AllNodes_sub SyncLocal r1 _ obj.2 hsync1 href))
      have hg2 : Grows r1 (r1.replaceAt (top ++ [i]) (obj.2.storeValue (Trim t) idx)) :=
        Grows_replaceAt r1 _ obj.2 _ href (Grows_storeValue obj.2 _ idx)
      obtain ⟨r3, hc3, hg3⟩ := ih (idx + 1) _ hsync2
        (ValidStack_of_Grows root _ _ (Grows_trans _ _ _ hg1 hg2) hvalid)
      refine ⟨r3, ?_, Grows_trans _ _ _ (Grows_trans _ _ _ hg1 hg2) hg3⟩
      simp only [commitTokens, hts, hup]
      exact hc3

theorem ReadLine_defined (st : ReadState) (sLine : Str)
    (hsync : AllNodes SyncLocal st.dataFile) (hvalid : ValidStack st.dataFile st.stack)
    (hstack : st.stack ≠ []) (hsafe : tokenSafeLine sLine = true) :
    ∃ st1, ReadLine st sLine = some st1 ∧ AllNodes SyncLocal st1.dataFile ∧
      ValidStack st1.dataFile st1.stack := by
  obtain ⟨top, rest, hstk⟩ : ∃ top rest, st.stack = top :: rest := by
    cases h : st.stack with
    | nil => exact absurd h hstack
    | cons a b => exact ⟨a, b, rfl⟩
  have key : ∃ st1, ReadLine st sLine = some st1 ∧ ValidStack st1.dataFile st1.stack := by
    rw [ReadLine_eq_ProcessLine]
    by_cases hassign : '=' ∈ lineCore sLine
    · have hs : safeExpr (Trim ((lineCore sLine).drop ((lineCore sLine).indexOf '=' + 1)))
          false = true := by
        simpa [tokenSafeLine, hassign, valueExprOf] using hsafe
      rw [ProcessLine_assign_safe st (lineCore sLine) hassign hs, hstk]
      obtain ⟨r1, hc, hg⟩ := commitTokens_defined top rest
        (Trim ((lineCore sLine).take ((lineCore sLine).indexOf '=')))
        (scanTokens (Trim ((lineCore sLine).drop ((lineCore sLine).indexOf '=' + 1)))
          false [[]]) 0 st.dataFile hsync (hstk ▸ hvalid)
      rw [hc]
      exact ⟨_, rfl, ValidStack_of_Grows _ _ _ hg (hstk ▸ hvalid)⟩
    · have hi : List.indexOf '=' (lineCore sLine) = (lineCore sLine).length :=
        List.indexOf_eq_length.mpr hassign
      unfold ProcessLine
      by_cases he : (lineCore sLine).isEmpty = true
      · simp only [he, if_true]
        exact ⟨st, rfl, hvalid⟩
      · simp only [he, if_false, Bool.false_eq_true, hi, if_true]
        by_cases hopen : (lineCore sLine).head? = some '{'
        · simp only [hopen, if_true]
          obtain ⟨r1, i, cur1, hts, hg, hcur1, hname⟩ :=
            topSubscript_defined st.dataFile top rest st.sFieldName hsync (hstk ▸ hvalid)
          rw [hstk, hts]
          refine ⟨_, rfl, ?_⟩
          intro p hp
          simp only [List.mem_cons] at hp
          rcases hp with hp | hp
          · subst hp
            cases hch : cur1.m_vObjects[i]? with
            | none => simp [hch] at hname
            | some obj =>
              simp only
              rw [nodeAt_snoc r1 top i cur1 obj.1 obj.2 hcur1 hch]
              rfl
          · exact hg p (hvalid p (by rw [hstk]; simpa using hp))
        · simp only [hopen, if_false]
          by_cases hclose : (lineCore sLine).getLast? = some '}'
          · simp only [hclose, if_true, hstk]
            refine ⟨_, rfl, ?_⟩
            intro p hp
            exact hvalid p (by rw [hstk]; simp [hp])
          · simp only [hclose, if_false]
            exact ⟨_, rfl, hvalid⟩
  obtain ⟨st1, h1, hv1⟩ := key
  exact ⟨st1, h1, (inv_ReadLine NodeInv_SyncLocal st st1 sLine hsync (fun _ _ => trivial) h1).1,
    hv1⟩

theorem ReadLines_defined (lines : List Str) :
    ∀ (st : ReadState), AllNodes SyncLocal st.dataFile → ValidStack st.dataFile st.stack →
      (∀ l ∈ lines, tokenSafeLine l = true) →
      (∀ pre, pre <+: lines → pre.countP isCloseLine < st.stack.length + pre.countP isOpenLine) →
      ∃ st1, ReadLines st lines = some st1 := by
  induction lines with
  | nil => intro st _ _ _ _; exact ⟨st, rfl⟩
  | cons l ls ih =>
    intro st hsync hvalid hsafe hbal
    have hne : st.stack ≠ [] := by
      have := hbal [] List.nil_prefix
      intro h
      simp [h] at this
    obtain ⟨st0, h0, hsync0, hvalid0⟩ :=
      ReadLine_defined st l hsync hvalid hne (hsafe l (by simp))
    have e0 := stack_ProcessLine st st0 l h0
    obtain ⟨st1, h1⟩ := ih st0 hsync0 hvalid0 (fun x hx => hsafe x (by simp [hx]))
      (by
        intro pre hpre
        have := hbal (l :: pre) ((List.cons_prefix_cons).mpr ⟨rfl, hpre⟩)
        rw [List.countP_cons, List.countP_cons] at this
        omega)
    exact ⟨st1, by rw [ReadLines_cons, h0]; exact h1⟩

/-- Claim C18 (stack safety under balanced braces). Let the lines of the text be
such that in every prefix of them the closing lines are at most as many as the
opening lines. Then whenever decoding has run through a prefix of the lines, the
stack is not empty (so the `top()` and `pop()` of the next line find a frame) and
its size is 1 + (opening lines so far) - (closing lines so far). Moreover, when
the tree that is decoded into has its name indexes in sync and no assignment line
has a character after its first `';'` outside quotes, decoding runs through every
prefix of the lines and `Read` returns true. -/
theorem stack_safety (t : DataFile) (text : Str)
    (hbal : ∀ pre, pre <+: getlines text →
      pre.countP isCloseLine ≤ pre.countP isOpenLine) :
    (∀ pre st, pre <+: getlines text → ReadLines ⟨t, [[]], [], []⟩ pre = some st →
      st.stack ≠ [] ∧
      st.stack.length = 1 + pre.countP isOpenLine - pre.countP isCloseLine) ∧
    (AllNodes SyncLocal t → (∀ l ∈ getlines text, tokenSafeLine l = true) →
      (∀ pre, pre <+: getlines text → ∃ st, ReadLines ⟨t, [[]], [], []⟩ pre = some st) ∧
      ∃ t1, Read t (some text) = some (true, t1)) := by
  refine ⟨?_, ?_⟩
  · intro pre st hpre hrun
    have e := stack_ReadLines pre ⟨t, [[]], [], []⟩ st hrun
    have hb := hbal pre hpre
    simp only [List.length_singleton] at e
    have hlen : st.stack.length = 1 + pre.countP isOpenLine - pre.countP isCloseLine := by
      omega
    refine ⟨?_, hlen⟩
    intro h
    rw [h] at hlen
    simp only [List.length_nil] at hlen
    omega
  · intro hsync hsafe
    have hdef : ∀ pre, pre <+: getlines text →
        ∃ st, ReadLines ⟨t, [[]], [], []⟩ pre = some st := by
      intro pre hpre
      apply ReadLines_defined pre ⟨t, [[]], [], []⟩ hsync
      · intro p hp
        simp only [List.mem_singleton] at hp
        subst hp
        rfl
      · exact fun l hl => hsafe l (hpre.subset hl)
      · intro pre1 hpre1
        have := hbal pre1 (hpre1.trans hpre)
        simp only [List.length_singleton]
        omega
    refine ⟨hdef, ?_⟩
    obtain ⟨st, hst⟩ := hdef (getlines text) (List.prefix_refl _)
    exact ⟨st.dataFile, by simp only [Read, hst]⟩

/-- Claim C18 at the file `a`, `{`, `x = 1;`, `}` decoded into an empty tree, after
its first three lines: the stack holds the frame of `a` and the root. -/
theorem stack_safety_witness :
    (⟨⟨[], [("a".toList, ⟨[], [("x".toList, ⟨["1".toList], [], []⟩)], [("x".toList, 0)]⟩)],
        [("a".toList, 0)]⟩, [[0], []], "x".toList, "1;".toList⟩ : ReadState).stack ≠ [] ∧
    (⟨⟨[], [("a".toList, ⟨[], [("x".toList, ⟨["1".toList], [], []⟩)], [("x".toList, 0)]⟩)],
        [("a".toList, 0)]⟩, [[0], []], "x".toList, "1;".toList⟩ : ReadState).stack.length =
      1 + (["a".toList, "\x7b".toList, "x = 1;".toList]).countP isOpenLine -
        (["a".toList, "\x7b".toList, "x = 1;".toList]).countP isCloseLine :=
  (stack_safety empty "a\n\x7b\nx = 1;\n\x7d".toList
    (fun pre hpre =>
      (by decide : ∀ pre ∈ (getlines "a\n\x7b\nx = 1;\n\x7d".toList).inits,
        pre.countP isCloseLine ≤ pre.countP isOpenLine) pre
        ((List.mem_inits _ _).mpr hpre))).1
    ["a".toList, "\x7b".toList, "x = 1;".toList]
    ⟨⟨[], [("a".toList, ⟨[], [("x".toList, ⟨["1".toList], [], []⟩)], [("x".toList, 0)]⟩)],
        [("a".toList, 0)]⟩, [[0], []], "x".toList, "1;".toList⟩
    ⟨["\x7d".toList], by decide⟩ rfl

/-! ## The name a `{` line opens -/

theorem name_ReadLine (st st1 : ReadState) (sLine : Str)
    (h : ReadLine st sLine = some st1) :
    st1.sFieldName = nameAfterLine st.sFieldName sLine := by
  rw [ReadLine_eq_ProcessLine] at h
  unfold ProcessLine at h
  unfold nameAfterLine isBareNameLine
  by_cases he : (lineCore sLine).isEmpty = true
  · simp only [he, if_true, Option.some.injEq] at h
    subst h
    have : lineCore sLine = [] := List.isEmpty_iff.mp he
    simp [this]
  · simp only [he, if_false, Bool.false_eq_true] at h
    by_cases hi : List.indexOf '=' (lineCore sLine) = (lineCore sLine).length
    · have hnot : '=' ∉ lineCore sLine := List.indexOf_eq_length.mp hi
      simp only [hi, if_true] at h
      by_cases hopen : (lineCore sLine).head? = some '{'
      · simp only [hopen, if_true] at h
        cases hts : topSubscript st.dataFile st.stack st.sFieldName with
        | none => simp [hts] at h
        | some r =>
          obtain ⟨r1, ref⟩ := r
          simp only [hts, Option.some.injEq] at h
          subst h
          simp [hopen, hnot]
      · simp only [hopen, if_false] at h
        by_cases hclose : (lineCore sLine).getLast? = some '}'
        · simp only [hclose, if_true] at h
          cases hstk : st.stack with
          | nil => simp [hstk] at h
          | cons top below =>
            simp only [hstk, Option.some.injEq] at h
            subst h
            simp [hclose, hnot]
        · simp only [hclose, if_false, Option.some.injEq] at h
          subst h
          simp [he, hi, hopen, hclose]
    · have hin : '=' ∈ lineCore sLine := by
        by_contra hh
        exact hi (List.indexOf_eq_length.mpr hh)
      simp only [hi, if_false] at h
      cases htk : tokenize st.stack (Trim ((lineCore sLine).take (List.indexOf '=' (lineCore sLine))))
          (Trim ((lineCore sLine).drop (List.indexOf '=' (lineCore sLine) + 1))) false [[]]
          st.dataFile with
      | none => simp [htk] at h
      | some r =>
        obtain ⟨toks1, r1⟩ := r
        simp only [htk] at h
        cases hcm : commitTokens st.stack
            (Trim ((lineCore sLine).take (List.indexOf '=' (lineCore sLine)))) toks1 0 r1 with
        | none => simp [hcm] at h
        | some r2 =>
          simp only [hcm, Option.some.injEq] at h
          subst h
          simp [hi, hin, fieldNameOf]

theorem name_ReadLines (lines : List Str) :
    ∀ (st st1 : ReadState), ReadLines st lines = some st1 →
      st1.sFieldName = lines.foldl nameAfterLine st.sFieldName := by
  induction lines with
  | nil =>
    intro st st1 h
    simp only [ReadLines, Option.some.injEq] at h
    subst h
    rfl
  | cons l ls ih =>
    intro st st1 h
    obtain ⟨st0, h0, h1⟩ := ReadLines_cons_some st st1 l ls h
    rw [List.foldl_cons, ← name_ReadLine st st0 l h0]
    exact ih st0 st1 h1

theorem topSubscript_some_named (root : DataFile) (stk : List (List Nat)) (k : Str)
    (root1 : DataFile) (ref : List Nat) (hsync : AllNodes SyncLocal root)
    (h : topSubscript root stk k = some (root1, ref)) :
    ∃ top rest i cur, stk = top :: rest ∧ ref = top ++ [i] ∧
      root1.nodeAt top = some cur ∧ (cur.m_vObjects[i]?).map Prod.fst = some k := by
  cases stk with
  | nil => simp [topSubscript] at h
  | cons top rest =>
    simp only [topSubscript, List.head?_cons] at h
    cases hu : root.updateAt top (fun d => d.operatorSubscript k) with
    | none => simp [hu] at h
    | some r =>
      obtain ⟨r1, i⟩ := r
      simp only [hu, Option.some.injEq, Prod.mk.injEq] at h
      obtain ⟨cur, cur1, hp, hop, he⟩ := updateAt_some root top _ r1 i hu
      refine ⟨top, rest, i, cur1, rfl, h.2.symm, ?_, ?_⟩
      · rw [← h.1, he]
        exact nodeAt_replaceAt root top cur cur1 hp
      · rcases operatorSubscript_some cur k cur1 i hop with ⟨_, hi, rfl⟩ | ⟨hk, _, rfl⟩
        · subst hi
          simp
        · exact (hsync top cur1 hp k i).mp hk

theorem foldl_nameAfterLine_neutral (mid : List Str) (fn : Str)
    (h : ∀ m ∈ mid, '=' ∉ lineCore m ∧ isBareNameLine m = false) :
    mid.foldl nameAfterLine fn = fn := by
  induction mid generalizing fn with
  | nil => rfl
  | cons m ms ih =>
    obtain ⟨h1, h2⟩ := h m (by simp)
    rw [List.foldl_cons, show nameAfterLine fn m = fn by simp [nameAfterLine, h1, h2]]
    exact ih fn (fun x hx => h x (by simp [hx]))

/-- Claim C13 fails as stated. In the file `sec`, `x = 1;`, `{` the most recently
seen bare-name line is `sec`, but the assignment line has overwritten
`sFieldName`: the frame the `{` line pushes is the child at position 0 of the
root, which is the child named `x`, and the root has no child named `sec`. -/
theorem open_line_after_assignment :
    isOpenLine "\x7b".toList = true ∧
    lastBareName ["sec".toList, "x = 1;".toList] = "sec".toList ∧
    ReadLines ⟨empty, [[]], [], []⟩ ["sec".toList, "x = 1;".toList] =
      some ⟨⟨[], [("x".toList, ⟨["1".toList], [], []⟩)], [("x".toList, 0)]⟩,
        [[]], "x".toList, "1;".toList⟩ ∧
    ReadLine ⟨⟨[], [("x".toList, ⟨["1".toList], [], []⟩)], [("x".toList, 0)]⟩,
        [[]], "x".toList, "1;".toList⟩ "\x7b".toList =
      some ⟨⟨[], [("x".toList, ⟨["1".toList], [], []⟩)], [("x".toList, 0)]⟩,
        [[0], []], "x".toList, "1;".toList⟩ ∧
    (([("x".toList, (⟨["1".toList], [], []⟩ : DataFile))])[0]?).map Prod.fst =
      some "x".toList :=
  ⟨by decide, by decide, rfl, rfl, rfl⟩

/-- Claim C13 as amended (section naming on `{`). Decode the lines `pre` into a
tree whose name indexes are in sync and then an opening line (no `'='`, starting
with `'{'`): the frame it pushes is the child of the current stack top named by
`sFieldName`, the name stored by the most recent line of `pre` that is a
bare-name line (the whole trimmed and truncated line) or an assignment line (the
trimmed text before its first `'='`), the empty name when there is none. When the
lines after the last bare-name line are neither assignment lines nor bare-name
lines, it is the child named by that bare-name line. -/
theorem open_line_pushes_pending_child (t : DataFile) (hsync : AllNodes SyncLocal t)
    (pre : List Str) (l : Str) (st st1 : ReadState)
    (hrun : ReadLines ⟨t, [[]], [], []⟩ pre = some st)
    (hopen : isOpenLine l = true)
    (hstep : ReadLine st l = some st1) :
    (∃ top rest i cur, st.stack = top :: rest ∧ st1.stack = (top ++ [i]) :: top :: rest ∧
      st1.dataFile.nodeAt top = some cur ∧
      (cur.m_vObjects[i]?).map Prod.fst = some (pendingName pre)) ∧
    (∀ pre0 b mid, pre = pre0 ++ b :: mid → isBareNameLine b = true →
      (∀ m ∈ mid, '=' ∉ lineCore m ∧ isBareNameLine m = false) →
      pendingName pre = lineCore b ∧ lastBareName pre = lineCore b) := by
  have hname : st.sFieldName = pendingName pre :=
    name_ReadLines pre ⟨t, [[]], [], []⟩ st hrun
  have hsync1 : AllNodes SyncLocal st.dataFile :=
    (inv_ReadLines NodeInv_SyncLocal pre ⟨t, [[]], [], []⟩ st hsync (fun _ _ => trivial) hrun).1
  refine ⟨?_, ?_⟩
  · simp only [isOpenLine, Bool.and_eq_true, Bool.not_eq_true', decide_eq_true_eq] at hopen
    obtain ⟨⟨he, hi⟩, hhead⟩ := hopen
    rw [ReadLine_eq_ProcessLine] at hstep
    unfold ProcessLine at hstep
    simp only [he, if_false, Bool.false_eq_true, hi, if_true, hhead] at hstep
    cases hts : topSubscript st.dataFile st.stack st.sFieldName with
    | none => simp [hts] at hstep
    | some r =>
      obtain ⟨r1, ref⟩ := r
      simp only [hts, Option.some.injEq] at hstep
      obtain ⟨top, rest, i, cur, hstk, href, hcur, hnm⟩ :=
        topSubscript_some_named st.dataFile st.stack st.sFieldName r1 ref hsync1 hts
      subst hstep
      exact ⟨top, rest, i, cur, hstk, by simp [href, hstk], hcur, hname ▸ hnm⟩
  · intro pre0 b mid hpre hb hmid
    subst hpre
    constructor
    · unfold pendingName
      rw [List.foldl_append, List.foldl_cons, foldl_nameAfterLine_neutral mid _ hmid]
      simp [nameAfterLine, hb]
    · unfold lastBareName
      rw [List.foldl_append, List.foldl_cons]
      simp only [hb, if_true]
      clear hrun hname
      induction mid with
      | nil => rfl
      | cons m ms ih =>
        rw [List.foldl_cons]
        simp only [(hmid m (by simp)).2, Bool.false_eq_true, if_false]
        exact ih (fun x hx => hmid x (by simp [hx]))

/-- Claim C13 as amended, at the file `sec`, `x = 1;`, `{` decoded into an empty
tree: the frame pushed is the child named `x`. -/
theorem open_line_pushes_pending_child_witness :
    ∃ top rest i cur,
      ([[]] : List (List Nat)) = top :: rest ∧
      ([[0], []] : List (List Nat)) = (top ++ [i]) :: top :: rest ∧
      (⟨[], [("x".toList, ⟨["1".toList], [], []⟩)], [("x".toList, 0)]⟩ : DataFile).nodeAt top =
        some cur ∧
      (cur.m_vObjects[i]?).map Prod.fst = some (pendingName ["sec".toList, "x = 1;".toList]) :=
  (open_line_pushes_pending_child empty (AllNodes_empty NodeInv_SyncLocal)
    ["sec".toList, "x = 1;".toList] "\x7b".toList
    ⟨⟨[], [("x".toList, ⟨["1".toList], [], []⟩)], [("x".toList, 0)]⟩,
      [[]], "x".toList, "1;".toList⟩
    ⟨⟨[], [("x".toList, ⟨["1".toList], [], []⟩)], [("x".toList, 0)]⟩,
      [[0], []], "x".toList, "1;".toList⟩ rfl (by decide) rfl).1


/-! ## Decoding a text a second time -/

theorem nodeAt_replaceAt_fwd (root : DataFile) (p : List Nat) (cur new : DataFile)
    (hp : root.nodeAt p = some cur)
    (hsub : ∀ j r d, cur.nodeAt (j :: r) = some d → new.nodeAt (j :: r) = some d)
    (q : List Nat) (a : DataFile) (hq : root.nodeAt q = some a) :
    ∃ a1, (root.replaceAt p new).nodeAt q = some a1 ∧ (q = p → a1 = new) ∧
      (q ≠ p → shallow a1 = shallow a) := by
  by_cases hpq : p <+: q
  · obtain ⟨r, rfl⟩ := hpq
    rw [nodeAt_replaceAt_append root p r cur new hp]
    rw [nodeAt_append, hp] at hq
    cases r with
    | nil => exact ⟨new, rfl, fun _ => rfl, fun h => absurd (by simp) h⟩
    | cons j r =>
      refine ⟨a, hsub j r a hq, fun h => ?_, fun _ => rfl⟩
      simp at h
  · have hs := shallow_replaceAt_of_not_prefix root p q cur new hp hpq
    rw [hq] at hs
    cases h1 : (root.replaceAt p new).nodeAt q with
    | none => simp [h1] at hs
    | some a1 =>
      simp only [h1, Option.map_some', Option.some.injEq] at hs
      exact ⟨a1, rfl, fun h => absurd (h ▸ List.prefix_refl _) hpq, fun _ => hs⟩

theorem storeValue_length (d : DataFile) (v : Str) (i : Nat) :
    (d.storeValue v i).m_vValues.length = max d.m_vValues.length (i + 1) := by
  simp only [storeValue]
  split
  · simp only [List.length_set, List.length_append, List.length_replicate]
    omega
  · simp only [List.length_set]
    omega

theorem storeValue_getElem?_self (d : DataFile) (v : Str) (i : Nat) :
    (d.storeValue v i).m_vValues[i]? = some v :=
  GetString_storeValue d v i

theorem storeValue_getElem?_ne (d : DataFile) (v : Str) (i j : Nat) (hne : j ≠ i)
    (hj : j < d.m_vValues.length) :
    (d.storeValue v i).m_vValues[j]? = d.m_vValues[j]? := by
  simp only [storeValue]
  split
  · rw [List.getElem?_set_ne (Ne.symm hne), List.getElem?_append_left hj]
  · rw [List.getElem?_set_ne (Ne.symm hne)]

theorem storeValue_nodeAt (d : DataFile) (v : Str) (i j : Nat) (r : List Nat) (c : DataFile)
    (h : d.nodeAt (j :: r) = some c) : (d.storeValue v i).nodeAt (j :: r) = some c := h

theorem add_nodeAt (d : DataFile) (k : Str) (m : List (Str × Nat)) (e : DataFile)
    (j : Nat) (r : List Nat) (c : DataFile) (h : d.nodeAt (j :: r) = some c) :
    ({ d with m_mapObjects := m, m_vObjects := d.m_vObjects ++ [(k, e)] } : DataFile).nodeAt
      (j :: r) = some c := by
  simp only [nodeAt] at h ⊢
  cases hj : d.m_vObjects[j]? with
  | none => simp [hj] at h
  | some obj =>
    have hlt : j < d.m_vObjects.length := (List.getElem?_eq_some_iff.mp hj).1
    rw [List.getElem?_append_left hlt, hj]
    simpa [hj] using h

theorem ExtLocal_refl (a : DataFile) : ExtLocal a a :=
  ⟨Nat.le_refl _, Nat.le_refl _, List.prefix_refl _⟩

theorem ExtLocal_trans (a b c : DataFile) (h1 : ExtLocal a b) (h2 : ExtLocal b c) :
    ExtLocal a c :=
  ⟨Nat.le_trans h1.1 h2.1, Nat.le_trans h1.2.1 h2.2.1, List.IsPrefix.trans h1.2.2 h2.2.2⟩

theorem ExtLocal_of_shallow (a b : DataFile) (h : shallow b = shallow a) : ExtLocal a b := by
  simp only [shallow, Prod.mk.injEq] at h
  refine ⟨by rw [h.1], ?_, by rw [h.2.2]⟩
  have := congrArg List.length h.2.1
  simp only [List.length_map] at this
  omega

theorem Ext_refl (A : DataFile) : Ext A A := fun _ a h => ⟨a, h, ExtLocal_refl a⟩

theorem Ext_trans (A B C : DataFile) (h1 : Ext A B) (h2 : Ext B C) : Ext A C := by
  intro q a hq
  obtain ⟨b, hb, hab⟩ := h1 q a hq
  obtain ⟨c, hc, hbc⟩ := h2 q b hb
  exact ⟨c, hc, ExtLocal_trans a b c hab hbc⟩

theorem Ext_replaceAt (root : DataFile) (p : List Nat) (cur new : DataFile)
    (hp : root.nodeAt p = some cur)
    (hsub : ∀ j r d, cur.nodeAt (j :: r) = some d → new.nodeAt (j :: r) = some d)
    (hloc : ExtLocal cur new) : Ext root (root.replaceAt p new) := by
  intro q a hq
  obtain ⟨a1, h1, heq, hne⟩ := nodeAt_replaceAt_fwd root p cur new hp hsub q a hq
  refine ⟨a1, h1, ?_⟩
  by_cases hqp : q = p
  · subst hqp
    rw [hp] at hq
    cases hq
    rw [heq rfl]
    exact hloc
  · exact ExtLocal_of_shallow a a1 (hne hqp)

theorem MixLocal_congr (b b1 z : DataFile) (oa oa1 : Option DataFile)
    (h : MixLocal b z oa) (hb : shallow b1 = shallow b)
    (ha : ∀ a, oa = some a → ∃ a1, oa1 = some a1 ∧ a1.m_vValues = a.m_vValues) :
    MixLocal b1 z oa1 := by
  simp only [shallow, Prod.mk.injEq] at hb
  obtain ⟨h1, h2, h3, h4⟩ := h
  refine ⟨by rw [hb.2.1, h1], by rw [hb.2.2, h2], by rw [hb.1, h3], fun j => ?_⟩
  rw [hb.1]
  rcases h4 j with hz | ⟨a0, hoa, hj, hv⟩
  · exact Or.inl hz
  · obtain ⟨a1, hoa1, hvals⟩ := ha a0 hoa
    exact Or.inr ⟨a1, hoa1, by rw [hvals]; exact hj, by rw [hvals]; exact hv⟩

theorem Mix_self (Z T : DataFile) : Mix Z Z T :=
  fun _ z hz => ⟨z, hz, rfl, rfl, rfl, fun _ => Or.inl rfl⟩

theorem Mix_later (B Z A A1 : DataFile)
    (hfwd : ∀ q a, A.nodeAt q = some a →
      ∃ a1, A1.nodeAt q = some a1 ∧ a1.m_vValues = a.m_vValues)
    (h : Mix B Z A) : Mix B Z A1 := by
  intro q z hz
  obtain ⟨b, hb, hm⟩ := h q z hz
  exact ⟨b, hb, MixLocal_congr b b z _ _ hm rfl (fun a ha => hfwd q a ha)⟩

theorem shallow_vals (a b : DataFile) (h : shallow a = shallow b) :
    a.m_vValues = b.m_vValues := by
  simp only [shallow, Prod.mk.injEq] at h
  exact h.1

theorem MixLocal_storeValue (b z cur : DataFile) (v : Str) (i : Nat)
    (h : MixLocal b z (some cur)) (hi : i < z.m_vValues.length) :
    MixLocal (b.storeValue v i) z (some (cur.storeValue v i)) := by
  obtain ⟨h1, h2, h3, h4⟩ := h
  have hlen : (b.storeValue v i).m_vValues.length = z.m_vValues.length := by
    rw [storeValue_length]
    omega
  refine ⟨h1, h2, hlen, fun j => ?_⟩
  by_cases hji : j = i
  · subst hji
    refine Or.inr ⟨_, rfl, ?_, ?_⟩
    · rw [storeValue_length]
      omega
    · rw [storeValue_getElem?_self, storeValue_getElem?_self]
  · by_cases hjb : j < b.m_vValues.length
    · rw [storeValue_getElem?_ne b v i j hji hjb]
      rcases h4 j with hz | ⟨a0, hoa, hj, hv⟩
      · exact Or.inl hz
      · cases hoa
        refine Or.inr ⟨_, rfl, ?_, ?_⟩
        · rw [storeValue_length]
          omega
        · rw [storeValue_getElem?_ne cur v i j hji hj]
          exact hv
    · left
      rw [List.getElem?_eq_none (by omega), List.getElem?_eq_none (by omega)]

theorem updateSub_sim (A : DataFile) (p : List Nat) (k : Str) (A1 : DataFile) (i : Nat)
    (h : A.updateAt p (fun d => d.operatorSubscript k) = some (A1, i)) :
    Ext A A1 ∧ ∀ Z B, Ext A1 Z → Mix B Z A →
      B.updateAt p (fun d => d.operatorSubscript k) = some (B, i) ∧ Mix B Z A1 := by
  obtain ⟨cur, cur1, hp, hop, rfl⟩ := updateAt_some A p _ A1 i h
  have hfacts : cur1.m_mapObjects.lookup k = some i ∧ i < cur1.m_vObjects.length ∧
      cur1.m_vValues = cur.m_vValues ∧ ExtLocal cur cur1 ∧
      (∀ j r d, cur.nodeAt (j :: r) = some d → cur1.nodeAt (j :: r) = some d) := by
    rcases operatorSubscript_some cur k cur1 i hop with ⟨habs, hi, rfl⟩ | ⟨hk, hi, rfl⟩
    · subst hi
      refine ⟨lookup_append_absent _ _ _ habs, by simp, rfl, ⟨Nat.le_refl _, by simp, ?_⟩,
        fun j r d hd => add_nodeAt cur k _ empty j r d hd⟩
      exact List.prefix_append _ _
    · exact ⟨hk, hi, rfl, ExtLocal_refl _, fun _ _ _ hd => hd⟩
  obtain ⟨hlook, hlt, hvals, hloc, hsub⟩ := hfacts
  have hfwd : ∀ q a, A.nodeAt q = some a →
      ∃ a1, (A.replaceAt p cur1).nodeAt q = some a1 ∧ a1.m_vValues = a.m_vValues := by
    intro q a hq
    obtain ⟨a1, h1, heq, hne⟩ := nodeAt_replaceAt_fwd A p cur cur1 hp hsub q a hq
    refine ⟨a1, h1, ?_⟩
    by_cases hqp : q = p
    · subst hqp
      rw [hp] at hq
      cases hq
      rw [heq rfl]
      exact hvals
    · exact shallow_vals a1 a (hne hqp)
  refine ⟨Ext_replaceAt A p cur cur1 hp hsub hloc, fun Z B hext hmix => ?_⟩
  obtain ⟨z, hz, hcz⟩ := hext p cur1 (nodeAt_replaceAt A p cur cur1 hp)
  obtain ⟨b, hb, hbz⟩ := hmix p z hz
  obtain ⟨m, hm⟩ := hcz.2.2
  have hbk : b.m_mapObjects.lookup k = some i := by
    rw [hbz.2.1, ← hm]
    exact lookup_append_of_some _ _ _ _ hlook
  have hbi : i < b.m_vObjects.length := by
    have := congrArg List.length hbz.1
    simp only [List.length_map] at this
    have := hcz.2.1
    omega
  refine ⟨?_, Mix_later B Z A _ hfwd hmix⟩
  rw [updateAt_eq B p _ b b i hb (operatorSubscript_present b k i hbk hbi),
    replaceAt_self B p b hb]

theorem updateSet_sim (A : DataFile) (p : List Nat) (v : Str) (i : Nat) (A1 : DataFile)
    (h : A.updateAt p (fun d => some (d.storeValue v i, ())) = some (A1, ())) :
    Ext A A1 ∧ ∀ Z B, Ext A1 Z → Mix B Z A →
      ∃ B1, B.updateAt p (fun d => some (d.storeValue v i, ())) = some (B1, ()) ∧
        Mix B1 Z A1 := by
  obtain ⟨cur, cur1, hp, hop, rfl⟩ := updateAt_some A p _ A1 () h
  simp only [Option.some.injEq, Prod.mk.injEq, and_true] at hop
  subst hop
  have hloc : ExtLocal cur (cur.storeValue v i) := by
    refine ⟨?_, Nat.le_refl _, List.prefix_refl _⟩
    rw [storeValue_length]
    omega
  refine ⟨Ext_replaceAt A p cur _ hp (fun j r d hd => storeValue_nodeAt cur v i j r d hd) hloc,
    fun Z B hext hmix => ?_⟩
  have hA1p := nodeAt_replaceAt A p cur (cur.storeValue v i) hp
  obtain ⟨z, hz, hcz⟩ := hext p _ hA1p
  obtain ⟨b, hb, hbz⟩ := hmix p z hz
  have hiz : i < z.m_vValues.length := by
    have := hcz.1
    rw [storeValue_length] at this
    omega
  refine ⟨B.replaceAt p (b.storeValue v i), updateAt_eq B p _ b _ () hb rfl, ?_⟩
  intro q z1 hz1
  obtain ⟨b0, hb0, hm0⟩ := hmix q z1 hz1
  obtain ⟨b1, hb1, hbeq, hbne⟩ := nodeAt_replaceAt_fwd B p b (b.storeValue v i) hb
    (fun j r d hd => storeValue_nodeAt b v i j r d hd) q b0 hb0
  refine ⟨b1, hb1, ?_⟩
  by_cases hqp : q = p
  · subst hqp
    rw [hz] at hz1
    cases hz1
    rw [hb] at hb0
    cases hb0
    rw [hbeq rfl, hA1p]
    rw [hp] at hm0
    exact MixLocal_storeValue _ _ cur v i hm0 hiz
  · refine MixLocal_congr b0 b1 z1 _ _ hm0 (hbne hqp) (fun a ha => ?_)
    obtain ⟨a1, ha1, _, hane⟩ := nodeAt_replaceAt_fwd A p cur (cur.storeValue v i) hp
      (fun j r d hd => storeValue_nodeAt cur v i j r d hd) q a ha
    exact ⟨a1, ha1, shallow_vals a1 a (hane hqp)⟩

theorem topSubscript_sim (A : DataFile) (stk : List (List Nat)) (k : Str) (A1 : DataFile)
    (ref : List Nat) (h : topSubscript A stk k = some (A1, ref)) :
    Ext A A1 ∧ ∀ Z B, Ext A1 Z → Mix B Z A →
      topSubscript B stk k = some (B, ref) ∧ Mix B Z A1 := by
  cases stk with
  | nil => simp [topSubscript] at h
  | cons top rest =>
    simp only [topSubscript, List.head?_cons] at h ⊢
    cases hu : A.updateAt top (fun d => d.operatorSubscript k) with
    | none => simp [hu] at h
    | some r =>
      obtain ⟨r1, i⟩ := r
      simp only [hu, Option.some.injEq, Prod.mk.injEq] at h
      obtain ⟨h1, h2⟩ := h
      subst h1
      subst h2
      obtain ⟨hext, hsim⟩ := updateSub_sim A top k r1 i hu
      refine ⟨hext, fun Z B hZ hmix => ?_⟩
      obtain ⟨hB, hmix1⟩ := hsim Z B hZ hmix
      simp only [hB]
      exact ⟨trivial, hmix1⟩

theorem commitTokens_sim (stk : List (List Nat)) (k : Str) (toks : List Str) :
    ∀ (idx : Nat) (A A1 : DataFile), commitTokens stk k toks idx A = some A1 →
      Ext A A1 ∧ ∀ Z B, Ext A1 Z → Mix B Z A →
        ∃ B1, commitTokens stk k toks idx B = some B1 ∧ Mix B1 Z A1 := by
  induction toks with
  | nil =>
    intro idx A A1 h
    simp only [commitTokens, Option.some.injEq] at h
    subst h
    exact ⟨Ext_refl A, fun Z B _ hmix => ⟨B, rfl, hmix⟩⟩
  | cons t ts ih =>
    intro idx A A1 h
    simp only [commitTokens] at h
    cases hts : topSubscript A stk k with
    | none => simp [hts] at h
    | some r =>
      obtain ⟨r1, ref⟩ := r
      simp only [hts] at h
      cases hup : r1.updateAt ref (fun d => some (d.storeValue (Trim t) idx, ())) with
      | none => simp [hup] at h
      | some r2 =>
        obtain ⟨r2, u⟩ := r2
        simp only [hup] at h
        obtain ⟨he1, hs1⟩ := topSubscript_sim A stk k r1 ref hts
        obtain ⟨he2, hs2⟩ := updateSet_sim r1 ref (Trim t) idx r2 hup
        obtain ⟨he3, hs3⟩ := ih (idx + 1) r2 A1 h
        refine ⟨Ext_trans _ _ _ he1 (Ext_trans _ _ _ he2 he3), fun Z B hZ hmix => ?_⟩
        have hZ2 : Ext r2 Z := Ext_trans _ _ _ he3 hZ
        have hZ1 : Ext r1 Z := Ext_trans _ _ _ he2 hZ2
        obtain ⟨hB1, hm1⟩ := hs1 Z B hZ1 hmix
        obtain ⟨B2, hB2, hm2⟩ := hs2 Z B hZ2 hm1
        obtain ⟨B3, hB3, hm3⟩ := hs3 Z B2 hZ hm2
        refine ⟨B3, ?_, hm3⟩
        simp only [commitTokens, hB1, hB2]
        exact hB3

theorem tokenize_sim (stk : List (List Nat)) (k : Str) (cs : Str) :
    ∀ (bQuotes : Bool) (toks : List Str) (A : DataFile) (toks1 : List Str) (A1 : DataFile),
      tokenize stk k cs bQuotes toks A = some (toks1, A1) →
      Ext A A1 ∧ ∀ Z B, Ext A1 Z → Mix B Z A →
        ∃ B1, tokenize stk k cs bQuotes toks B = some (toks1, B1) ∧ Mix B1 Z A1 := by
  induction cs with
  | nil =>
    intro bQuotes toks A toks1 A1 h
    simp only [tokenize, Option.some.injEq, Prod.mk.injEq] at h
    obtain ⟨h1, h2⟩ := h
    subst h1
    subst h2
    exact ⟨Ext_refl A, fun Z B _ hmix => ⟨B, rfl, hmix⟩⟩
  | cons c cs ih =>
    intro bQuotes toks A toks1 A1 h
    simp only [tokenize] at h ⊢
    by_cases hq : c = '"'
    · simp only [hq, if_true] at h ⊢
      exact ih _ _ _ _ _ h
    · simp only [hq, if_false] at h ⊢
      by_cases hb : bQuotes = true
      · simp only [hb, if_true] at h ⊢
        cases hba : backAppend toks c with
        | none => simp [hba] at h
        | some toks2 =>
          simp only [hba] at h ⊢
          exact ih _ _ _ _ _ h
      · simp only [hb, if_false, Bool.false_eq_true] at h ⊢
        by_cases hsemi : c = ';'
        · simp only [hsemi, if_true] at h ⊢
          cases hcm : commitTokens stk k toks 0 A with
          | none => simp [hcm] at h
          | some r1 =>
            simp only [hcm] at h
            obtain ⟨he1, hs1⟩ := commitTokens_sim stk k toks 0 A r1 hcm
            obtain ⟨he2, hs2⟩ := ih _ _ _ _ _ h
            refine ⟨Ext_trans _ _ _ he1 he2, fun Z B hZ hmix => ?_⟩
            obtain ⟨B1, hB1, hm1⟩ := hs1 Z B (Ext_trans _ _ _ he2 hZ) hmix
            obtain ⟨B2, hB2, hm2⟩ := hs2 Z B1 hZ hm1
            refine ⟨B2, ?_, hm2⟩
            simp only [hB1]
            exact hB2
        · simp only [hsemi, if_false] at h ⊢
          by_cases hcomma : c = ','
          · simp only [hcomma, if_true] at h ⊢
            exact ih _ _ _ _ _ h
          · simp only [hcomma, if_false] at h ⊢
            cases hba : backAppend toks c with
            | none => simp [hba] at h
            | some toks2 =>
              simp only [hba] at h ⊢
              exact ih _ _ _ _ _ h

theorem ProcessLine_sim (st st1 : ReadState) (sLine : Str)
    (h : ProcessLine st sLine = some st1) :
    Ext st.dataFile st1.dataFile ∧ ∀ Z B, Ext st1.dataFile Z → Mix B Z st.dataFile →
      ∃ B1, ProcessLine ⟨B, st.stack, st.sFieldName, st.sFieldValue⟩ sLine =
          some ⟨B1, st1.stack, st1.sFieldName, st1.sFieldValue⟩ ∧
        Mix B1 Z st1.dataFile := by
  unfold ProcessLine at h ⊢
  by_cases he : sLine.isEmpty = true
  · simp only [he, if_true, Option.some.injEq] at h ⊢
    subst h
    exact ⟨Ext_refl _, fun Z B _ hmix => ⟨B, rfl, hmix⟩⟩
  · simp only [he, if_false, Bool.false_eq_true] at h ⊢
    by_cases hi : List.indexOf '=' sLine = sLine.length
    · simp only [hi, if_true] at h ⊢
      by_cases hopen : sLine.head? = some '{'
      · simp only [hopen, if_true] at h ⊢
        cases hts : topSubscript st.dataFile st.stack st.sFieldName with
        | none => simp [hts] at h
        | some r =>
          obtain ⟨r1, ref⟩ := r
          simp only [hts, Option.some.injEq] at h
          subst h
          obtain ⟨he1, hs1⟩ := topSubscript_sim _ _ _ r1 ref hts
          refine ⟨he1, fun Z B hZ hmix => ?_⟩
          obtain ⟨hB, hm⟩ := hs1 Z B hZ hmix
          exact ⟨B, by simp only [hB], hm⟩
      · simp only [hopen, if_false] at h ⊢
        by_cases hclose : sLine.getLast? = some '}'
        · simp only [hclose, if_true] at h ⊢
          cases hstk : st.stack with
          | nil => simp [hstk] at h
          | cons top below =>
            simp only [hstk, Option.some.injEq] at h
            subst h
            exact ⟨Ext_refl _, fun Z B _ hmix => ⟨B, rfl, hmix⟩⟩
        · simp only [hclose, if_false, Option.some.injEq] at h ⊢
          subst h
          exact ⟨Ext_refl _, fun Z B _ hmix => ⟨B, rfl, hmix⟩⟩
    · simp only [hi, if_false] at h ⊢
      cases htk : tokenize st.stack (Trim (sLine.take (List.indexOf '=' sLine)))
          (Trim (sLine.drop (List.indexOf '=' sLine + 1))) false [[]] st.dataFile with
      | none => simp [htk] at h
      | some r =>
        obtain ⟨toks1, r1⟩ := r
        simp only [htk] at h
        cases hcm : commitTokens st.stack (Trim (sLine.take (List.indexOf '=' sLine)))
            toks1 0 r1 with
        | none => simp [hcm] at h
        | some r2 =>
          simp only [hcm, Option.some.injEq] at h
          subst h
          obtain ⟨he1, hs1⟩ := tokenize_sim _ _ _ _ _ _ _ _ htk
          obtain ⟨he2, hs2⟩ := commitTokens_sim _ _ _ _ _ _ hcm
          refine ⟨Ext_trans _ _ _ he1 he2, fun Z B hZ hmix => ?_⟩
          obtain ⟨B1, hB1, hm1⟩ := hs1 Z B (Ext_trans _ _ _ he2 hZ) hmix
          obtain ⟨B2, hB2, hm2⟩ := hs2 Z B1 hZ hm1
          exact ⟨B2, by simp only [hB1, hB2], hm2⟩

theorem ReadLines_sim (lines : List Str) :
    ∀ (st st1 : ReadState), ReadLines st lines = some st1 →
      Ext st.dataFile st1.dataFile ∧ ∀ Z B, Ext st1.dataFile Z → Mix B Z st.dataFile →
        ∃ B1, ReadLines ⟨B, st.stack, st.sFieldName, st.sFieldValue⟩ lines =
            some ⟨B1, st1.stack, st1.sFieldName, st1.sFieldValue⟩ ∧
          Mix B1 Z st1.dataFile := by
  induction lines with
  | nil =>
    intro st st1 h
    simp only [ReadLines, Option.some.injEq] at h
    subst h
    exact ⟨Ext_refl _, fun Z B _ hmix => ⟨B, rfl, hmix⟩⟩
  | cons l ls ih =>
    intro st st1 h
    obtain ⟨st0, h0, h1⟩ := ReadLines_cons_some st st1 l ls h
    rw [ReadLine_eq_ProcessLine] at h0
    obtain ⟨he1, hs1⟩ := ProcessLine_sim st st0 _ h0
    obtain ⟨he2, hs2⟩ := ih st0 st1 h1
    refine ⟨Ext_trans _ _ _ he1 he2, fun Z B hZ hmix => ?_⟩
    obtain ⟨B1, hB1, hm1⟩ := hs1 Z B (Ext_trans _ _ _ he2 hZ) hmix
    obtain ⟨B2, hB2, hm2⟩ := hs2 Z B1 hZ hm1
    refine ⟨B2, ?_, hm2⟩
    simp only [ReadLines, ReadLine_eq_ProcessLine, hB1]
    exact hB2

theorem nodeAt_cons_bind (d : DataFile) (i : Nat) (q : List Nat) :
    d.nodeAt (i :: q) = (d.m_vObjects[i]?).bind (fun o => o.2.nodeAt q) := by
  simp only [nodeAt]
  cases d.m_vObjects[i]? <;> rfl

theorem objects_eq_of_shallow (l : List (Str × DataFile)) :
    ∀ l1 : List (Str × DataFile),
      (∀ (i : Nat) (q : List Nat) (z : DataFile),
        (l[i]?).bind (fun o => o.2.nodeAt q) = some z →
        ∃ b, (l1[i]?).bind (fun o => o.2.nodeAt q) = some b ∧ shallow b = shallow z) →
      l1.map Prod.fst = l.map Prod.fst → l1 = l := by
  refine objects_induction
    (fun l => ∀ l1 : List (Str × DataFile),
      (∀ (i : Nat) (q : List Nat) (z : DataFile),
        (l[i]?).bind (fun o => o.2.nodeAt q) = some z →
        ∃ b, (l1[i]?).bind (fun o => o.2.nodeAt q) = some b ∧ shallow b = shallow z) →
      l1.map Prod.fst = l.map Prod.fst → l1 = l) ?_ ?_ l
  · intro l1 _ hn
    simpa using hn
  · intro n c rest hc hrest l1 hall hn
    cases l1 with
    | nil => simp at hn
    | cons x xs =>
      obtain ⟨n1, c1⟩ := x
      simp only [List.map_cons, List.cons.injEq] at hn
      obtain ⟨hn1, hns⟩ := hn
      subst hn1
      have hxs : xs = rest := hrest xs (fun i q z hz => by
        have := hall (i + 1) q z (by simpa using hz)
        simpa using this) hns
      obtain ⟨b, hb, hsh⟩ := hall 0 [] c (by simp [nodeAt])
      simp only [List.getElem?_cons_zero, Option.some_bind, nodeAt, Option.some.injEq] at hb
      subst hb
      simp only [shallow, Prod.mk.injEq] at hsh
      have hobjs : c1.m_vObjects = c.m_vObjects := hc c1.m_vObjects (fun i q z hz => by
        have := hall 0 (i :: q) z (by simpa [nodeAt_cons_bind] using hz)
        simpa [nodeAt_cons_bind] using this) hsh.2.1
      have hc1 : c1 = c := by
        cases c1
        cases c
        simp only at hsh hobjs
        simp only [mk.injEq]
        exact ⟨hsh.1, hobjs, hsh.2.2⟩
      rw [hc1, hxs]

theorem eq_of_shallow (Z B : DataFile)
    (h : ∀ q z, Z.nodeAt q = some z → ∃ b, B.nodeAt q = some b ∧ shallow b = shallow z) :
    B = Z := by
  obtain ⟨b, hb, hsh⟩ := h [] Z rfl
  simp only [nodeAt, Option.some.injEq] at hb
  subst hb
  simp only [shallow, Prod.mk.injEq] at hsh
  have hobjs : B.m_vObjects = Z.m_vObjects :=
    objects_eq_of_shallow Z.m_vObjects B.m_vObjects (fun i q z hz => by
      have := h (i :: q) z (by simpa [nodeAt_cons_bind] using hz)
      simpa [nodeAt_cons_bind] using this) hsh.2.1
  cases B
  cases Z
  simp only at hsh hobjs
  simp only [mk.injEq]
  exact ⟨hsh.1, hobjs, hsh.2.2⟩

theorem eq_of_Mix (B Z : DataFile) (h : Mix B Z Z) : B = Z := by
  apply eq_of_shallow
  intro q z hz
  obtain ⟨b, hb, h1, h2, h3, h4⟩ := h q z hz
  refine ⟨b, hb, ?_⟩
  simp only [shallow, Prod.mk.injEq]
  refine ⟨?_, h1, h2⟩
  apply List.ext_getElem?
  intro j
  rcases h4 j with hj | ⟨a0, ha0, _, hj⟩
  · exact hj
  · rw [hz] at ha0
    cases ha0
    exact hj

/-- Claim C20 (decoding is idempotent). For every starting tree `T` and every text
on which decoding into `T` is defined, with result `T1`: decoding the same text
into `T1` is defined, returns the same flag, and gives the tree `T1` again, equal
in its values, its children with their order and content, and its name index. -/
theorem decoding_idempotent (T : DataFile) (text : Str) (b : Bool) (T1 : DataFile)
    (h : Read T (some text) = some (b, T1)) :
    Read T1 (some text) = some (b, T1) := by
  simp only [Read] at h ⊢
  cases hrun : ReadLines ⟨T, [[]], [], []⟩ (getlines text) with
  | none => simp [hrun] at h
  | some st =>
    simp only [hrun, Option.some.injEq, Prod.mk.injEq] at h
    obtain ⟨hb, hT1⟩ := h
    subst hb
    subst hT1
    obtain ⟨_, hsim⟩ := ReadLines_sim (getlines text) ⟨T, [[]], [], []⟩ st hrun
    obtain ⟨B1, hB1, hmix⟩ := hsim st.dataFile st.dataFile (Ext_refl _) (Mix_self _ _)
    have := eq_of_Mix B1 st.dataFile hmix
    subst this
    simp only [hB1]

/-- Claim C20 at a tree that holds a root value and a child `a` with three values,
and a text that assigns `a` twice and opens a section: the second decoding gives
the result of the first. -/
theorem decoding_idempotent_witness :
    Read ⟨["r".toList],
        [("a".toList, ⟨["2".toList, "3".toList, "9".toList], [], []⟩),
         ("s".toList, ⟨[], [("b".toList, ⟨["x".toList], [], []⟩)], [("b".toList, 0)]⟩)],
        [("a".toList, 0), ("s".toList, 1)]⟩
      (some "a = 1;\na = 2, 3;\ns\n\x7b\n\tb = x;\n\x7d\n".toList) =
    some (true, ⟨["r".toList],
        [("a".toList, ⟨["2".toList, "3".toList, "9".toList], [], []⟩),
         ("s".toList, ⟨[], [("b".toList, ⟨["x".toList], [], []⟩)], [("b".toList, 0)]⟩)],
        [("a".toList, 0), ("s".toList, 1)]⟩) :=
  decoding_idempotent
    ⟨["r".toList], [("a".toList, ⟨["0".toList, "1".toList, "9".toList], [], []⟩)],
      [("a".toList, 0)]⟩
    "a = 1;\na = 2, 3;\ns\n\x7b\n\tb = x;\n\x7d\n".toList true _ rfl

end DataFile
